import Mathlib

/-!
# accel-ppp DHCPv4 engine: address pool and message parser

A shallow embedding of `accel-pppd/ctrl/ipoe/dhcpv4.c`.

Machine integers are natural numbers holding the bit pattern of the C value:
an `int`, `unsigned int` or `uint32_t` is a number below `2 ^ 32`, a `long` a
number below `2 ^ (8 * sizeof(long))`.  Signed arithmetic wraps (two's
complement).  What the C language leaves to the implementation is collected in
`Target`.
-/

namespace Dhcpv4

/-! ## The C implementation the program is compiled for -/

/-- What the source leaves to the C implementation: the size of `long` in
bytes (the source sizes its bitmap words with `sizeof(long)`), the byte order
of the host (for `htonl`/`ntohl` and for loads of a `uint32_t`), and the `int`
that `1 << s` yields when the count `s` is 32 or more (ISO C gives such a shift
no meaning; the theorems below hold for every value it may yield). -/
structure Target where
  sizeof_long : Nat
  little_endian : Bool
  shl_oob : Nat → Nat

/-- Linux on x86-64: 8-byte `long`, little endian, a 32-bit shift instruction
that takes its count modulo 32. -/
def linux_x86_64 : Target := ⟨8, true, fun s => 2 ^ (s % 32)⟩

/-- Linux on i386: 4-byte `long`, little endian, count taken modulo 32. -/
def linux_i386 : Target := ⟨4, true, fun s => 2 ^ (s % 32)⟩

/-- Number of bits of a bitmap word: `8 * sizeof(long)`. -/
def long_bits (T : Target) : Nat := 8 * T.sizeof_long

/-- Value of the `int` expression `1 << s`. -/
def int_shl1 (T : Target) (s : Nat) : Nat :=
  if s < 32 then 2 ^ s else T.shl_oob s % 2 ^ 32

/-- Subtraction on 32-bit integers (`int` or `unsigned int`), wrapping. -/
def int_sub (x y : Nat) : Nat := (x % 2 ^ 32 + 2 ^ 32 - y % 2 ^ 32) % 2 ^ 32

/-- Addition on 32-bit integers, wrapping. -/
def int_add (x y : Nat) : Nat := (x + y) % 2 ^ 32

/-- Bitwise complement `~x` of a 32-bit integer. -/
def int_not (x : Nat) : Nat := (x % 2 ^ 32) ^^^ (2 ^ 32 - 1)

/-- Conversion of an `int` (bit pattern `x`) to `long` or `size_t`: the value
is kept, so a negative `int` is sign-extended. -/
def int_to_long (T : Target) (x : Nat) : Nat :=
  if x % 2 ^ 32 < 2 ^ 31 then x % 2 ^ 32
  else (x % 2 ^ 32 + (2 ^ long_bits T - 2 ^ 32)) % 2 ^ long_bits T

/-- Reversal of the four bytes of a 32-bit integer. -/
def bswap32 (x : Nat) : Nat :=
  (x % 256) * 16777216 + (x / 256 % 256) * 65536 + (x / 65536 % 256) * 256
    + (x / 16777216 % 256)

/-- Library function `htonl`: host to network byte order. -/
def htonl (T : Target) (x : Nat) : Nat :=
  if T.little_endian then bswap32 x else x % 2 ^ 32

/-- Library function `ntohl`: network to host byte order. -/
def ntohl (T : Target) (x : Nat) : Nat :=
  if T.little_endian then bswap32 x else x % 2 ^ 32

/-- Search for the lowest set bit of `w` among bits `i, i+1, ...`, looking at
`n` bits; the result is the bit position plus one, or 0. -/
def ffs_from (w : Nat) : Nat → Nat → Nat
  | 0, _ => 0
  | n + 1, i => if w.testBit i then i + 1 else ffs_from w n (i + 1)

/-- Library function `ffsl`: position of the least significant set bit of a
`long`, counting from 1; 0 when no bit is set. -/
def ffsl (T : Target) (w : Nat) : Nat := ffs_from w (long_bits T) 0

/-! ## Address range -/

/-- The fields of `struct dhcpv4_iprange` that the source uses (the lock is
left out: every function below is one critical section). `free` is the array
of bitmap words, one bit per address, 1 = free. -/
structure dhcpv4_iprange where
  routerip : Nat
  startip : Nat
  mask : Nat
  pos : Nat
  len : Nat
  free : List Nat
deriving DecidableEq

/-- The statement `free[i] &= x`. -/
def word_and (ws : List Nat) (i x : Nat) : List Nat := ws.set i (ws.getD i 0 &&& x)

/-- The statement `free[i] |= x`. -/
def word_or (ws : List Nat) (i x : Nat) : List Nat := ws.set i (ws.getD i 0 ||| x)

/-- Function `parse_range`, applied to what `sscanf(str, "%u.%u.%u.%u/%u", ...)`
delivered: the number `n` of converted fields and the five `unsigned int`
values.  `none` is the `parse_err` exit (`NULL`). -/
def parse_range (T : Target) (n f1 f2 f3 f4 m : Nat) : Option dhcpv4_iprange :=
  if n ≠ 5 then none
  else if f1 > 255 then none
  else if f2 > 255 then none
  else if f3 > 255 then none
  else if f4 > 255 then none
  else if m = 0 ∨ m > 30 then none
  else
    let start := ((f1 <<< 24) ||| (f2 <<< 16) ||| (f3 <<< 8) ||| f4) % 2 ^ 32
    let mask := int_not (int_sub (int_shl1 T (32 - m)) 1)
    let start := start &&& mask
    let end_ := start ||| int_not mask
    let len := int_sub (int_sub end_ start) 1 / long_bits T + 1
    let free := List.replicate len (2 ^ long_bits T - 1)
    let end_ := int_sub end_ start
    let free := word_and free (int_sub end_ 1 / long_bits T)
      (int_to_long T (int_sub (int_shl1 T (int_sub end_ 1 % long_bits T + 1)) 1))
    let free := word_and free 0 (int_to_long T (int_not 3))
    some ⟨int_add start 1, start, m, 0, len, free⟩

/-- The `for` loop of `dhcpv4_get_ip`: the first word index `i` from the given
one up to `len - 1` with `ffsl(free[i]) != 0`, together with that `k`. The first
argument bounds the number of iterations. -/
def get_ip_scan (T : Target) (r : dhcpv4_iprange) : Nat → Nat → Option (Nat × Nat)
  | 0, _ => none
  | fuel + 1, i =>
    if i < r.len then
      let k := ffsl T (r.free.getD i 0)
      if k ≠ 0 then some (i, k) else get_ip_scan T r fuel (i + 1)
    else none

/-- The branch `if (k) { ... return 1; }` of `dhcpv4_get_ip`: clears the bit,
moves the cursor, and yields `(*yiaddr, *siaddr, *mask)`. -/
def get_ip_take (T : Target) (r : dhcpv4_iprange) (i k : Nat) :
    dhcpv4_iprange × Option (Nat × Nat × Nat) :=
  ({ r with free := word_and r.free i (int_to_long T (int_not (int_shl1 T (k - 1)))), pos := i },
   some (htonl T ((r.startip + i * 8 * T.sizeof_long + k - 1) % 2 ^ 32),
         htonl T r.routerip, r.mask))

/-- The critical section of `dhcpv4_get_ip`. The `while (1)` loop runs at most
twice: the first pass scans from `pos`; if it finds nothing and `pos` is not 0,
`pos` is set to 0 and the second pass scans from 0 and then leaves through
`break`. -/
def range_get_ip (T : Target) (r : dhcpv4_iprange) :
    dhcpv4_iprange × Option (Nat × Nat × Nat) :=
  match get_ip_scan T r (r.len - r.pos) r.pos with
  | some (i, k) => get_ip_take T r i k
  | none =>
    if r.pos = 0 then (r, none)
    else
      let r0 := { r with pos := 0 }
      match get_ip_scan T r0 r0.len 0 with
      | some (i, k) => get_ip_take T r0 i k
      | none => (r0, none)

/-- The critical section of `dhcpv4_put_ip`, with `n` computed before it.
A store outside the array is outside this model and leaves the bitmap as it
is. -/
def range_put_ip (T : Target) (r : dhcpv4_iprange) (ip : Nat) : dhcpv4_iprange :=
  let n := int_to_long T (int_sub (ntohl T ip) r.startip)
  { r with free := word_or r.free (n / long_bits T) (int_to_long T (int_shl1 T (n % long_bits T))) }

/-- The fields of `struct dhcpv4_serv` used here: the interface hardware
address and the optional address range. -/
structure dhcpv4_serv where
  hwaddr : List Nat
  range : Option dhcpv4_iprange
deriving DecidableEq

/-- Function `dhcpv4_get_ip`: `none` is the return value 0, `some (yiaddr,
siaddr, mask)` the return value 1 with the three results. -/
def dhcpv4_get_ip (T : Target) (serv : dhcpv4_serv) :
    dhcpv4_serv × Option (Nat × Nat × Nat) :=
  match serv.range with
  | none => (serv, none)
  | some r => ({ serv with range := some (range_get_ip T r).1 }, (range_get_ip T r).2)

/-- Function `dhcpv4_put_ip`. Without a range the source dereferences a null
pointer; the model leaves the server as it is. -/
def dhcpv4_put_ip (T : Target) (serv : dhcpv4_serv) (ip : Nat) : dhcpv4_serv :=
  match serv.range with
  | none => serv
  | some r => { serv with range := some (range_put_ip T r ip) }

/-! ## Sequences of allocations and releases -/

/-- One call made by the session logic: an allocation (`dhcpv4_get_ip`) or the
release of an address (`dhcpv4_put_ip`). -/
inductive pool_op where
  | get : pool_op
  | put (ip : Nat) : pool_op
deriving DecidableEq

/-- The server together with the addresses handed out and not yet released,
most recent first. -/
structure pool_state where
  serv : dhcpv4_serv
  leased : List Nat
deriving DecidableEq

/-- Effect of one call. A release is admitted only for an address that was
returned by an earlier allocation and has not been released since; any other
release ends the run with `none`. -/
def pool_step (T : Target) (s : pool_state) : pool_op → Option pool_state
  | .get =>
    match (dhcpv4_get_ip T s.serv).2 with
    | some (y, _, _) => some ⟨(dhcpv4_get_ip T s.serv).1, y :: s.leased⟩
    | none => some ⟨(dhcpv4_get_ip T s.serv).1, s.leased⟩
  | .put ip =>
    if ip ∈ s.leased then some ⟨dhcpv4_put_ip T s.serv ip, s.leased.erase ip⟩ else none

/-- Effect of a sequence of calls, from left to right. -/
def pool_run (T : Target) : pool_state → List pool_op → Option pool_state
  | s, [] => some s
  | s, op :: ops =>
    match pool_step T s op with
    | none => none
    | some s1 => pool_run T s1 ops

/-! ## Invariant of the address pool -/

/-- Invariant of an address range under allocations and releases, for a block
starting at `start` whose broadcast address has index `E`; `L` lists the
addresses handed out and not yet released. -/
def pool_inv (T : Target) (start E : Nat) (r : dhcpv4_iprange) (L : List Nat) : Prop :=
  r.startip = start ∧ r.free.length = r.len ∧
  (∀ i j, j < 32 → (r.free.getD i 0).testBit j = true →
      2 ≤ i * long_bits T + j ∧ i * long_bits T + j < E) ∧
  (∀ i j, 32 ≤ j → (r.free.getD i 0).testBit j = true → (r.free.getD i 0).testBit 31 = true) ∧
  L.Nodup ∧
  (∀ a, a ∈ L → ∃ i j, j < 32 ∧ i < r.len ∧ a = htonl T (start + (i * long_bits T + j)) ∧
      (r.free.getD i 0).testBit j = false ∧
      2 ≤ i * long_bits T + j ∧ i * long_bits T + j < E)

/-- The address `f1.f2.f3.f4` as a 32-bit number in host order. -/
def ipv4 (f1 f2 f3 f4 : Nat) : Nat := f1 * 2 ^ 24 + f2 * 2 ^ 16 + f3 * 2 ^ 8 + f4

/-- Invariant of the server over a sequence of calls: it has a range, the
range satisfies `pool_inv`, and the router address and mask are the
configured ones. -/
def serv_inv (T : Target) (start E rt m : Nat) (s : pool_state) : Prop :=
  ∃ r, s.serv.range = some r ∧ pool_inv T start E r s.leased ∧ r.routerip = rt ∧ r.mask = m

/-- Number of set bits among bits `0 .. n-1` of `w`. -/
def bit_count (w : Nat) : Nat → Nat
  | 0 => 0
  | n + 1 => bit_count w n + (if w.testBit n then 1 else 0)

/-- Number of free addresses recorded in the bitmap of a range. -/
def free_count (T : Target) (r : dhcpv4_iprange) : Nat :=
  (r.free.map (fun w => bit_count w (long_bits T))).sum

/-! ## Message parser -/

/-- The byte at offset `i` of the packet buffer `pack->data`. The buffer is
modelled as the whole memory behind the pointer, so that a load beyond the
received length has a value too. -/
def rd (data : Nat → Nat) (i : Nat) : Nat := data i % 256

/-- Load of a `uint32_t` at offset `off`, as in `*(uint32_t *)opt->data`. -/
def load32 (T : Target) (data : Nat → Nat) (off : Nat) : Nat :=
  if T.little_endian then
    rd data off + rd data (off + 1) * 256 + rd data (off + 2) * 65536
      + rd data (off + 3) * 16777216
  else
    rd data off * 16777216 + rd data (off + 1) * 65536 + rd data (off + 2) * 256
      + rd data (off + 3)

/-- Modelled from the spec: `sizeof(struct dhcpv4_hdr)`. The header file
`dhcpv4.h` is not among the sources; section 6 of the specification gives the
layout op(1) htype(1) hlen(1) hops(1) xid(4) secs(2) flags(2) ciaddr(4)
yiaddr(4) siaddr(4) giaddr(4) chaddr(16) sname(64) file(128) magic(4). -/
def sizeof_dhcpv4_hdr : Nat := 240

/-- Modelled from the spec: offset of the field `op` in `struct dhcpv4_hdr`. -/
def hdr_op : Nat := 0

/-- Modelled from the spec: offset of the field `htype` in `struct dhcpv4_hdr`. -/
def hdr_htype : Nat := 1

/-- Modelled from the spec: offset of the field `hlen` in `struct dhcpv4_hdr`. -/
def hdr_hlen : Nat := 2

/-- Modelled from the spec: offset of the field `magic` in `struct dhcpv4_hdr`. -/
def hdr_magic : Nat := 236

/-- Modelled from the spec: the constant `DHCP_OP_REQUEST` of `dhcpv4.h`, the
operation code of a request (1). -/
def DHCP_OP_REQUEST : Nat := 1

/-- The constant `DHCP_MAGIC` of the source. -/
def DHCP_MAGIC : List Nat := [0x63, 0x82, 0x53, 0x63]

/-- An entry of the option list (`struct dhcpv4_option`): type, length, and the
offset in the packet buffer at which `data` points. -/
structure dhcpv4_option where
  type : Nat
  len : Nat
  data : Nat
deriving DecidableEq

/-- The fields of `struct dhcpv4_packet` that the parser sets; the buffer is
passed separately. -/
structure dhcpv4_packet where
  options : List dhcpv4_option
  agent_circuit_id : Option dhcpv4_option
  agent_remote_id : Option dhcpv4_option
  request_ip : Nat
  server_id : Nat
  msg_type : Nat
deriving DecidableEq

/-- The packet as `dhcpv4_packet_alloc` leaves it: all fields zero, the option
list empty. -/
def dhcpv4_packet_alloc : dhcpv4_packet := ⟨[], none, none, 0, 0, 0⟩

/-- The loop of `parse_opt82`; the Boolean tells whether the function returns 0
(`true`) or -1 (`false`). The first argument bounds the number of iterations;
`mempool_alloc` is taken to succeed. -/
def parse_opt82_loop (data : Nat → Nat) (endptr : Nat) :
    Nat → Nat → dhcpv4_packet → Bool × dhcpv4_packet
  | 0, _, pack => (true, pack)
  | fuel + 1, ptr, pack =>
    if ptr < endptr then
      let type := rd data ptr
      let len := rd data (ptr + 1)
      let ptr := ptr + 2
      if ptr + len > endptr then (false, pack)
      else
        let pack :=
          if type = 1 then { pack with agent_circuit_id := some ⟨type, len, ptr⟩ }
          else if type = 2 then { pack with agent_remote_id := some ⟨type, len, ptr⟩ }
          else pack
        parse_opt82_loop data endptr fuel (ptr + len) pack
    else (true, pack)

/-- Function `parse_opt82`. -/
def parse_opt82 (data : Nat → Nat) (pack : dhcpv4_packet) (opt : dhcpv4_option) :
    Bool × dhcpv4_packet :=
  parse_opt82_loop data (opt.data + opt.len) opt.len opt.data pack

/-- The statements of `dhcpv4_parse_packet` that follow `list_add_tail`: what
is recorded for options 53, 82, 50 and 54. -/
def record_option (T : Target) (data : Nat → Nat) (pack : dhcpv4_packet)
    (opt : dhcpv4_option) : dhcpv4_packet :=
  if opt.type = 53 then { pack with msg_type := rd data opt.data }
  else if opt.type = 82 then (parse_opt82 data pack opt).2
  else if opt.type = 50 then { pack with request_ip := load32 T data opt.data }
  else if opt.type = 54 then { pack with server_id := load32 T data opt.data }
  else pack

/-- The option loop of `dhcpv4_parse_packet`, from `ptr` to `endptr`. `none` is
the exit `return -1` inside the loop; otherwise the result is `ptr` and the
packet when the loop is left. The first argument bounds the number of
iterations; `mempool_alloc` is taken to succeed. -/
def parse_options_loop (T : Target) (data : Nat → Nat) (endptr : Nat) :
    Nat → Nat → dhcpv4_packet → Option (Nat × dhcpv4_packet)
  | 0, ptr, pack => some (ptr, pack)
  | fuel + 1, ptr, pack =>
    if ptr < endptr then
      if rd data ptr = 0 then parse_options_loop T data endptr fuel (ptr + 1) pack
      else if rd data ptr = 0xff then some (ptr, pack)
      else
        let opt : dhcpv4_option := ⟨rd data ptr, rd data (ptr + 1), ptr + 2⟩
        let ptr := ptr + 2 + opt.len
        if ptr > endptr then none
        else
          let pack := { pack with options := pack.options ++ [opt] }
          parse_options_loop T data endptr fuel ptr (record_option T data pack opt)
    else some (ptr, pack)

/-- Function `dhcpv4_parse_packet` on the buffer `data` with `len` received
bytes (`len` is the count `recvfrom` returned, which the caller has checked
not to be -1). `none` is the return value -1, `some pack` the return value 0
with the packet as filled in. `check_options` stands for the function
`dhcpv4_check_options`, which is not among the sources: `true` means that it
returned non-zero. -/
def dhcpv4_parse_packet (T : Target) (check_options : dhcpv4_packet → Bool)
    (data : Nat → Nat) (len : Nat) : Option dhcpv4_packet :=
  if len < sizeof_dhcpv4_hdr then none
  else if rd data hdr_op ≠ DHCP_OP_REQUEST then none
  else if rd data hdr_htype ≠ 1 then none
  else if rd data hdr_hlen ≠ 6 then none
  else if (List.range 4).map (fun i => rd data (hdr_magic + i)) ≠ DHCP_MAGIC then none
  else
    match parse_options_loop T data len (len - sizeof_dhcpv4_hdr) sizeof_dhcpv4_hdr
        dhcpv4_packet_alloc with
    | none => none
    | some (_, pack) =>
      if pack.msg_type = 0 ∨ pack.msg_type > 8 then none
      else if check_options pack then none
      else some pack

/-- The bytes of the buffer at offsets `a, a+1, ..., a+n-1`. -/
def buf_bytes (data : Nat → Nat) (a : Nat) : Nat → List Nat
  | 0 => []
  | n + 1 => rd data a :: buf_bytes data (a + 1) n

/-- A buffer holding the given bytes from offset 0 on, and zero beyond. -/
def buf_of (bytes : List Nat) : Nat → Nat := fun i => bytes.getD i 0

/-- The option decoder as section 4.1 of the specification words it, on the
list of option bytes: a zero byte at an entry boundary is a pad and is skipped,
`0xFF` ends the list, every other entry takes a type byte, a length byte and
`length` data bytes, and decoding fails (`none`, "Truncated") when an entry
would end beyond the bytes. The first argument bounds the number of steps. -/
def decode_options_steps : Nat → List Nat → Option (List (Nat × Nat × List Nat))
  | 0, _ => some []
  | _ + 1, [] => some []
  | n + 1, t :: rest =>
    if t = 0 then decode_options_steps n rest
    else if t = 0xff then some []
    else
      match rest with
      | [] => none
      | l :: body =>
        if body.length < l then none
        else (decode_options_steps n (body.drop l)).map (fun es => (t, l, body.take l) :: es)

/-- The option decoder of the specification; as many steps as there are bytes
always suffice. -/
def decode_options (bytes : List Nat) : Option (List (Nat × Nat × List Nat)) :=
  decode_options_steps bytes.length bytes

/-- The entry `(type, length, data bytes)` that an element of the option list
stands for. -/
def option_entry (data : Nat → Nat) (o : dhcpv4_option) : Nat × Nat × List Nat :=
  (o.type, o.len, buf_bytes data o.data o.len)

/-- A sample fixed header for worked examples: a request (op 1) with hardware
type 1, hardware length 6, every other field zero, and the magic cookie. -/
def sample_header : List Nat :=
  [1, 1, 6, 0] ++ List.replicate 232 0 ++ [0x63, 0x82, 0x53, 0x63]

/-- The message type that the option loop records for a list of options: the
byte `data[0]` of the last option of type 53, or `init` when there is none. -/
def recorded_msg_type (data : Nat → Nat) (opts : List dhcpv4_option) (init : Nat) : Nat :=
  opts.foldl (fun m o => if o.type = 53 then rd data o.data else m) init

/-! ## Reply builder and transmission -/

/-- The bytes in memory of a 32-bit object (`int`, `uint32_t`, `in_addr_t`)
that holds `x`, lowest address first. -/
def int_bytes (T : Target) (x : Nat) : List Nat :=
  if T.little_endian then [x % 256, x / 256 % 256, x / 65536 % 256, x / 16777216 % 256]
  else [x / 16777216 % 256, x / 65536 % 256, x / 256 % 256, x % 256]

/-- The bytes in memory of a 16-bit object (`uint16_t`) that holds `x`, lowest
address first. -/
def short_bytes (T : Target) (x : Nat) : List Nat :=
  if T.little_endian then [x % 256, x / 256 % 256] else [x / 256 % 256, x % 256]

/-- Reversal of the two bytes of a 16-bit integer. -/
def bswap16 (x : Nat) : Nat := (x % 256) * 256 + x / 256 % 256

/-- Library function `htons`: host to network byte order, 16 bits. -/
def htons (T : Target) (x : Nat) : Nat := if T.little_endian then bswap16 x else x % 65536

/-- Library function `ntohs`: network to host byte order, 16 bits. -/
def ntohs (T : Target) (x : Nat) : Nat := if T.little_endian then bswap16 x else x % 65536

/-- Load of a `uint16_t` at offset `off`, as in `*buf++` with `uint16_t *buf`. -/
def load16 (T : Target) (data : Nat → Nat) (off : Nat) : Nat :=
  if T.little_endian then rd data off + rd data (off + 1) * 256
  else rd data off * 256 + rd data (off + 1)

/-- Modelled from the spec: offset of the field `xid` in `struct dhcpv4_hdr`. -/
def hdr_xid : Nat := 4

/-- Modelled from the spec: offset of the field `secs` in `struct dhcpv4_hdr`. -/
def hdr_secs : Nat := 8

/-- Modelled from the spec: offset of the field `flags` in `struct dhcpv4_hdr`. -/
def hdr_flags : Nat := 10

/-- Modelled from the spec: offset of the field `ciaddr` in `struct dhcpv4_hdr`. -/
def hdr_ciaddr : Nat := 12

/-- Modelled from the spec: offset of the field `yiaddr` in `struct dhcpv4_hdr`. -/
def hdr_yiaddr : Nat := 16

/-- Modelled from the spec: offset of the field `siaddr` in `struct dhcpv4_hdr`. -/
def hdr_siaddr : Nat := 20

/-- Modelled from the spec: offset of the field `giaddr` in `struct dhcpv4_hdr`. -/
def hdr_giaddr : Nat := 24

/-- Modelled from the spec: offset of the field `chaddr` in `struct dhcpv4_hdr`. -/
def hdr_chaddr : Nat := 28

/-- Modelled from the spec: offset of the field `sname` in `struct dhcpv4_hdr`. -/
def hdr_sname : Nat := 44

/-- Modelled from the spec: offset of the field `file` in `struct dhcpv4_hdr`. -/
def hdr_file : Nat := 108

/-- Modelled from the spec: the constant `DHCP_OP_REPLY` of `dhcpv4.h`, the
operation code of a reply (2). -/
def DHCP_OP_REPLY : Nat := 2

/-- Modelled from the spec: the constant `DHCPOFFER` of `dhcpv4.h`; the message
types are numbered Discover 1, Offer 2, Request 3, Decline 4, Ack 5, Nak 6,
Release 7, Inform 8 (the order of `msg_name` in `dhcpv4_print_packet`). -/
def DHCPOFFER : Nat := 2

/-- Modelled from the spec: the constant `DHCPNAK` of `dhcpv4.h` (6). -/
def DHCPNAK : Nat := 6

/-- A store of the bytes `bs` at offset `off` of a byte array (a field
assignment or a `memcpy` inside the array). -/
def set_bytes (buf : List Nat) (off : Nat) (bs : List Nat) : List Nat :=
  buf.take off ++ bs ++ buf.drop (off + bs.length)

/-- Function `dhcpv4_packet_add_opt`. A packet under construction is the pair
of the bytes `data[0 .. ptr)` written so far and the packet record; `data` is
the memory at the source pointer, of which `len` bytes are copied.
`mempool_alloc` is taken to succeed. -/
def dhcpv4_packet_add_opt (buf : List Nat) (pack : dhcpv4_packet) (type : Nat)
    (data : List Nat) (len : Nat) : List Nat × dhcpv4_packet :=
  (buf ++ [type % 256, len % 256] ++ data.take len,
   { pack with options := pack.options ++ [⟨type % 256, len % 256, buf.length + 2⟩] })

/-- The header that `dhcpv4_send_reply` gives the reply: the copy of the
request header with `op`, `ciaddr`, `yiaddr` and `siaddr` assigned. (The
`memcpy` overwrites all of what `dhcpv4_packet_alloc` left in the header.) -/
def reply_header (T : Target) (msg_type : Nat) (req : Nat → Nat) (yiaddr siaddr : Nat) :
    List Nat :=
  let hdr := buf_bytes req 0 sizeof_dhcpv4_hdr
  let hdr := set_bytes hdr hdr_op [DHCP_OP_REPLY]
  let hdr := set_bytes hdr hdr_ciaddr (int_bytes T 0)
  let hdr := set_bytes hdr hdr_yiaddr (int_bytes T yiaddr)
  set_bytes hdr hdr_siaddr (int_bytes T (if msg_type = DHCPOFFER then siaddr else 0))

/-- The packet that `dhcpv4_send_reply` has built when it calls `dhcpv4_send`:
the bytes `data[0 .. ptr)` and the packet record. `conf_dns1` and `conf_dns2`
are the two configured DNS addresses. The diagnostic output under
`conf_verbose` is left out. -/
def dhcpv4_send_reply_packet (T : Target) (conf_dns1 conf_dns2 : Nat) (msg_type : Nat)
    (req : Nat → Nat) (yiaddr siaddr mask lease_time : Nat) : List Nat × dhcpv4_packet :=
  let s : List Nat × dhcpv4_packet := (reply_header T msg_type req yiaddr siaddr, dhcpv4_packet_alloc)
  let s := dhcpv4_packet_add_opt s.1 s.2 53 (int_bytes T msg_type) 1
  let s := dhcpv4_packet_add_opt s.1 s.2 54 (int_bytes T siaddr) 4
  let val := ntohl T lease_time
  let s := dhcpv4_packet_add_opt s.1 s.2 51 (int_bytes T val) 4
  let s := dhcpv4_packet_add_opt s.1 s.2 3 (int_bytes T siaddr) 4
  let val := htonl T (int_not (int_sub (int_shl1 T (int_sub 32 mask)) 1))
  let s := dhcpv4_packet_add_opt s.1 s.2 1 (int_bytes T val) 4
  let s :=
    if conf_dns1 ≠ 0 ∧ conf_dns2 ≠ 0 then
      dhcpv4_packet_add_opt s.1 s.2 6 (int_bytes T conf_dns1 ++ int_bytes T conf_dns2) 8
    else if conf_dns1 ≠ 0 then dhcpv4_packet_add_opt s.1 s.2 6 (int_bytes T conf_dns1) 4
    else s
  (s.1 ++ [255], s.2)

/-- The packet that `dhcpv4_send_nak` has built when it calls `dhcpv4_send`. -/
def dhcpv4_send_nak_packet (T : Target) (req : Nat → Nat) : List Nat × dhcpv4_packet :=
  let hdr := buf_bytes req 0 sizeof_dhcpv4_hdr
  let hdr := set_bytes hdr hdr_op [DHCP_OP_REPLY]
  let hdr := set_bytes hdr hdr_ciaddr (int_bytes T 0)
  let hdr := set_bytes hdr hdr_yiaddr (int_bytes T 0)
  let hdr := set_bytes hdr hdr_siaddr (int_bytes T 0)
  let val := DHCPNAK
  let s := dhcpv4_packet_add_opt hdr dhcpv4_packet_alloc 53 (int_bytes T val) 1
  (s.1 ++ [255], s.2)

/-- The loop `while (sum >> 16) sum = (sum & 0xffff) + (sum >> 16);` of
`ip_csum`. The first argument bounds the number of iterations. -/
def csum_fold : Nat → Nat → Nat
  | 0, sum => sum
  | fuel + 1, sum =>
    if sum >>> 16 ≠ 0 then csum_fold fuel ((sum &&& 0xffff) + (sum >>> 16)) else sum

/-- The 16-bit words that the `for` loop of `ip_csum` adds up: one for each
`i = 0, 2, 4, ...` below `len`. -/
def csum_words (T : Target) (buf : Nat → Nat) (len : Nat) : List Nat :=
  (List.range ((len + 1) / 2)).map (fun i => load16 T buf (2 * i))

/-- Function `ip_csum`: the sum is kept in a `uint32_t`; two rounds of the
carry loop always suffice for a 32-bit sum. -/
def ip_csum (T : Target) (buf : Nat → Nat) (len : Nat) : Nat :=
  let sum := (csum_words T buf len).foldl (fun s w => (s + w) % 2 ^ 32) 0
  let sum := csum_fold 2 sum
  let sum := int_not sum
  sum &&& 0xffff

/-- What is handed to the operating system for transmission: a datagram for
`sendto` on the UDP socket, with the destination address and port as held in
`struct sockaddr_in`, or the two parts of the `writev` on the raw socket. -/
inductive transmission where
  | udp (s_addr : Nat) (sin_port : Nat) (payload : List Nat) : transmission
  | raw (hdr : List Nat) (payload : List Nat) : transmission
deriving DecidableEq

/-- The 42 bytes `hdr` that `dhcpv4_send_raw` builds in front of a packet of
bytes `buf`: Ethernet, IPv4 and UDP header. -/
def raw_header (T : Target) (serv : dhcpv4_serv) (buf : List Nat) (saddr daddr : Nat) :
    List Nat :=
  let len := buf.length
  let eth := (buf.drop hdr_chaddr).take 6 ++ serv.hwaddr.take 6 ++ short_bytes T (htons T 0x0800)
  let ip := [4 * 16 + 5, 0x10] ++ short_bytes T (ntohs T ((20 + 8 + len) % 65536))
    ++ short_bytes T 0 ++ short_bytes T 0 ++ [128, 17] ++ short_bytes T 0
    ++ int_bytes T saddr ++ int_bytes T daddr
  let ip := set_bytes ip 10 (short_bytes T (ip_csum T (buf_of ip) 20))
  let udp := short_bytes T (ntohs T 67) ++ short_bytes T (ntohs T 68)
    ++ short_bytes T (htons T ((8 + len) % 65536)) ++ short_bytes T 0
  eth ++ ip ++ udp

/-- Function `dhcpv4_send_raw` on a packet of bytes `buf`; `n` is the value
that `writev` returns. The result is what was handed to `writev` and the
return value. -/
def dhcpv4_send_raw (T : Target) (serv : dhcpv4_serv) (buf : List Nat) (saddr daddr : Nat)
    (n : Int) : transmission × Int :=
  (transmission.raw (raw_header T serv buf saddr daddr) buf, if n < 0 then -1 else 0)

/-- Function `dhcpv4_send_udp` on a packet of bytes `buf`; `n` is the value
that `sendto` returns. -/
def dhcpv4_send_udp (T : Target) (buf : List Nat) (n : Int) : transmission × Int :=
  (transmission.udp (load32 T (buf_of buf) hdr_giaddr) (htons T 68) buf,
   if n ≠ (buf.length : Int) then -1 else 0)

/-- Function `dhcpv4_send`; `n` is the value that the one write call returns. -/
def dhcpv4_send (T : Target) (serv : dhcpv4_serv) (buf : List Nat) (saddr daddr : Nat)
    (n : Int) : transmission × Int :=
  if load32 T (buf_of buf) hdr_giaddr ≠ 0 then dhcpv4_send_udp T buf n
  else dhcpv4_send_raw T serv buf saddr daddr n

/-- Function `dhcpv4_send_reply`; `n` is the value that the write call returns. -/
def dhcpv4_send_reply (T : Target) (conf_dns1 conf_dns2 : Nat) (msg_type : Nat)
    (serv : dhcpv4_serv) (req : Nat → Nat) (yiaddr siaddr mask lease_time : Nat) (n : Int) :
    transmission × Int :=
  dhcpv4_send T serv
    (dhcpv4_send_reply_packet T conf_dns1 conf_dns2 msg_type req yiaddr siaddr mask lease_time).1
    siaddr yiaddr n

/-- Function `dhcpv4_send_nak`; `n` is the value that the write call returns. -/
def dhcpv4_send_nak (T : Target) (serv : dhcpv4_serv) (req : Nat → Nat) (n : Int) :
    transmission × Int :=
  dhcpv4_send T serv (dhcpv4_send_nak_packet T req).1 0 0xffffffff n

/-- The ones'-complement sum of two 16-bit words: the sum with the carry out of
bit 15 added back in (end-around carry). -/
def ones_add (a b : Nat) : Nat := if a + b < 2 ^ 16 then a + b else a + b - 2 ^ 16 + 1

/-- The ones'-complement sum of a list of 16-bit words. -/
def ones_sum (ws : List Nat) : Nat := ws.foldl ones_add 0

/-- The four bytes of a 32-bit value in network byte order (most significant
byte first). -/
def be32 (x : Nat) : List Nat :=
  [x / 16777216 % 256, x / 65536 % 256, x / 256 % 256, x % 256]

/-- The two bytes of a 16-bit value in network byte order. -/
def be16 (x : Nat) : List Nat := [x / 256 % 256, x % 256]

/-- The bytes of option 6 as a reply carries them for the configured DNS
addresses: both addresses, the first only, or nothing. -/
def reply_dns_bytes (T : Target) (conf_dns1 conf_dns2 : Nat) : List Nat :=
  if conf_dns1 ≠ 0 ∧ conf_dns2 ≠ 0 then [6, 8] ++ int_bytes T conf_dns1 ++ int_bytes T conf_dns2
  else if conf_dns1 ≠ 0 then [6, 4] ++ int_bytes T conf_dns1
  else []

/-- The entry of option 6 in the option list of a reply, if any. -/
def reply_dns_options (conf_dns1 conf_dns2 : Nat) : List dhcpv4_option :=
  if conf_dns1 ≠ 0 ∧ conf_dns2 ≠ 0 then [⟨6, 8, 269⟩]
  else if conf_dns1 ≠ 0 then [⟨6, 4, 269⟩]
  else []

/-- The value in 0..65535 that a natural number stands for in ones'
complement arithmetic on 16 bits: 0 for 0, and otherwise the representative
in 1..65535 of its class modulo 65535. -/
def ones_reduce (x : Nat) : Nat := if x = 0 then 0 else (x - 1) % 65535 + 1

/-- Linux on big-endian MIPS (32 bit): 4-byte `long`, big endian, count of a
shift taken modulo 32. -/
def linux_mips_be : Target := ⟨4, false, fun s => 2 ^ (s % 32)⟩

/-! ## The conversion of the range string -/

/-- Library function `isspace` in the C locale. -/
def isspace (c : Char) : Bool := c.toNat = 32 || (9 ≤ c.toNat && c.toNat ≤ 13)

/-- White space skipped in front of a `%u` conversion. -/
def skip_space : List Char → List Char
  | [] => []
  | c :: cs => if isspace c then skip_space cs else c :: cs

/-- The decimal digits at the head of the input, taken as a number that
continues `acc`, and the input that follows them. -/
def scan_digits : List Char → Nat → Nat × List Char
  | [], acc => (acc, [])
  | c :: cs, acc =>
    if c.isDigit then scan_digits cs (acc * 10 + (c.toNat - 48)) else (acc, c :: cs)

/-- Library function `strtoul` on a digit string of value `v` with or without
a minus sign: a value that does not fit an `unsigned long` gives `ULONG_MAX`,
a minus sign negates in `unsigned long`. -/
def strtoul_value (T : Target) (neg : Bool) (v : Nat) : Nat :=
  if 2 ^ long_bits T ≤ v then 2 ^ long_bits T - 1
  else if neg then (2 ^ long_bits T - v) % 2 ^ long_bits T
  else v

/-- Outcome of one `%u` conversion of `sscanf`: end of input, no number at the
head of the input, or the `unsigned int` stored and the input left. -/
inductive scan_result where
  | eof : scan_result
  | mismatch : scan_result
  | ok (value : Nat) (rest : List Char) : scan_result
deriving DecidableEq

/-- One `%u` conversion of `sscanf` as the C library of Linux does it: white
space is skipped, an optional sign and the decimal digits are taken, the number
is converted by `strtoul` and stored as `unsigned int`, that is modulo `2^32`. -/
def scan_u (T : Target) (s : List Char) : scan_result :=
  match skip_space s with
  | [] => scan_result.eof
  | c :: cs =>
    let neg : Bool := c.toNat = 45
    let ds := if c.toNat = 45 ∨ c.toNat = 43 then cs else c :: cs
    match ds with
    | [] => scan_result.mismatch
    | d :: _ =>
      if d.isDigit then
        scan_result.ok (strtoul_value T neg (scan_digits ds 0).1 % 2 ^ 32) (scan_digits ds 0).2
      else scan_result.mismatch

/-- A literal character of the format of `sscanf`: it must be the next
character of the input. -/
def expect_char (ch : Nat) : List Char → Option (List Char)
  | [] => none
  | c :: cs => if c.toNat = ch then some cs else none

/-- The call `sscanf(str, "%u.%u.%u.%u/%u", &f1, &f2, &f3, &f4, &m)` of
`parse_range`: the value stored in the `unsigned int n` (the number of
conversions made, or `EOF` = -1 when the input ends before the first one) and
the five values; a value that was not converted is given as 0 and is never
used. What follows the fifth number in the string is not looked at. -/
def sscanf_range (T : Target) (str : List Char) : Nat × Nat × Nat × Nat × Nat × Nat :=
  match scan_u T str with
  | scan_result.eof => (2 ^ 32 - 1, 0, 0, 0, 0, 0)
  | scan_result.mismatch => (0, 0, 0, 0, 0, 0)
  | scan_result.ok f1 r1 =>
    match (expect_char 46 r1).map (scan_u T) with
    | some (scan_result.ok f2 r2) =>
      match (expect_char 46 r2).map (scan_u T) with
      | some (scan_result.ok f3 r3) =>
        match (expect_char 46 r3).map (scan_u T) with
        | some (scan_result.ok f4 r4) =>
          match (expect_char 47 r4).map (scan_u T) with
          | some (scan_result.ok m _) => (5, f1, f2, f3, f4, m)
          | _ => (4, f1, f2, f3, f4, 0)
        | _ => (3, f1, f2, f3, 0, 0)
      | _ => (2, f1, f2, 0, 0, 0)
    | _ => (1, f1, 0, 0, 0, 0)

/-- Function `parse_range` on the string itself: the conversion by `sscanf`
followed by the rest of the function. -/
def parse_range_str (T : Target) (str : List Char) : Option dhcpv4_iprange :=
  parse_range T (sscanf_range T str).1 (sscanf_range T str).2.1 (sscanf_range T str).2.2.1
    (sscanf_range T str).2.2.2.1 (sscanf_range T str).2.2.2.2.1 (sscanf_range T str).2.2.2.2.2

/-- The characters of an unsigned decimal field with the given digits. -/
def decimal_field (ds : List Nat) : List Char := ds.map (fun d => Char.ofNat (48 + d))

/-- The number that a list of decimal digits denotes. -/
def decimal_value (ds : List Nat) : Nat := ds.foldl (fun a d => a * 10 + d) 0

/-- The string `a.b.c.d/m` for five unsigned decimal fields. -/
def range_string (a b c d m : List Nat) : List Char :=
  decimal_field a ++ [Char.ofNat 46] ++ decimal_field b ++ [Char.ofNat 46] ++ decimal_field c
    ++ [Char.ofNat 46] ++ decimal_field d ++ [Char.ofNat 47] ++ decimal_field m

/-! ## Sub-options of option 82 as the specification words them -/

/-- The sub-option decoder as the specification words it, on the data bytes of
option 82, which start at offset `off` of the buffer: nested entries of a type
byte, a length byte and `length` data bytes, decoded until an entry would end
beyond the data of option 82. The result lists the entries that lie wholly
inside, in wire order, with the offset of their data, and tells whether
decoding reached the end without such an overrun. The first argument bounds the
number of steps. -/
def decode_suboptions_steps : Nat → Nat → List Nat → List dhcpv4_option × Bool
  | 0, _, _ => ([], true)
  | _ + 1, _, [] => ([], true)
  | _ + 1, _, [_] => ([], false)
  | n + 1, off, t :: l :: body =>
    if body.length < l then ([], false)
    else
      (⟨t, l, off + 2⟩ :: (decode_suboptions_steps n (off + 2 + l) (body.drop l)).1,
       (decode_suboptions_steps n (off + 2 + l) (body.drop l)).2)

/-- The sub-option decoder of the specification; as many steps as there are
bytes always suffice. -/
def decode_suboptions (off : Nat) (bytes : List Nat) : List dhcpv4_option × Bool :=
  decode_suboptions_steps bytes.length off bytes

/-- The last entry of type `t` in a list of sub-options, or `init` when there
is none. -/
def last_suboption (t : Nat) (subs : List dhcpv4_option) (init : Option dhcpv4_option) :
    Option dhcpv4_option :=
  subs.foldl (fun acc o => if o.type = t then some o else acc) init

/-! ## Basic facts on the integer operations -/

theorem bswap32_lt (x : Nat) : bswap32 x < 2 ^ 32 := by
  unfold bswap32; omega

theorem bswap32_bytes (a b c d : Nat) (ha : a < 256) (hb : b < 256) (hc : c < 256)
    (hd : d < 256) :
    bswap32 (a + 256 * b + 65536 * c + 16777216 * d) = d + 256 * c + 65536 * b + 16777216 * a := by
  unfold bswap32; omega

theorem bswap32_bswap32 (x : Nat) (h : x < 2 ^ 32) : bswap32 (bswap32 x) = x := by
  have e : x = x % 256 + 256 * (x / 256 % 256) + 65536 * (x / 65536 % 256)
      + 16777216 * (x / 16777216) := by omega
  have h1 : x % 256 < 256 := by omega
  have h2 : x / 256 % 256 < 256 := by omega
  have h3 : x / 65536 % 256 < 256 := by omega
  have h4 : x / 16777216 < 256 := by omega
  generalize x % 256 = a at e h1
  generalize x / 256 % 256 = b at e h2
  generalize x / 65536 % 256 = c at e h3
  generalize x / 16777216 = d at e h4
  subst e
  rw [bswap32_bytes a b c d h1 h2 h3 h4, bswap32_bytes d c b a h4 h3 h2 h1]

theorem ntohl_htonl (T : Target) (x : Nat) (h : x < 2 ^ 32) : ntohl T (htonl T x) = x := by
  unfold ntohl htonl
  cases T.little_endian with
  | true => simp only [if_true]; exact bswap32_bswap32 x h
  | false => simp only [Bool.false_eq_true, if_false]; omega

theorem htonl_inj (T : Target) (x y : Nat) (hx : x < 2 ^ 32) (hy : y < 2 ^ 32)
    (h : htonl T x = htonl T y) : x = y := by
  have := congrArg (ntohl T) h
  rwa [ntohl_htonl T x hx, ntohl_htonl T y hy] at this

theorem long_bits_ge (T : Target) (h : 4 ≤ T.sizeof_long) : 32 ≤ long_bits T := by
  unfold long_bits; omega

theorem testBit_31_of_ge {y : Nat} (h1 : 2 ^ 31 ≤ y) (h2 : y < 2 ^ 32) :
    y.testBit 31 = true := by
  rw [Nat.testBit_to_div_mod]
  simp only [decide_eq_true_eq]
  omega

theorem testBit_31_of_lt {y : Nat} (h1 : y < 2 ^ 31) : y.testBit 31 = false :=
  Nat.testBit_lt_two_pow h1

/-- Bits 0..31 of a converted `int` are those of the `int`. -/
theorem int_to_long_lo (T : Target) (hT : 4 ≤ T.sizeof_long) (x j : Nat) (hj : j < 32) :
    (int_to_long T x).testBit j = (x % 2 ^ 32).testBit j := by
  have hW := long_bits_ge T hT
  unfold int_to_long
  split
  · rfl
  · rename_i hge
    have hy : x % 2 ^ 32 < 2 ^ 32 := Nat.mod_lt _ (by positivity)
    have hpow : (2:Nat) ^ long_bits T = 2 ^ 32 * 2 ^ (long_bits T - 32) := by
      rw [← Nat.pow_add]; congr 1; omega
    have hpos : 0 < 2 ^ (long_bits T - 32) := by positivity
    have e : x % 2 ^ 32 + (2 ^ long_bits T - 2 ^ 32)
        = 2 ^ 32 * (2 ^ (long_bits T - 32) - 1) + x % 2 ^ 32 := by
      rw [hpow, Nat.mul_sub, Nat.mul_one]; omega
    have hlt : x % 2 ^ 32 + (2 ^ long_bits T - 2 ^ 32) < 2 ^ long_bits T := by
      have : 2 ^ 32 ≤ 2 ^ long_bits T := Nat.pow_le_pow_right (by omega) hW
      omega
    rw [Nat.mod_eq_of_lt hlt, e, Nat.testBit_mul_pow_two_add _ hy]
    simp [hj]

/-- Bits 31 and above of a converted `int`, up to the width of `long`, all
equal the sign bit. -/
theorem int_to_long_hi (T : Target) (hT : 4 ≤ T.sizeof_long) (x j : Nat) (hj : 31 ≤ j) :
    (int_to_long T x).testBit j = (decide (j < long_bits T) && (x % 2 ^ 32).testBit 31) := by
  have hW := long_bits_ge T hT
  have hy : x % 2 ^ 32 < 2 ^ 32 := Nat.mod_lt _ (by positivity)
  unfold int_to_long
  split
  · rename_i hlt
    have h1 : (x % 2 ^ 32).testBit j = false :=
      Nat.testBit_lt_two_pow (lt_of_lt_of_le hlt (Nat.pow_le_pow_right (by omega) hj))
    rw [h1, testBit_31_of_lt hlt]; simp
  · rename_i hge
    have hge1 : 2 ^ 31 ≤ x % 2 ^ 32 := by omega
    have hpow : (2:Nat) ^ long_bits T = 2 ^ 32 * 2 ^ (long_bits T - 32) := by
      rw [← Nat.pow_add]; congr 1; omega
    have hpos : 0 < 2 ^ (long_bits T - 32) := by positivity
    have e : x % 2 ^ 32 + (2 ^ long_bits T - 2 ^ 32)
        = 2 ^ 32 * (2 ^ (long_bits T - 32) - 1) + x % 2 ^ 32 := by
      rw [hpow, Nat.mul_sub, Nat.mul_one]; omega
    have hlt : x % 2 ^ 32 + (2 ^ long_bits T - 2 ^ 32) < 2 ^ long_bits T := by
      have : 2 ^ 32 ≤ 2 ^ long_bits T := Nat.pow_le_pow_right (by omega) hW
      omega
    rw [Nat.mod_eq_of_lt hlt, e, Nat.testBit_mul_pow_two_add _ hy, testBit_31_of_ge hge1 hy]
    by_cases h32 : j < 32
    · have : j = 31 := by omega
      subst this
      have h31 : 31 < long_bits T := by omega
      rw [if_pos (by omega), testBit_31_of_ge hge1 hy]
      simp [h31]
    · rw [if_neg h32, Nat.testBit_two_pow_sub_one, Bool.and_true]
      exact decide_eq_decide.mpr (by omega)

/-- A set bit at position 32 or above of a converted `int` comes with bit 31. -/
theorem int_to_long_hi_imp (T : Target) (hT : 4 ≤ T.sizeof_long) (x j : Nat) (hj : 32 ≤ j)
    (h : (int_to_long T x).testBit j = true) : (int_to_long T x).testBit 31 = true := by
  rw [int_to_long_hi T hT x j (by omega)] at h
  rw [int_to_long_hi T hT x 31 (le_refl _)]
  simp only [Bool.and_eq_true, decide_eq_true_eq] at h ⊢
  exact ⟨by have := long_bits_ge T hT; omega, h.2⟩

/-! ## Facts on `ffsl`, the bitmap words and the scan loop -/

theorem ffs_from_zero (w : Nat) : ∀ n i, ffs_from w n i = 0 →
    ∀ j, i ≤ j → j < i + n → w.testBit j = false := by
  intro n
  induction n with
  | zero => intro i _ j h1 h2; omega
  | succ n ih =>
    intro i h j h1 h2
    unfold ffs_from at h
    split at h
    · omega
    · rename_i hb
      by_cases hji : j = i
      · subst hji; simpa using hb
      · exact ih (i + 1) h j (by omega) (by omega)

theorem ffs_from_succ (w : Nat) : ∀ n i k, ffs_from w n i = k + 1 →
    i ≤ k ∧ k < i + n ∧ w.testBit k = true ∧ ∀ j, i ≤ j → j < k → w.testBit j = false := by
  intro n
  induction n with
  | zero => intro i k h; simp [ffs_from] at h
  | succ n ih =>
    intro i k h
    unfold ffs_from at h
    split at h
    · rename_i hb
      have : k = i := by omega
      subst this
      exact ⟨le_refl _, by omega, hb, fun j h1 h2 => by omega⟩
    · rename_i hb
      obtain ⟨h1, h2, h3, h4⟩ := ih (i + 1) k h
      refine ⟨by omega, by omega, h3, ?_⟩
      intro j hj1 hj2
      by_cases hji : j = i
      · subst hji; simpa using hb
      · exact h4 j (by omega) hj2

theorem ffs_from_of_lowest (w : Nat) : ∀ n i k, i ≤ k → k < i + n → w.testBit k = true →
    (∀ j, i ≤ j → j < k → w.testBit j = false) → ffs_from w n i = k + 1 := by
  intro n
  induction n with
  | zero => intro i k h1 h2; omega
  | succ n ih =>
    intro i k h1 h2 h3 h4
    unfold ffs_from
    by_cases hki : k = i
    · subst hki; simp [h3]
    · have hb : w.testBit i = false := h4 i (le_refl _) (by omega)
      simp only [hb, Bool.false_eq_true, if_false]
      exact ih (i + 1) k (by omega) (by omega) h3 (fun j hj1 hj2 => h4 j (by omega) hj2)

theorem ffs_from_of_clear (w : Nat) : ∀ n i,
    (∀ j, i ≤ j → j < i + n → w.testBit j = false) → ffs_from w n i = 0 := by
  intro n
  induction n with
  | zero => intro i _; rfl
  | succ n ih =>
    intro i h
    unfold ffs_from
    have hb : w.testBit i = false := h i (le_refl _) (by omega)
    simp only [hb, Bool.false_eq_true, if_false]
    exact ih (i + 1) (fun j h1 h2 => h j (by omega) (by omega))

/-- When `ffsl` yields 0 no bit of the word is set. -/
theorem ffsl_zero (T : Target) (w : Nat) (h : ffsl T w = 0) :
    ∀ j, j < long_bits T → w.testBit j = false :=
  fun j hj => ffs_from_zero w _ 0 h j (Nat.zero_le _) (by omega)

/-- When `ffsl` yields `k` other than 0, bit `k - 1` is the lowest set bit. -/
theorem ffsl_pos (T : Target) (w : Nat) (h : ffsl T w ≠ 0) :
    ffsl T w - 1 < long_bits T ∧ w.testBit (ffsl T w - 1) = true ∧
      ∀ j, j < ffsl T w - 1 → w.testBit j = false := by
  obtain ⟨k, hk⟩ : ∃ k, ffsl T w = k + 1 := ⟨ffsl T w - 1, by omega⟩
  obtain ⟨_, h2, h3, h4⟩ := ffs_from_succ w _ 0 k hk
  rw [hk]
  exact ⟨by simpa using h2, by simpa using h3, fun j hj => h4 j (Nat.zero_le _) (by simpa using hj)⟩

theorem ffsl_of_lowest (T : Target) (w k : Nat) (hk : k < long_bits T)
    (h1 : w.testBit k = true) (h2 : ∀ j, j < k → w.testBit j = false) : ffsl T w = k + 1 :=
  ffs_from_of_lowest w _ 0 k (Nat.zero_le _) (by omega) h1 (fun j _ hj => h2 j hj)

theorem ffsl_of_clear (T : Target) (w : Nat) (h : ∀ j, j < long_bits T → w.testBit j = false) :
    ffsl T w = 0 :=
  ffs_from_of_clear w _ 0 (fun j _ hj => h j (by omega))

theorem length_word_and (ws : List Nat) (i x : Nat) : (word_and ws i x).length = ws.length := by
  simp [word_and]

theorem length_word_or (ws : List Nat) (i x : Nat) : (word_or ws i x).length = ws.length := by
  simp [word_or]

theorem getD_set_zero (ws : List Nat) (i k v : Nat) :
    (ws.set i v).getD k 0 = if k = i ∧ i < ws.length then v else ws.getD k 0 := by
  simp only [List.getD_eq_getElem?_getD, List.getElem?_set]
  by_cases h : i = k
  · subst h
    by_cases h2 : i < ws.length
    · simp [h2]
    · have h4 : ws[i]? = none := List.getElem?_eq_none (by omega)
      simp [h2, h4]
  · have h3 : ¬ k = i := fun e => h e.symm
    simp [h, h3]

theorem getD_word_and (ws : List Nat) (i x k : Nat) :
    (word_and ws i x).getD k 0 = if k = i then ws.getD i 0 &&& x else ws.getD k 0 := by
  unfold word_and
  rw [getD_set_zero]
  by_cases h : k = i
  · subst h
    by_cases h2 : k < ws.length
    · simp [h2]
    · have h4 : ws[k]? = none := List.getElem?_eq_none (by omega)
      simp [h2, List.getD_eq_getElem?_getD, h4]
  · simp [h]

theorem getD_word_or (ws : List Nat) (i x k : Nat) (hi : i < ws.length) :
    (word_or ws i x).getD k 0 = if k = i then ws.getD i 0 ||| x else ws.getD k 0 := by
  unfold word_or
  rw [getD_set_zero]
  by_cases h : k = i
  · simp [h, hi]
  · simp [h]

theorem get_ip_scan_some (T : Target) (r : dhcpv4_iprange) : ∀ fuel i i1 k,
    get_ip_scan T r fuel i = some (i1, k) →
    i ≤ i1 ∧ i1 < r.len ∧ k = ffsl T (r.free.getD i1 0) ∧ k ≠ 0 ∧
      ∀ t, i ≤ t → t < i1 → ffsl T (r.free.getD t 0) = 0 := by
  intro fuel
  induction fuel with
  | zero => intro i i1 k h; simp [get_ip_scan] at h
  | succ n ih =>
    intro i i1 k h
    unfold get_ip_scan at h
    split at h
    · rename_i hlt
      simp only at h
      split at h
      · rename_i hk
        simp only [Option.some.injEq, Prod.mk.injEq] at h
        obtain ⟨h1, h2⟩ := h
        subst h1; subst h2
        exact ⟨le_refl _, hlt, rfl, hk, fun t h1 h2 => by omega⟩
      · rename_i hk
        obtain ⟨h1, h2, h3, h4, h5⟩ := ih (i + 1) i1 k h
        refine ⟨by omega, h2, h3, h4, ?_⟩
        intro t ht1 ht2
        by_cases hti : t = i
        · subst hti; simpa using hk
        · exact h5 t (by omega) ht2
    · simp at h

theorem get_ip_scan_none (T : Target) (r : dhcpv4_iprange) : ∀ fuel i,
    get_ip_scan T r fuel i = none → r.len ≤ i + fuel →
    ∀ t, i ≤ t → t < r.len → ffsl T (r.free.getD t 0) = 0 := by
  intro fuel
  induction fuel with
  | zero => intro i _ h t h1 h2; omega
  | succ n ih =>
    intro i h hf t h1 h2
    unfold get_ip_scan at h
    split at h
    · simp only at h
      split at h
      · simp at h
      · rename_i hk
        by_cases hti : t = i
        · subst hti; simpa using hk
        · exact ih (i + 1) h (by omega) t (by omega) h2
    · omega

theorem get_ip_scan_pos (T : Target) (r : dhcpv4_iprange) (p : Nat) : ∀ fuel i,
    get_ip_scan T { r with pos := p } fuel i = get_ip_scan T r fuel i := by
  intro fuel
  induction fuel with
  | zero => intro i; rfl
  | succ n ih => intro i; simp only [get_ip_scan, ih]

/-- The three ways through the critical section of `dhcpv4_get_ip`: a hit in
the first pass, a hit in the second pass, or no set bit at all. -/
theorem range_get_ip_cases (T : Target) (r : dhcpv4_iprange) :
    (∃ i, r.pos ≤ i ∧ i < r.len ∧ ffsl T (r.free.getD i 0) ≠ 0 ∧
        (∀ t, r.pos ≤ t → t < i → ffsl T (r.free.getD t 0) = 0) ∧
        range_get_ip T r = get_ip_take T r i (ffsl T (r.free.getD i 0))) ∨
    (∃ i, r.pos ≠ 0 ∧ i < r.len ∧ ffsl T (r.free.getD i 0) ≠ 0 ∧
        (∀ t, r.pos ≤ t → t < r.len → ffsl T (r.free.getD t 0) = 0) ∧
        (∀ t, t < i → ffsl T (r.free.getD t 0) = 0) ∧
        range_get_ip T r = get_ip_take T r i (ffsl T (r.free.getD i 0))) ∨
    ((∀ t, t < r.len → ffsl T (r.free.getD t 0) = 0) ∧
        range_get_ip T r = ({ r with pos := 0 }, none)) := by
  unfold range_get_ip
  cases h1 : get_ip_scan T r (r.len - r.pos) r.pos with
  | some ik =>
    obtain ⟨i, k⟩ := ik
    obtain ⟨a, b, c, d, e⟩ := get_ip_scan_some T r _ _ _ _ h1
    subst c
    exact Or.inl ⟨i, a, b, d, e, rfl⟩
  | none =>
    have hn := get_ip_scan_none T r _ _ h1 (by omega)
    by_cases hp : r.pos = 0
    · refine Or.inr (Or.inr ⟨fun t ht => hn t (by omega) ht, ?_⟩)
      simp only [hp, if_true]
      cases r; simp_all
    · simp only [hp, if_false]
      cases h2 : get_ip_scan T { r with pos := 0 } r.len 0 with
      | some ik =>
        obtain ⟨i, k⟩ := ik
        rw [get_ip_scan_pos] at h2
        obtain ⟨a, b, c, d, e⟩ := get_ip_scan_some T r _ _ _ _ h2
        subst c
        exact Or.inr (Or.inl ⟨i, hp, b, d, hn, fun t ht => e t (Nat.zero_le _) ht, rfl⟩)
      | none =>
        rw [get_ip_scan_pos] at h2
        have hn2 := get_ip_scan_none T r _ _ h2 (by omega)
        exact Or.inr (Or.inr ⟨fun t ht => hn2 t (Nat.zero_le _) ht, rfl⟩)


/-! ## The masks of `dhcpv4_get_ip` and `dhcpv4_put_ip` -/

theorem int_shl1_lt (T : Target) (j : Nat) (hj : j < 32) : int_shl1 T j = 2 ^ j := by
  simp [int_shl1, hj]

theorem testBit_int_not (x t : Nat) :
    (int_not x).testBit t = (decide (t < 32) && !(x.testBit t)) := by
  unfold int_not
  rw [Nat.testBit_xor, Nat.testBit_two_pow_sub_one, Nat.testBit_mod_two_pow]
  cases decide (t < 32) <;> cases x.testBit t <;> rfl

theorem int_not_lt (x : Nat) : int_not x < 2 ^ 32 := by
  unfold int_not
  exact Nat.xor_lt_two_pow (Nat.mod_lt _ (by positivity)) (by omega)

/-- The word that `dhcpv4_get_ip` ands into the bitmap has bit `j` clear. -/
theorem clear_mask_bit (T : Target) (hT : 4 ≤ T.sizeof_long) (j : Nat) (hj : j < 32) :
    (int_to_long T (int_not (int_shl1 T j))).testBit j = false := by
  rw [int_to_long_lo T hT _ j hj, Nat.mod_eq_of_lt (int_not_lt _), testBit_int_not,
    int_shl1_lt T j hj, Nat.testBit_two_pow_self]
  simp

/-- Below bit 32, the word that `dhcpv4_put_ip` ors into the bitmap has bit
`j` set and no other. -/
theorem set_mask_bit (T : Target) (hT : 4 ≤ T.sizeof_long) (j t : Nat) (hj : j < 32)
    (ht : t < 32) : (int_to_long T (int_shl1 T j)).testBit t = decide (j = t) := by
  have h2 : (2:Nat) ^ j < 2 ^ 32 := Nat.pow_lt_pow_right (by omega) hj
  rw [int_to_long_lo T hT _ t ht, int_shl1_lt T j hj, Nat.mod_eq_of_lt h2, Nat.testBit_two_pow]

/-- Words built by and-ing converted `int` values keep the property that a set
bit above bit 31 comes with bit 31. -/
theorem and_keeps_sign (T : Target) (hT : 4 ≤ T.sizeof_long) (w x : Nat)
    (hw : ∀ j, 32 ≤ j → w.testBit j = true → w.testBit 31 = true) :
    ∀ j, 32 ≤ j → (w &&& int_to_long T x).testBit j = true →
      (w &&& int_to_long T x).testBit 31 = true := by
  intro j hj h
  rw [Nat.testBit_and, Bool.and_eq_true] at h ⊢
  exact ⟨hw j hj h.1, int_to_long_hi_imp T hT x j hj h.2⟩

theorem or_keeps_sign (T : Target) (hT : 4 ≤ T.sizeof_long) (w x : Nat)
    (hw : ∀ j, 32 ≤ j → w.testBit j = true → w.testBit 31 = true) :
    ∀ j, 32 ≤ j → (w ||| int_to_long T x).testBit j = true →
      (w ||| int_to_long T x).testBit 31 = true := by
  intro j hj h
  rw [Nat.testBit_or, Bool.or_eq_true] at h ⊢
  rcases h with h | h
  · exact Or.inl (hw j hj h)
  · exact Or.inr (int_to_long_hi_imp T hT x j hj h)


/-! ## Allocation and release keep the pool invariant -/

theorem div_mod_unique (W i j i1 j1 : Nat) (hj : j < W) (hj1 : j1 < W)
    (h : i * W + j = i1 * W + j1) : i = i1 ∧ j = j1 := by
  have hW : 0 < W := by omega
  have e1 : (i * W + j) / W = i := by
    rw [Nat.mul_comm, Nat.mul_add_div hW, Nat.div_eq_of_lt hj]; rfl
  have e2 : (i1 * W + j1) / W = i1 := by
    rw [Nat.mul_comm, Nat.mul_add_div hW, Nat.div_eq_of_lt hj1]; rfl
  have : i = i1 := by rw [← e1, ← e2, h]
  subst this
  exact ⟨rfl, by omega⟩

/-- Taking the lowest set bit of word `i` keeps the invariant and yields an
address that is not handed out. -/
theorem pool_inv_take (T : Target) (hT : 4 ≤ T.sizeof_long) (start E : Nat)
    (hE : start + E < 2 ^ 32) (r : dhcpv4_iprange) (L : List Nat)
    (h : pool_inv T start E r L) (i : Nat) (hi : i < r.len)
    (hk : ffsl T (r.free.getD i 0) ≠ 0) :
    ∃ j, j < 32 ∧ ffsl T (r.free.getD i 0) = j + 1 ∧
      2 ≤ i * long_bits T + j ∧ i * long_bits T + j < E ∧
      (get_ip_take T r i (j + 1)).2 =
        some (htonl T (start + (i * long_bits T + j)), htonl T r.routerip, r.mask) ∧
      htonl T (start + (i * long_bits T + j)) ∉ L ∧
      pool_inv T start E (get_ip_take T r i (j + 1)).1
        (htonl T (start + (i * long_bits T + j)) :: L) := by
  obtain ⟨hs, hlen, h2, h3, hnd, h4⟩ := h
  have hW := long_bits_ge T hT
  obtain ⟨hjW, hbit, hlow⟩ := ffsl_pos T _ hk
  generalize hj : ffsl T (r.free.getD i 0) - 1 = j at hjW hbit hlow
  have hkj : ffsl T (r.free.getD i 0) = j + 1 := by omega
  have hj32 : j < 32 := by
    by_contra hc
    have h31 := h3 i j (by omega) hbit
    have := hlow 31 (by omega)
    rw [this] at h31
    exact Bool.noConfusion h31
  obtain ⟨hn2, hnE⟩ := h2 i j hj32 hbit
  have haddr : (r.startip + i * 8 * T.sizeof_long + (j + 1) - 1) % 2 ^ 32
      = start + (i * long_bits T + j) := by
    have : i * 8 * T.sizeof_long = i * long_bits T := by
      unfold long_bits; rw [Nat.mul_assoc]
    rw [this, hs]
    rw [Nat.mod_eq_of_lt (by omega)]
    omega
  have hnotin : htonl T (start + (i * long_bits T + j)) ∉ L := by
    intro hin
    obtain ⟨i1, j1, hj1, hi1, heq, hb1, _, hE1⟩ := h4 _ hin
    have := htonl_inj T _ _ (by omega) (by omega) heq
    have := div_mod_unique (long_bits T) i j i1 j1 (by omega) (by omega) (by omega)
    obtain ⟨e1, e2⟩ := this
    subst e1; subst e2
    rw [hbit] at hb1
    exact Bool.noConfusion hb1
  refine ⟨j, hj32, hkj, hn2, hnE, ?_, hnotin, ?_⟩
  · simp only [get_ip_take, haddr]
  · simp only [get_ip_take, Nat.add_sub_cancel]
    refine ⟨hs, ?_, ?_, ?_, List.nodup_cons.mpr ⟨hnotin, hnd⟩, ?_⟩
    · simpa [length_word_and] using hlen
    · intro i1 j1 hj1 hb
      rw [getD_word_and] at hb
      split at hb
      · rename_i e; subst e
        rw [Nat.testBit_and, Bool.and_eq_true] at hb
        exact h2 i1 j1 hj1 hb.1
      · exact h2 i1 j1 hj1 hb
    · intro i1 j1 hj1
      rw [getD_word_and]
      split
      · rename_i e; subst e
        exact and_keeps_sign T hT _ _ (h3 i1) j1 hj1
      · exact h3 i1 j1 hj1
    · intro a ha
      rcases List.mem_cons.mp ha with e | hin
      · subst e
        refine ⟨i, j, hj32, hi, rfl, ?_, hn2, hnE⟩
        rw [getD_word_and, if_pos rfl, Nat.testBit_and, clear_mask_bit T hT j hj32, Bool.and_false]
      · obtain ⟨i1, j1, hj1, hi1, heq, hb1, h21, hE1⟩ := h4 a hin
        refine ⟨i1, j1, hj1, hi1, heq, ?_, h21, hE1⟩
        rw [getD_word_and]
        split
        · rename_i e; subst e
          rw [Nat.testBit_and, hb1, Bool.false_and]
        · exact hb1


theorem int_sub_cancel (s n : Nat) (h : s + n < 2 ^ 32) : int_sub (s + n) s = n := by
  unfold int_sub; omega

theorem int_to_long_small (T : Target) (n : Nat) (h : n < 2 ^ 31) : int_to_long T n = n := by
  unfold int_to_long
  have : n % 2 ^ 32 = n := Nat.mod_eq_of_lt (by omega)
  rw [this, if_pos h]

theorem mul_add_div_mod (W i j : Nat) (hj : j < W) :
    (i * W + j) / W = i ∧ (i * W + j) % W = j := by
  have hW : 0 < W := by omega
  constructor
  · rw [Nat.mul_comm, Nat.mul_add_div hW, Nat.div_eq_of_lt hj]; rfl
  · rw [Nat.mul_comm, Nat.mul_add_mod, Nat.mod_eq_of_lt hj]

/-- Releasing an address that is handed out keeps the invariant; the store
goes to the word and bit the address was taken from. -/
theorem pool_inv_put (T : Target) (hT : 4 ≤ T.sizeof_long) (start E : Nat)
    (hE : start + E < 2 ^ 32) (hE31 : E < 2 ^ 31) (r : dhcpv4_iprange) (L : List Nat)
    (h : pool_inv T start E r L) (a : Nat) (ha : a ∈ L) :
    pool_inv T start E (range_put_ip T r a) (L.erase a) ∧
    ∃ i j, j < 32 ∧ i < r.len ∧ a = htonl T (start + (i * long_bits T + j)) ∧
      i * long_bits T + j < E ∧
      (range_put_ip T r a).free = word_or r.free i (int_to_long T (int_shl1 T j)) := by
  obtain ⟨hs, hlen, h2, h3, hnd, h4⟩ := h
  have hW := long_bits_ge T hT
  obtain ⟨i, j, hj, hi, heq, hb, hn2, hnE⟩ := h4 a ha
  have hn : int_to_long T (int_sub (ntohl T a) r.startip) = i * long_bits T + j := by
    rw [heq, ntohl_htonl T _ (by omega), hs, int_sub_cancel _ _ (by omega),
      int_to_long_small T _ (by omega)]
  obtain ⟨hdiv, hmod⟩ := mul_add_div_mod (long_bits T) i j (by omega)
  have hfree : (range_put_ip T r a).free = word_or r.free i (int_to_long T (int_shl1 T j)) := by
    simp only [range_put_ip, hn, hdiv, hmod]
  refine ⟨⟨hs, ?_, ?_, ?_, hnd.erase a, ?_⟩, i, j, hj, hi, heq, hnE, hfree⟩
  · rw [hfree, length_word_or]; exact hlen
  · intro i1 j1 hj1 hb1
    rw [hfree, getD_word_or _ _ _ _ (by omega)] at hb1
    split at hb1
    · rename_i e; subst e
      rw [Nat.testBit_or, Bool.or_eq_true] at hb1
      rcases hb1 with hb1 | hb1
      · exact h2 i1 j1 hj1 hb1
      · rw [set_mask_bit T hT j j1 hj hj1] at hb1
        have : j = j1 := by simpa using hb1
        subst this
        exact ⟨hn2, hnE⟩
    · exact h2 i1 j1 hj1 hb1
  · intro i1 j1 hj1
    rw [hfree, getD_word_or _ _ _ _ (by omega)]
    split
    · rename_i e; subst e
      exact or_keeps_sign T hT _ _ (h3 i1) j1 hj1
    · exact h3 i1 j1 hj1
  · intro b hbm
    have hbL : b ∈ L := List.mem_of_mem_erase hbm
    have hba : b ≠ a := fun e => by
      subst e
      exact (List.Nodup.not_mem_erase hnd) hbm
    obtain ⟨i1, j1, hj1, hi1, heq1, hb1, h21, hE1⟩ := h4 b hbL
    refine ⟨i1, j1, hj1, hi1, heq1, ?_, h21, hE1⟩
    rw [hfree, getD_word_or _ _ _ _ (by omega)]
    split
    · rename_i e; subst e
      rw [Nat.testBit_or, hb1, Bool.false_or, set_mask_bit T hT j j1 hj hj1]
      simp only [decide_eq_false_iff_not]
      intro e; subst e
      exact hba (by rw [heq, heq1])
    · exact hb1

/-- An allocation keeps the invariant. Either it returns an address of the
block, between the router and the broadcast address, that is not handed out;
or it reports exhaustion, the bitmap is unchanged and has no set bit. -/
theorem pool_inv_get (T : Target) (hT : 4 ≤ T.sizeof_long) (start E : Nat)
    (hE : start + E < 2 ^ 32) (r : dhcpv4_iprange) (L : List Nat)
    (h : pool_inv T start E r L) :
    (∃ n, 2 ≤ n ∧ n < E ∧
      (range_get_ip T r).2 = some (htonl T (start + n), htonl T r.routerip, r.mask) ∧
      htonl T (start + n) ∉ L ∧
      pool_inv T start E (range_get_ip T r).1 (htonl T (start + n) :: L)) ∨
    ((range_get_ip T r).2 = none ∧ pool_inv T start E (range_get_ip T r).1 L ∧
      (range_get_ip T r).1.free = r.free ∧
      ∀ i j, j < long_bits T → (r.free.getD i 0).testBit j = false) := by
  rcases range_get_ip_cases T r with ⟨i, _, hi, hk, _, hr⟩ | ⟨i, _, hi, hk, _, _, hr⟩ | ⟨hz, hr⟩
  · obtain ⟨j, _, hkj, h2, hlt, hres, hni, hinv⟩ := pool_inv_take T hT start E hE r L h i hi hk
    rw [hkj] at hr
    exact Or.inl ⟨_, h2, hlt, by rw [hr]; exact hres, hni, by rw [hr]; exact hinv⟩
  · obtain ⟨j, _, hkj, h2, hlt, hres, hni, hinv⟩ := pool_inv_take T hT start E hE r L h i hi hk
    rw [hkj] at hr
    exact Or.inl ⟨_, h2, hlt, by rw [hr]; exact hres, hni, by rw [hr]; exact hinv⟩
  · refine Or.inr ⟨by rw [hr], by rw [hr]; exact h, by rw [hr], ?_⟩
    intro i j hj
    by_cases hi : i < r.len
    · exact ffsl_zero T _ (hz i hi) j hj
    · have hlen : r.free.length = r.len := h.2.1
      have h4 : r.free[i]? = none := List.getElem?_eq_none (by omega)
      simp [List.getD_eq_getElem?_getD, h4]

/-- The fixed fields of a range are left alone by allocation. -/
theorem range_get_ip_fields (T : Target) (r : dhcpv4_iprange) :
    (range_get_ip T r).1.startip = r.startip ∧ (range_get_ip T r).1.routerip = r.routerip ∧
    (range_get_ip T r).1.mask = r.mask ∧ (range_get_ip T r).1.len = r.len := by
  rcases range_get_ip_cases T r with ⟨i, _, _, _, _, hr⟩ | ⟨i, _, _, _, _, _, hr⟩ | ⟨_, hr⟩ <;>
    rw [hr] <;> exact ⟨rfl, rfl, rfl, rfl⟩

/-- The fixed fields of a range are left alone by release. -/
theorem range_put_ip_fields (T : Target) (r : dhcpv4_iprange) (a : Nat) :
    (range_put_ip T r a).startip = r.startip ∧ (range_put_ip T r a).routerip = r.routerip ∧
    (range_put_ip T r a).mask = r.mask ∧ (range_put_ip T r a).len = r.len ∧
    (range_put_ip T r a).pos = r.pos :=
  ⟨rfl, rfl, rfl, rfl, rfl⟩


/-! ## `parse_range`: scalar results and initial bitmap -/

theorem ipv4_lt (f1 f2 f3 f4 : Nat) (h1 : f1 ≤ 255) (h2 : f2 ≤ 255) (h3 : f3 ≤ 255)
    (h4 : f4 ≤ 255) : ipv4 f1 f2 f3 f4 < 2 ^ 32 := by
  unfold ipv4; omega

theorem shift_or_eq (f1 f2 f3 f4 : Nat) (h1 : f1 ≤ 255) (h2 : f2 ≤ 255) (h3 : f3 ≤ 255)
    (h4 : f4 ≤ 255) :
    ((f1 <<< 24) ||| (f2 <<< 16) ||| (f3 <<< 8) ||| f4) % 2 ^ 32 = ipv4 f1 f2 f3 f4 := by
  have e1 : f1 <<< 24 ||| f2 <<< 16 = 2 ^ 16 * (f1 * 2 ^ 8 + f2) := by
    rw [Nat.shiftLeft_eq, Nat.shiftLeft_eq]
    have := Nat.mul_add_lt_is_or (i := 24) (b := f2 * 2 ^ 16) (by omega) f1
    rw [Nat.mul_comm (2 ^ 24) f1] at this
    rw [← this]; omega
  have e2 : 2 ^ 16 * (f1 * 2 ^ 8 + f2) ||| f3 <<< 8 = 2 ^ 8 * (f1 * 2 ^ 16 + f2 * 2 ^ 8 + f3) := by
    rw [Nat.shiftLeft_eq]
    have := Nat.mul_add_lt_is_or (i := 16) (b := f3 * 2 ^ 8) (by omega) (f1 * 2 ^ 8 + f2)
    rw [← this]; omega
  have e3 : 2 ^ 8 * (f1 * 2 ^ 16 + f2 * 2 ^ 8 + f3) ||| f4 = ipv4 f1 f2 f3 f4 := by
    have := Nat.mul_add_lt_is_or (i := 8) (b := f4) (by omega) (f1 * 2 ^ 16 + f2 * 2 ^ 8 + f3)
    rw [← this]; unfold ipv4; omega
  rw [e1, e2, e3, Nat.mod_eq_of_lt (ipv4_lt f1 f2 f3 f4 h1 h2 h3 h4)]

theorem int_sub_pow_one (k : Nat) (hk : k < 32) : int_sub (2 ^ k) 1 = 2 ^ k - 1 := by
  have h1 : (2:Nat) ^ k < 2 ^ 32 := Nat.pow_lt_pow_right (by omega) hk
  have h2 : 0 < (2:Nat) ^ k := by positivity
  unfold int_sub
  generalize (2:Nat) ^ k = p at h1 h2
  omega

/-- Bits of the netmask computed by `parse_range`. -/
theorem testBit_netmask (T : Target) (k t : Nat) (hk : k < 32) :
    (int_not (int_sub (int_shl1 T k) 1)).testBit t = (decide (t < 32) && !decide (t < k)) := by
  rw [int_shl1_lt T k hk, int_sub_pow_one k hk, testBit_int_not, Nat.testBit_two_pow_sub_one]

theorem and_netmask (T : Target) (k a : Nat) (hk : k < 32) (ha : a < 2 ^ 32) :
    a &&& int_not (int_sub (int_shl1 T k) 1) = 2 ^ k * (a / 2 ^ k) := by
  apply Nat.eq_of_testBit_eq
  intro t
  rw [Nat.testBit_and, testBit_netmask T k t hk, Nat.testBit_mul_pow_two,
    ← Nat.shiftRight_eq_div_pow, Nat.testBit_shiftRight]
  by_cases h1 : t < k
  · have : ¬ t ≥ k := by omega
    simp [h1, this]
  · have h2 : t ≥ k := by omega
    have h3 : k + (t - k) = t := by omega
    by_cases h4 : t < 32
    · simp [h1, h2, h3, h4]
    · have : a.testBit t = false :=
        Nat.testBit_lt_two_pow (lt_of_lt_of_le ha (Nat.pow_le_pow_right (by omega) (by omega)))
      simp [h1, h2, h3, h4, this]

theorem not_netmask (T : Target) (k : Nat) (hk : k < 32) :
    int_not (int_not (int_sub (int_shl1 T k) 1)) = 2 ^ k - 1 := by
  apply Nat.eq_of_testBit_eq
  intro t
  rw [testBit_int_not, testBit_netmask T k t hk, Nat.testBit_two_pow_sub_one]
  by_cases h1 : t < k
  · have : t < 32 := by omega
    simp [h1, this]
  · by_cases h4 : t < 32
    · simp [h1, h4]
    · simp [h1, h4]

/-- The scalar results of `parse_range` on admissible input, and the bitmap
as the two masking statements leave it. -/
theorem parse_range_eq (T : Target) (f1 f2 f3 f4 m : Nat) (h1 : f1 ≤ 255) (h2 : f2 ≤ 255)
    (h3 : f3 ≤ 255) (h4 : f4 ≤ 255) (hm1 : 1 ≤ m) (hm2 : m ≤ 30) :
    parse_range T 5 f1 f2 f3 f4 m =
      some ⟨2 ^ (32 - m) * (ipv4 f1 f2 f3 f4 / 2 ^ (32 - m)) + 1,
            2 ^ (32 - m) * (ipv4 f1 f2 f3 f4 / 2 ^ (32 - m)), m, 0,
            (2 ^ (32 - m) - 2) / long_bits T + 1,
            word_and (word_and
              (List.replicate ((2 ^ (32 - m) - 2) / long_bits T + 1) (2 ^ long_bits T - 1))
              ((2 ^ (32 - m) - 2) / long_bits T)
              (int_to_long T (int_sub (int_shl1 T ((2 ^ (32 - m) - 2) % long_bits T + 1)) 1)))
              0 (int_to_long T (int_not 3))⟩ ∧
    2 ^ (32 - m) * (ipv4 f1 f2 f3 f4 / 2 ^ (32 - m)) + (2 ^ (32 - m) - 1) < 2 ^ 32 ∧
    4 ≤ 2 ^ (32 - m) ∧ 2 ^ (32 - m) ≤ 2 ^ 31 := by
  have hk : 32 - m < 32 := by omega
  have ha := ipv4_lt f1 f2 f3 f4 h1 h2 h3 h4
  have hp4 : 4 ≤ 2 ^ (32 - m) := by
    have : (2:Nat) ^ 2 ≤ 2 ^ (32 - m) := Nat.pow_le_pow_right (by omega) (by omega)
    omega
  have hp31 : 2 ^ (32 - m) ≤ 2 ^ 31 := Nat.pow_le_pow_right (by omega) (by omega)
  have hdiv : 2 ^ (32 - m) * (ipv4 f1 f2 f3 f4 / 2 ^ (32 - m)) ≤ ipv4 f1 f2 f3 f4 :=
    Nat.mul_div_le _ _
  have hblk : 2 ^ (32 - m) * (ipv4 f1 f2 f3 f4 / 2 ^ (32 - m)) + (2 ^ (32 - m) - 1) < 2 ^ 32 := by
    have e : (2:Nat) ^ 32 = 2 ^ (32 - m) * 2 ^ m := by
      rw [← Nat.pow_add]; congr 1; omega
    have hq : ipv4 f1 f2 f3 f4 / 2 ^ (32 - m) < 2 ^ m := by
      apply Nat.div_lt_of_lt_mul; rw [← e]; exact ha
    have : 2 ^ (32 - m) * (ipv4 f1 f2 f3 f4 / 2 ^ (32 - m) + 1) ≤ 2 ^ (32 - m) * 2 ^ m :=
      Nat.mul_le_mul_left _ hq
    rw [e]
    rw [Nat.mul_add, Nat.mul_one] at this
    omega
  refine ⟨?_, hblk, hp4, hp31⟩
  have hend : 2 ^ (32 - m) * (ipv4 f1 f2 f3 f4 / 2 ^ (32 - m)) ||| (2 ^ (32 - m) - 1)
      = 2 ^ (32 - m) * (ipv4 f1 f2 f3 f4 / 2 ^ (32 - m)) + (2 ^ (32 - m) - 1) :=
    (Nat.mul_add_lt_is_or (by omega) _).symm
  have hm0 : ¬ (m = 0 ∨ m > 30) := by omega
  unfold parse_range
  simp only [ne_eq, not_true_eq_false, if_false, Nat.not_lt.mpr h1, Nat.not_lt.mpr h2,
    Nat.not_lt.mpr h3, Nat.not_lt.mpr h4, hm0, gt_iff_lt]
  rw [shift_or_eq f1 f2 f3 f4 h1 h2 h3 h4, and_netmask T _ _ hk ha, not_netmask T _ hk, hend]
  generalize 2 ^ (32 - m) * (ipv4 f1 f2 f3 f4 / 2 ^ (32 - m)) = s at *
  generalize (2:Nat) ^ (32 - m) = p at *
  have e1 : int_sub (s + (p - 1)) s = p - 1 := int_sub_cancel s (p - 1) hblk
  have e2 : int_sub (p - 1) 1 = p - 2 := by unfold int_sub; omega
  have e3 : int_add s 1 = s + 1 := by unfold int_add; omega
  rw [e1, e2, e3]


theorem getD_replicate_zero (n a i : Nat) :
    (List.replicate n a).getD i 0 = if i < n then a else 0 := by
  simp only [List.getD_eq_getElem?_getD, List.getElem?_replicate]
  split <;> rfl

/-- Bits 0 and 1 are clear in the word `~3` that `parse_range` ands into word 0. -/
theorem low_mask_bit (T : Target) (hT : 4 ≤ T.sizeof_long) (j : Nat) (hj : j < 2) :
    (int_to_long T (int_not 3)).testBit j = false := by
  rw [int_to_long_lo T hT _ j (by omega), Nat.mod_eq_of_lt (int_not_lt _), testBit_int_not]
  have : j = 0 ∨ j = 1 := by omega
  rcases this with e | e <;> subst e <;> decide

/-- Below bit 32, the word `(1 << s) - 1` that `parse_range` ands into the last
bitmap word has no set bit at `s` or above. -/
theorem top_mask_bit (T : Target) (hT : 4 ≤ T.sizeof_long) (s j : Nat) (hj : j < 32)
    (h : (int_to_long T (int_sub (int_shl1 T s) 1)).testBit j = true) : j < s := by
  by_cases hs : s < 32
  · have h2 : (2:Nat) ^ s - 1 < 2 ^ 32 := by
      have : (2:Nat) ^ s < 2 ^ 32 := Nat.pow_lt_pow_right (by omega) hs
      omega
    rw [int_to_long_lo T hT _ j hj, int_shl1_lt T s hs, int_sub_pow_one s hs,
      Nat.mod_eq_of_lt h2, Nat.testBit_two_pow_sub_one] at h
    simpa using h
  · omega

/-- The bitmap that `parse_range` builds satisfies the pool invariant, with no
address handed out. -/
theorem parse_range_inv (T : Target) (hT : 4 ≤ T.sizeof_long) (f1 f2 f3 f4 m : Nat)
    (r : dhcpv4_iprange) (h : parse_range T 5 f1 f2 f3 f4 m = some r) :
    pool_inv T r.startip (2 ^ (32 - m) - 1) r [] ∧
    r.startip + (2 ^ (32 - m) - 1) < 2 ^ 32 ∧ 2 ^ (32 - m) - 1 < 2 ^ 31 ∧
    r.startip = 2 ^ (32 - m) * (ipv4 f1 f2 f3 f4 / 2 ^ (32 - m)) ∧
    r.routerip = r.startip + 1 ∧ r.mask = m ∧ r.pos = 0 ∧ 1 ≤ m ∧ m ≤ 30 := by
  have hv : f1 ≤ 255 ∧ f2 ≤ 255 ∧ f3 ≤ 255 ∧ f4 ≤ 255 ∧ 1 ≤ m ∧ m ≤ 30 := by
    unfold parse_range at h
    by_contra hc
    have : f1 > 255 ∨ f2 > 255 ∨ f3 > 255 ∨ f4 > 255 ∨ (m = 0 ∨ m > 30) := by omega
    rcases this with e | e | e | e | e
    · simp [e] at h
    · split at h; · simp at h
      split at h; · simp at h
      simp [e] at h
    · split at h; · simp at h
      split at h; · simp at h
      split at h; · simp at h
      simp [e] at h
    · split at h; · simp at h
      split at h; · simp at h
      split at h; · simp at h
      split at h; · simp at h
      simp [e] at h
    · split at h; · simp at h
      split at h; · simp at h
      split at h; · simp at h
      split at h; · simp at h
      split at h; · simp at h
      simp [e] at h
  obtain ⟨h1, h2, h3, h4, hm1, hm2⟩ := hv
  obtain ⟨heq, hblk, hp4, hp31⟩ := parse_range_eq T f1 f2 f3 f4 m h1 h2 h3 h4 hm1 hm2
  rw [heq] at h
  have hr := (Option.some.inj h).symm
  have hW := long_bits_ge T hT
  subst hr
  refine ⟨?_, hblk, by omega, rfl, rfl, rfl, rfl, hm1, hm2⟩
  simp only
  generalize (2:Nat) ^ (32 - m) = p at *
  have hdm : (p - 2) / long_bits T * long_bits T + (p - 2) % long_bits T = p - 2 := by
    rw [Nat.mul_comm]; exact Nat.div_add_mod _ _
  have hml : (p - 2) % long_bits T < long_bits T := Nat.mod_lt _ (by omega)
  generalize (p - 2) / long_bits T = q at *
  generalize (p - 2) % long_bits T = l at *
  have hA : ∀ t, 32 ≤ t → (2 ^ long_bits T - 1).testBit t = true →
      (2 ^ long_bits T - 1).testBit 31 = true := by
    intro t _ _
    rw [Nat.testBit_two_pow_sub_one]
    simpa using (by omega : 31 < long_bits T)
  have hR : ∀ i, (List.replicate (q + 1) (2 ^ long_bits T - 1)).getD i 0
      = if i < q + 1 then 2 ^ long_bits T - 1 else 0 := fun i => getD_replicate_zero _ _ i
  have hRs : ∀ i t, 32 ≤ t →
      ((List.replicate (q + 1) (2 ^ long_bits T - 1)).getD i 0).testBit t = true →
      ((List.replicate (q + 1) (2 ^ long_bits T - 1)).getD i 0).testBit 31 = true := by
    intro i t ht hb
    rw [hR] at hb ⊢
    split at hb
    · rename_i hlt; rw [if_pos hlt]; exact hA t ht hb
    · simp at hb
  have hRlt : ∀ i t, ((List.replicate (q + 1) (2 ^ long_bits T - 1)).getD i 0).testBit t = true →
      i < q + 1 := by
    intro i t hb
    rw [hR] at hb
    split at hb
    · assumption
    · simp at hb
  have hRlen : (List.replicate (q + 1) (2 ^ long_bits T - 1)).length = q + 1 :=
    List.length_replicate _ _
  generalize List.replicate (q + 1) (2 ^ long_bits T - 1) = R at *
  have hR1len : (word_and R q (int_to_long T (int_sub (int_shl1 T (l + 1)) 1))).length = q + 1 := by
    rw [length_word_and]; exact hRlen
  have hR1 : ∀ i, (word_and R q (int_to_long T (int_sub (int_shl1 T (l + 1)) 1))).getD i 0
      = if i = q then R.getD q 0 &&& int_to_long T (int_sub (int_shl1 T (l + 1)) 1)
        else R.getD i 0 := fun i => getD_word_and _ _ _ i
  have hR1s : ∀ i t, 32 ≤ t →
      ((word_and R q (int_to_long T (int_sub (int_shl1 T (l + 1)) 1))).getD i 0).testBit t = true →
      ((word_and R q (int_to_long T (int_sub (int_shl1 T (l + 1)) 1))).getD i 0).testBit 31
        = true := by
    intro i t ht
    rw [hR1]
    split
    · exact and_keeps_sign T hT _ _ (hRs q) t ht
    · exact hRs i t ht
  have hR1b : ∀ i t,
      ((word_and R q (int_to_long T (int_sub (int_shl1 T (l + 1)) 1))).getD i 0).testBit t = true →
      i < q + 1 ∧ (i = q → (int_to_long T (int_sub (int_shl1 T (l + 1)) 1)).testBit t = true) := by
    intro i t hb
    rw [hR1] at hb
    split at hb
    · rename_i e
      rw [Nat.testBit_and, Bool.and_eq_true] at hb
      exact ⟨by omega, fun _ => hb.2⟩
    · rename_i e
      exact ⟨hRlt i t hb, fun e2 => absurd e2 e⟩
  generalize word_and R q (int_to_long T (int_sub (int_shl1 T (l + 1)) 1)) = R1 at *
  refine ⟨rfl, ?_, ?_, ?_, List.nodup_nil, ?_⟩
  · simp only [length_word_and]
    exact hR1len
  · intro i j hj hb
    rw [getD_word_and] at hb
    have hb1 : (R1.getD i 0).testBit j = true ∧
        (i = 0 → (int_to_long T (int_not 3)).testBit j = true) := by
      split at hb
      · rename_i e; subst e
        rw [Nat.testBit_and, Bool.and_eq_true] at hb
        exact ⟨hb.1, fun _ => hb.2⟩
      · rename_i e
        exact ⟨hb, fun e2 => absurd e2 e⟩
    obtain ⟨hlt, htop⟩ := hR1b i j hb1.1
    constructor
    · by_cases hi0 : i = 0
      · by_contra hc
        have := low_mask_bit T hT j (by omega)
        rw [hb1.2 hi0] at this
        exact Bool.noConfusion this
      · have : 1 ≤ i := by omega
        have : 1 * long_bits T ≤ i * long_bits T := Nat.mul_le_mul_right _ this
        omega
    · by_cases hiL : i = q
      · have hj2 : j < l + 1 := top_mask_bit T hT _ j hj (htop hiL)
        rw [hiL]; omega
      · have : i + 1 ≤ q := by omega
        have : (i + 1) * long_bits T ≤ q * long_bits T := Nat.mul_le_mul_right _ this
        rw [Nat.add_mul] at this
        omega
  · intro i j hj
    rw [getD_word_and]
    split
    · exact and_keeps_sign T hT _ _ (hR1s 0) j hj
    · exact hR1s i j hj
  · intro a ha
    simp at ha


/-! ## The pool invariant along a sequence of calls -/

/-- After exhaustion, releasing an address that is handed out makes the next
allocation return that address. -/
theorem put_then_get (T : Target) (hT : 4 ≤ T.sizeof_long) (start E : Nat)
    (hE : start + E < 2 ^ 32) (hE31 : E < 2 ^ 31) (r : dhcpv4_iprange) (L : List Nat)
    (h : pool_inv T start E r L)
    (hz : ∀ i j, j < long_bits T → (r.free.getD i 0).testBit j = false)
    (a : Nat) (ha : a ∈ L) :
    (range_get_ip T (range_put_ip T r a)).2 = some (a, htonl T r.routerip, r.mask) := by
  have hW := long_bits_ge T hT
  obtain ⟨hinv2, i, j, hj, hi, heq, hnE, hfree⟩ := pool_inv_put T hT start E hE hE31 r L h a ha
  have hlen : r.free.length = r.len := h.2.1
  have hs : r.startip = start := h.1
  have hword : ∀ t, (range_put_ip T r a).free.getD t 0
      = if t = i then r.free.getD i 0 ||| int_to_long T (int_shl1 T j) else r.free.getD t 0 := by
    intro t; rw [hfree, getD_word_or _ _ _ _ (by omega)]
  have hki : ffsl T ((range_put_ip T r a).free.getD i 0) = j + 1 := by
    apply ffsl_of_lowest T _ j (by omega)
    · rw [hword, if_pos rfl, Nat.testBit_or, set_mask_bit T hT j j hj hj]; simp
    · intro t ht
      rw [hword, if_pos rfl, Nat.testBit_or, hz i t (by omega),
        set_mask_bit T hT j t hj (by omega)]
      simp; omega
  have hother : ∀ t, t ≠ i → ffsl T ((range_put_ip T r a).free.getD t 0) = 0 := by
    intro t ht
    apply ffsl_of_clear
    intro u hu
    rw [hword, if_neg ht]; exact hz t u hu
  have htake : (get_ip_take T (range_put_ip T r a) i (j + 1)).2
      = some (a, htonl T r.routerip, r.mask) := by
    have e : i * 8 * T.sizeof_long = i * long_bits T := by
      unfold long_bits; rw [Nat.mul_assoc]
    have e2 : ((range_put_ip T r a).startip + i * 8 * T.sizeof_long + (j + 1) - 1) % 2 ^ 32
        = start + (i * long_bits T + j) := by
      rw [e, (range_put_ip_fields T r a).1, hs, Nat.mod_eq_of_lt (by omega)]; omega
    simp only [get_ip_take, e2, ← heq]
    rfl
  rcases range_get_ip_cases T (range_put_ip T r a) with
    ⟨i1, _, _, hk, _, hr⟩ | ⟨i1, _, _, hk, _, _, hr⟩ | ⟨hzz, _⟩
  · have : i1 = i := by
      by_contra hc; exact hk (hother i1 hc)
    subst this
    rw [hr, hki]; exact htake
  · have : i1 = i := by
      by_contra hc; exact hk (hother i1 hc)
    subst this
    rw [hr, hki]; exact htake
  · have := hzz i hi
    rw [hki] at this
    omega

theorem pool_step_inv (T : Target) (hT : 4 ≤ T.sizeof_long) (start E rt m : Nat)
    (hE : start + E < 2 ^ 32) (hE31 : E < 2 ^ 31) (s s1 : pool_state) (op : pool_op)
    (h : serv_inv T start E rt m s) (hs : pool_step T s op = some s1) :
    serv_inv T start E rt m s1 := by
  obtain ⟨r, hr, hinv, hrt, hm⟩ := h
  obtain ⟨f1, f2, f3, _⟩ := range_get_ip_fields T r
  cases op with
  | get =>
    simp only [pool_step, dhcpv4_get_ip, hr] at hs
    rcases pool_inv_get T hT start E hE r s.leased hinv with
      ⟨n, _, _, hres, _, hinv1⟩ | ⟨hres, hinv1, _, _⟩
    · rw [hres] at hs
      simp only [Option.some.injEq] at hs
      subst hs
      exact ⟨_, rfl, hinv1, by rw [f2, hrt], by rw [f3, hm]⟩
    · rw [hres] at hs
      simp only [Option.some.injEq] at hs
      subst hs
      exact ⟨_, rfl, hinv1, by rw [f2, hrt], by rw [f3, hm]⟩
  | put a =>
    simp only [pool_step] at hs
    split at hs
    · rename_i hin
      simp only [Option.some.injEq] at hs
      subst hs
      obtain ⟨hinv1, _⟩ := pool_inv_put T hT start E hE hE31 r s.leased hinv a hin
      exact ⟨range_put_ip T r a, by simp [dhcpv4_put_ip, hr], hinv1, hrt, hm⟩
    · simp at hs

theorem pool_run_inv (T : Target) (hT : 4 ≤ T.sizeof_long) (start E rt m : Nat)
    (hE : start + E < 2 ^ 32) (hE31 : E < 2 ^ 31) (ops : List pool_op) :
    ∀ (s s1 : pool_state), serv_inv T start E rt m s → pool_run T s ops = some s1 →
      serv_inv T start E rt m s1 := by
  induction ops with
  | nil =>
    intro s s1 h hs
    simp only [pool_run, Option.some.injEq] at hs
    subst hs; exact h
  | cons op ops ih =>
    intro s s1 h hs
    simp only [pool_run] at hs
    cases hstep : pool_step T s op with
    | none => rw [hstep] at hs; simp at hs
    | some s2 =>
      rw [hstep] at hs
      exact ih s2 s1 (pool_step_inv T hT start E rt m hE hE31 s s2 op h hstep) hs

theorem parse_range_n (T : Target) (n f1 f2 f3 f4 m : Nat) (r : dhcpv4_iprange)
    (h : parse_range T n f1 f2 f3 f4 m = some r) : n = 5 := by
  unfold parse_range at h
  by_contra hc
  simp [hc] at h

/-- Every state reached from a freshly parsed range by an admissible sequence
of calls satisfies the server invariant. -/
theorem reach_inv (T : Target) (hT : 4 ≤ T.sizeof_long) (n f1 f2 f3 f4 m : Nat)
    (hw : List Nat) (r : dhcpv4_iprange) (hr : parse_range T n f1 f2 f3 f4 m = some r)
    (ops : List pool_op) (st : pool_state)
    (hrun : pool_run T ⟨⟨hw, some r⟩, []⟩ ops = some st) :
    serv_inv T r.startip (2 ^ (32 - m) - 1) (r.startip + 1) m st ∧
    r.startip + (2 ^ (32 - m) - 1) < 2 ^ 32 ∧ 2 ^ (32 - m) - 1 < 2 ^ 31 ∧
    r.routerip = r.startip + 1 := by
  have hn := parse_range_n T n f1 f2 f3 f4 m r hr
  subst hn
  obtain ⟨hinv, hE, hE31, _, hrt, hm, _⟩ := parse_range_inv T hT f1 f2 f3 f4 m r hr
  exact ⟨pool_run_inv T hT _ _ _ _ hE hE31 ops _ st ⟨r, rfl, hinv, hrt, hm⟩ hrun, hE, hE31, hrt⟩


/-! ## The address pool: allocation and release -/

/-- C1 (no double lease): start from a range built by `parse_range` and run any
sequence of `dhcpv4_get_ip` calls and of `dhcpv4_put_ip` calls on addresses
returned earlier and not yet released. Then the addresses handed out and not
released are pairwise distinct, and a further `dhcpv4_get_ip` never returns an
address that is still handed out. -/
theorem no_double_lease (T : Target) (hT : 4 ≤ T.sizeof_long) (n f1 f2 f3 f4 m : Nat)
    (hw : List Nat) (r : dhcpv4_iprange) (hr : parse_range T n f1 f2 f3 f4 m = some r)
    (ops : List pool_op) (st : pool_state)
    (hrun : pool_run T ⟨⟨hw, some r⟩, []⟩ ops = some st) :
    st.leased.Nodup ∧
    ∀ y s k, (dhcpv4_get_ip T st.serv).2 = some (y, s, k) → y ∉ st.leased := by
  obtain ⟨⟨r1, hr1, hinv, _, _⟩, hE, _, _⟩ := reach_inv T hT n f1 f2 f3 f4 m hw r hr ops st hrun
  refine ⟨hinv.2.2.2.2.1, ?_⟩
  intro y s k hget
  simp only [dhcpv4_get_ip, hr1] at hget
  rcases pool_inv_get T hT _ _ hE r1 st.leased hinv with ⟨a, _, _, hres, hni, _⟩ | ⟨hres, _⟩
  · rw [hres] at hget
    simp only [Option.some.injEq, Prod.mk.injEq] at hget
    rw [← hget.1]; exact hni
  · rw [hres] at hget; simp at hget

/-- Witness for `no_double_lease`: on x86-64, range 192.0.2.0/29, after two
allocations, the release of 192.0.2.2 and one more allocation. -/
theorem no_double_lease_witness :
    parse_range linux_x86_64 5 192 0 2 0 29
        = some ⟨3221225985, 3221225984, 29, 0, 1, [124]⟩ ∧
    pool_run linux_x86_64 ⟨⟨[], some ⟨3221225985, 3221225984, 29, 0, 1, [124]⟩⟩, []⟩
        [.get, .get, .put 33685696, .get]
        = some ⟨⟨[], some ⟨3221225985, 3221225984, 29, 0, 1, [112]⟩⟩, [33685696, 50462912]⟩ ∧
    ([33685696, 50462912].Nodup ∧
      ∀ y s k, (dhcpv4_get_ip linux_x86_64
          ⟨[], some ⟨3221225985, 3221225984, 29, 0, 1, [112]⟩⟩).2 = some (y, s, k) →
        y ∉ [33685696, 50462912]) :=
  ⟨by decide, by decide,
   no_double_lease linux_x86_64 (by decide) 5 192 0 2 0 29 []
     ⟨3221225985, 3221225984, 29, 0, 1, [124]⟩ (by decide)
     [.get, .get, .put 33685696, .get]
     ⟨⟨[], some ⟨3221225985, 3221225984, 29, 0, 1, [112]⟩⟩, [33685696, 50462912]⟩ (by decide)⟩

/-- C3 (reserved addresses): from a range built by `parse_range` (so with mask
`m` in 1..30), after any admissible sequence of allocations and releases, an
address returned by `dhcpv4_get_ip` is never the network address `startip`, the
router address `startip + 1` or the broadcast address
`startip + 2 ^ (32 - m) - 1`; it lies strictly between the router address and
the broadcast address. -/
theorem reserved_never_returned (T : Target) (hT : 4 ≤ T.sizeof_long)
    (n f1 f2 f3 f4 m : Nat) (hw : List Nat) (r : dhcpv4_iprange)
    (hr : parse_range T n f1 f2 f3 f4 m = some r) (ops : List pool_op) (st : pool_state)
    (hrun : pool_run T ⟨⟨hw, some r⟩, []⟩ ops = some st) (y s k : Nat)
    (hget : (dhcpv4_get_ip T st.serv).2 = some (y, s, k)) :
    r.routerip = r.startip + 1 ∧
    ntohl T y ≠ r.startip ∧ ntohl T y ≠ r.routerip ∧
    ntohl T y ≠ r.startip + (2 ^ (32 - m) - 1) ∧
    r.routerip < ntohl T y ∧ ntohl T y < r.startip + (2 ^ (32 - m) - 1) := by
  obtain ⟨⟨r1, hr1, hinv, _, _⟩, hE, _, hrt⟩ :=
    reach_inv T hT n f1 f2 f3 f4 m hw r hr ops st hrun
  simp only [dhcpv4_get_ip, hr1] at hget
  rcases pool_inv_get T hT _ _ hE r1 st.leased hinv with ⟨a, h2, hlt, hres, _, _⟩ | ⟨hres, _⟩
  · rw [hres] at hget
    simp only [Option.some.injEq, Prod.mk.injEq] at hget
    have hy : ntohl T y = r.startip + a := by
      rw [← hget.1, ntohl_htonl T _ (by omega)]
    rw [hy, hrt]
    omega
  · rw [hres] at hget; simp at hget

/-- Witness for `reserved_never_returned`: on x86-64, range 192.0.2.0/29, the
allocation that follows two allocations and the release of 192.0.2.2 returns
192.0.2.2 (in network byte order). -/
theorem reserved_never_returned_witness :
    parse_range linux_x86_64 5 192 0 2 0 29
        = some ⟨3221225985, 3221225984, 29, 0, 1, [124]⟩ ∧
    pool_run linux_x86_64 ⟨⟨[], some ⟨3221225985, 3221225984, 29, 0, 1, [124]⟩⟩, []⟩
        [.get, .get, .put 33685696]
        = some ⟨⟨[], some ⟨3221225985, 3221225984, 29, 0, 1, [116]⟩⟩, [50462912]⟩ ∧
    (dhcpv4_get_ip linux_x86_64 ⟨[], some ⟨3221225985, 3221225984, 29, 0, 1, [116]⟩⟩).2
        = some (33685696, 16908480, 29) ∧
    ((3221225985 : Nat) = 3221225984 + 1 ∧
      ntohl linux_x86_64 33685696 ≠ 3221225984 ∧ ntohl linux_x86_64 33685696 ≠ 3221225985 ∧
      ntohl linux_x86_64 33685696 ≠ 3221225984 + (2 ^ (32 - 29) - 1) ∧
      3221225985 < ntohl linux_x86_64 33685696 ∧
      ntohl linux_x86_64 33685696 < 3221225984 + (2 ^ (32 - 29) - 1)) :=
  ⟨by decide, by decide, by decide,
   reserved_never_returned linux_x86_64 (by decide) 5 192 0 2 0 29 []
     ⟨3221225985, 3221225984, 29, 0, 1, [124]⟩ (by decide)
     [.get, .get, .put 33685696]
     ⟨⟨[], some ⟨3221225985, 3221225984, 29, 0, 1, [116]⟩⟩, [50462912]⟩ (by decide)
     33685696 16908480 29 (by decide)⟩

/-- C4 (release after exhaustion): from a range built by `parse_range`, after
any admissible sequence of calls, if `dhcpv4_get_ip` reports that no address is
available, then releasing any address `a` that is handed out makes the next
`dhcpv4_get_ip` return exactly `a` (with the router address and the mask). More
generally, on any range whatever, `dhcpv4_get_ip` reports exhaustion only when
no bit of the bitmap words `0 .. len-1` is set. -/
theorem release_after_exhaustion (T : Target) (hT : 4 ≤ T.sizeof_long)
    (n f1 f2 f3 f4 m : Nat) (hw : List Nat) (r : dhcpv4_iprange)
    (hr : parse_range T n f1 f2 f3 f4 m = some r) (ops : List pool_op) (st : pool_state)
    (hrun : pool_run T ⟨⟨hw, some r⟩, []⟩ ops = some st) :
    ((dhcpv4_get_ip T st.serv).2 = none →
      ∀ a, a ∈ st.leased →
        (dhcpv4_get_ip T (dhcpv4_put_ip T (dhcpv4_get_ip T st.serv).1 a)).2
          = some (a, htonl T r.routerip, m)) ∧
    (∀ (serv : dhcpv4_serv) (r2 : dhcpv4_iprange), serv.range = some r2 →
      (dhcpv4_get_ip T serv).2 = none →
      ∀ i j, i < r2.len → j < long_bits T → (r2.free.getD i 0).testBit j = false) := by
  constructor
  · obtain ⟨⟨r1, hr1, hinv, hrt1, hm1⟩, hE, hE31, hrt⟩ :=
      reach_inv T hT n f1 f2 f3 f4 m hw r hr ops st hrun
    intro hnone a ha
    simp only [dhcpv4_get_ip, hr1] at hnone
    rcases pool_inv_get T hT _ _ hE r1 st.leased hinv with
      ⟨b, _, _, hres, _, _⟩ | ⟨_, hinv1, hfree, hz⟩
    · rw [hres] at hnone; simp at hnone
    · obtain ⟨_, g2, g3, _⟩ := range_get_ip_fields T r1
      have := put_then_get T hT _ _ hE hE31 (range_get_ip T r1).1 st.leased hinv1
        (by rw [hfree]; exact hz) a ha
      simp only [dhcpv4_get_ip, dhcpv4_put_ip, hr1]
      rw [this, g2, g3, hrt1, hm1, hrt]
  · intro serv r2 hs hnone i j hi hj
    simp only [dhcpv4_get_ip, hs] at hnone
    rcases range_get_ip_cases T r2 with
      ⟨i1, _, _, _, _, hres⟩ | ⟨i1, _, _, _, _, _, hres⟩ | ⟨hz, _⟩
    · rw [hres] at hnone; simp [get_ip_take] at hnone
    · rw [hres] at hnone; simp [get_ip_take] at hnone
    · exact ffsl_zero T _ (hz i hi) j hj

/-- Witness for `release_after_exhaustion`: on x86-64, range 192.0.2.0/29, six
allocations (the sixth reports exhaustion). -/
theorem release_after_exhaustion_witness :
    parse_range linux_x86_64 5 192 0 2 0 29
        = some ⟨3221225985, 3221225984, 29, 0, 1, [124]⟩ ∧
    pool_run linux_x86_64 ⟨⟨[], some ⟨3221225985, 3221225984, 29, 0, 1, [124]⟩⟩, []⟩
        [.get, .get, .get, .get, .get, .get]
        = some ⟨⟨[], some ⟨3221225985, 3221225984, 29, 0, 1, [0]⟩⟩,
            [100794560, 84017344, 67240128, 50462912, 33685696]⟩ ∧
    (dhcpv4_get_ip linux_x86_64 ⟨[], some ⟨3221225985, 3221225984, 29, 0, 1, [0]⟩⟩).2 = none ∧
    (dhcpv4_get_ip linux_x86_64 (dhcpv4_put_ip linux_x86_64
        (dhcpv4_get_ip linux_x86_64 ⟨[], some ⟨3221225985, 3221225984, 29, 0, 1, [0]⟩⟩).1
        67240128)).2 = some (67240128, htonl linux_x86_64 3221225985, 29) :=
  ⟨by decide, by decide, by decide,
   (release_after_exhaustion linux_x86_64 (by decide) 5 192 0 2 0 29 []
     ⟨3221225985, 3221225984, 29, 0, 1, [124]⟩ (by decide)
     [.get, .get, .get, .get, .get, .get]
     ⟨⟨[], some ⟨3221225985, 3221225984, 29, 0, 1, [0]⟩⟩,
       [100794560, 84017344, 67240128, 50462912, 33685696]⟩ (by decide)).1
     (by decide) 67240128 (by decide)⟩


theorem ffsl_zero_word (T : Target) : ffsl T 0 = 0 :=
  ffsl_of_clear T 0 (fun j _ => Nat.zero_testBit j)

/-- C5 (which address is returned): on any range with cursor `pos`, let `i` be
the smallest word index `>= pos` whose word is non-zero or, when there is none,
the smallest word index overall whose word is non-zero, and let `b` be the
lowest set bit of word `i`. Then `dhcpv4_get_ip` returns the 32-bit address
`startip + i * W + b` (`W = 8 * sizeof(long)`) in network byte order, together
with the router address `startip + 1` and the configured mask, and leaves the
cursor equal to `i`. -/
theorem get_ip_address (T : Target) (serv : dhcpv4_serv) (r : dhcpv4_iprange)
    (hs : serv.range = some r) (hrt : r.routerip = r.startip + 1)
    (i b : Nat) (hi : i < r.len) (hb : b < long_bits T)
    (hbit : (r.free.getD i 0).testBit b = true)
    (hlow : ∀ c, c < b → (r.free.getD i 0).testBit c = false)
    (hfirst : (r.pos ≤ i ∧ ∀ t, r.pos ≤ t → t < i → r.free.getD t 0 = 0) ∨
      ((∀ t, r.pos ≤ t → t < r.len → r.free.getD t 0 = 0) ∧
        ∀ t, t < i → r.free.getD t 0 = 0)) :
    (dhcpv4_get_ip T serv).2
        = some (htonl T ((r.startip + i * long_bits T + b) % 2 ^ 32),
                htonl T (r.startip + 1), r.mask) ∧
    (dhcpv4_get_ip T serv).1.range.map (fun r1 => r1.pos) = some i := by
  have hki : ffsl T (r.free.getD i 0) = b + 1 := ffsl_of_lowest T _ b hb hbit hlow
  have hz : ∀ t, r.free.getD t 0 = 0 → ffsl T (r.free.getD t 0) = 0 := by
    intro t ht; rw [ht]; exact ffsl_zero_word T
  have htake : range_get_ip T r = get_ip_take T r i (b + 1) := by
    rcases range_get_ip_cases T r with
      ⟨i1, hp1, hi1, hk, hbefore, hr⟩ | ⟨i1, _, hi1, hk, hfrom, hbefore, hr⟩ | ⟨hzz, _⟩
    · have : i1 = i := by
        rcases hfirst with ⟨hp, hf⟩ | ⟨hf, _⟩
        · rcases Nat.lt_trichotomy i1 i with h | h | h
          · exact absurd (hz i1 (hf i1 hp1 h)) hk
          · exact h
          · have := hbefore i hp h
            rw [hki] at this; omega
        · exact absurd (hz i1 (hf i1 hp1 hi1)) hk
      subst this
      rw [hr, hki]
    · have : i1 = i := by
        rcases hfirst with ⟨hp, _⟩ | ⟨_, hf⟩
        · have := hfrom i hp hi
          rw [hki] at this; omega
        · rcases Nat.lt_trichotomy i1 i with h | h | h
          · exact absurd (hz i1 (hf i1 h)) hk
          · exact h
          · have := hbefore i h
            rw [hki] at this; omega
      subst this
      rw [hr, hki]
    · have := hzz i hi
      rw [hki] at this; omega
  have e : i * 8 * T.sizeof_long = i * long_bits T := by
    unfold long_bits; rw [Nat.mul_assoc]
  simp only [dhcpv4_get_ip, hs, htake, get_ip_take, e, hrt, Nat.add_sub_cancel, Option.map_some']
  exact ⟨by rw [← Nat.add_assoc, Nat.add_sub_cancel], trivial⟩

/-- Witness for `get_ip_address`: on x86-64, a /24 range with cursor 1 whose
only non-zero word is word 0, with lowest set bit 4. -/
theorem get_ip_address_witness :
    (dhcpv4_get_ip linux_x86_64 ⟨[], some ⟨3221225985, 3221225984, 24, 1, 4, [16, 0, 0, 0]⟩⟩).2
        = some (htonl linux_x86_64 ((3221225984 + 0 * long_bits linux_x86_64 + 4) % 2 ^ 32),
                htonl linux_x86_64 (3221225984 + 1), 24) ∧
    (dhcpv4_get_ip linux_x86_64
        ⟨[], some ⟨3221225985, 3221225984, 24, 1, 4, [16, 0, 0, 0]⟩⟩).1.range.map
      (fun r1 => r1.pos) = some 0 :=
  get_ip_address linux_x86_64 ⟨[], some ⟨3221225985, 3221225984, 24, 1, 4, [16, 0, 0, 0]⟩⟩
    ⟨3221225985, 3221225984, 24, 1, 4, [16, 0, 0, 0]⟩ rfl rfl 0 4 (by decide) (by decide)
    (by decide) (by decide)
    (Or.inr ⟨by decide, by decide⟩)


/-- And-ing a word below `2 ^ 32` with a converted `int` only involves the 32
bits of the `int`. -/
theorem and_int_to_long (T : Target) (hT : 4 ≤ T.sizeof_long) (w x : Nat) (hw : w < 2 ^ 32) :
    w &&& int_to_long T x = w &&& (x % 2 ^ 32) := by
  apply Nat.eq_of_testBit_eq
  intro t
  rw [Nat.testBit_and, Nat.testBit_and]
  by_cases ht : t < 32
  · rw [int_to_long_lo T hT x t ht]
  · have : w.testBit t = false :=
      Nat.testBit_lt_two_pow (lt_of_lt_of_le hw (Nat.pow_le_pow_right (by omega) (by omega)))
    rw [this, Bool.false_and, Bool.false_and]

/-- One allocation on a range of a single word below `2 ^ 32` with cursor 0
whose lowest set bit is `j`. -/
theorem get_ip_single (T : Target) (hT : 4 ≤ T.sizeof_long) (hw : List Nat)
    (rt s m w j : Nat) (hw32 : w < 2 ^ 32) (hj : j < 32) (hbit : w.testBit j = true)
    (hlow : ∀ c, c < j → w.testBit c = false) :
    dhcpv4_get_ip T ⟨hw, some ⟨rt, s, m, 0, 1, [w]⟩⟩
      = (⟨hw, some ⟨rt, s, m, 0, 1, [w &&& int_not (2 ^ j)]⟩⟩,
         some (htonl T ((s + j) % 2 ^ 32), htonl T rt, m)) := by
  have hW := long_bits_ge T hT
  have hk : ffsl T w = j + 1 := ffsl_of_lowest T w j (by omega) hbit hlow
  have hand : w &&& int_to_long T (int_not (int_shl1 T j)) = w &&& int_not (2 ^ j) := by
    rw [and_int_to_long T hT _ _ hw32, int_shl1_lt T j hj, Nat.mod_eq_of_lt (int_not_lt _)]
  simp [dhcpv4_get_ip, range_get_ip, get_ip_scan, hk, get_ip_take, word_and, hand]

/-- An allocation on a range of a single zero word with cursor 0 reports that
no address is available and changes nothing. -/
theorem get_ip_single_none (T : Target) (hw : List Nat) (rt s m : Nat) :
    dhcpv4_get_ip T ⟨hw, some ⟨rt, s, m, 0, 1, [0]⟩⟩
      = (⟨hw, some ⟨rt, s, m, 0, 1, [0]⟩⟩, none) := by
  simp [dhcpv4_get_ip, range_get_ip, get_ip_scan, ffsl_zero_word]

theorem parse_range_29 (T : Target) (hT : 4 ≤ T.sizeof_long) :
    parse_range T 5 192 0 2 0 29 = some ⟨ipv4 192 0 2 1, ipv4 192 0 2 0, 29, 0, 1, [124]⟩ := by
  have hW := long_bits_ge T hT
  obtain ⟨h, _⟩ := parse_range_eq T 192 0 2 0 29 (by omega) (by omega) (by omega) (by omega)
    (by omega) (by omega)
  rw [h]
  have e1 : (2 ^ (32 - 29) - 2) / long_bits T = 0 := Nat.div_eq_of_lt (by norm_num; omega)
  have e2 : (2 ^ (32 - 29) - 2) % long_bits T = 6 := Nat.mod_eq_of_lt (by norm_num; omega)
  have e3 : int_to_long T (int_sub (int_shl1 T (6 + 1)) 1) = 127 := by
    rw [int_shl1_lt T 7 (by omega), int_sub_pow_one 7 (by omega),
      int_to_long_small T _ (by norm_num)]
    norm_num
  have e4 : (2 ^ long_bits T - 1) &&& 127 = 127 := by
    have : (127 : Nat) = 2 ^ 7 - 1 := by norm_num
    rw [Nat.and_comm, this]
    exact Nat.and_pow_two_sub_one_of_lt_two_pow
      (lt_of_lt_of_le (by omega : 2 ^ 7 - 1 < 2 ^ 7)
        (Nat.pow_le_pow_right (by omega) (by omega)))
  have e5 : 127 &&& int_to_long T (int_not 3) = 124 := by
    rw [and_int_to_long T hT _ _ (by omega)]; decide
  rw [e1, e2, e3]
  simp only [word_and, List.replicate, List.getD_cons_zero, List.set_cons_zero, e4, e5]
  rfl

/-- C6 (scenario 192.0.2.0/29): the range parsed from `192.0.2.0/29` has start
address 192.0.2.0 and router address 192.0.2.1; successive `dhcpv4_get_ip`
calls return 192.0.2.2 first (with router 192.0.2.1 and mask 29), then
192.0.2.3, .4, .5 and .6, and then report that no address is available; and
whatever admissible sequence of allocations and releases is run on the range,
neither 192.0.2.0 nor 192.0.2.7 is ever returned. -/
theorem scenario_192_0_2_0_slash_29 (T : Target) (hT : 4 ≤ T.sizeof_long) (hw : List Nat) :
    ∃ r0 r1 r2 r3 r4 r5 : dhcpv4_iprange,
      parse_range T 5 192 0 2 0 29 = some r0 ∧
      r0.startip = ipv4 192 0 2 0 ∧ r0.routerip = ipv4 192 0 2 1 ∧
      dhcpv4_get_ip T ⟨hw, some r0⟩
        = (⟨hw, some r1⟩, some (htonl T (ipv4 192 0 2 2), htonl T (ipv4 192 0 2 1), 29)) ∧
      dhcpv4_get_ip T ⟨hw, some r1⟩
        = (⟨hw, some r2⟩, some (htonl T (ipv4 192 0 2 3), htonl T (ipv4 192 0 2 1), 29)) ∧
      dhcpv4_get_ip T ⟨hw, some r2⟩
        = (⟨hw, some r3⟩, some (htonl T (ipv4 192 0 2 4), htonl T (ipv4 192 0 2 1), 29)) ∧
      dhcpv4_get_ip T ⟨hw, some r3⟩
        = (⟨hw, some r4⟩, some (htonl T (ipv4 192 0 2 5), htonl T (ipv4 192 0 2 1), 29)) ∧
      dhcpv4_get_ip T ⟨hw, some r4⟩
        = (⟨hw, some r5⟩, some (htonl T (ipv4 192 0 2 6), htonl T (ipv4 192 0 2 1), 29)) ∧
      dhcpv4_get_ip T ⟨hw, some r5⟩ = (⟨hw, some r5⟩, none) ∧
      ∀ (ops : List pool_op) (st : pool_state) (y s k : Nat),
        pool_run T ⟨⟨hw, some r0⟩, []⟩ ops = some st →
        (dhcpv4_get_ip T st.serv).2 = some (y, s, k) →
        ntohl T y ≠ ipv4 192 0 2 0 ∧ ntohl T y ≠ ipv4 192 0 2 7 := by
  have h0 := parse_range_29 T hT
  refine ⟨_, ⟨ipv4 192 0 2 1, ipv4 192 0 2 0, 29, 0, 1, [120]⟩,
    ⟨ipv4 192 0 2 1, ipv4 192 0 2 0, 29, 0, 1, [112]⟩,
    ⟨ipv4 192 0 2 1, ipv4 192 0 2 0, 29, 0, 1, [96]⟩,
    ⟨ipv4 192 0 2 1, ipv4 192 0 2 0, 29, 0, 1, [64]⟩,
    ⟨ipv4 192 0 2 1, ipv4 192 0 2 0, 29, 0, 1, [0]⟩, h0, rfl, rfl, ?_, ?_, ?_, ?_, ?_, ?_, ?_⟩
  · exact get_ip_single T hT hw _ _ 29 124 2 (by omega) (by omega) (by decide) (by decide)
  · exact get_ip_single T hT hw _ _ 29 120 3 (by omega) (by omega) (by decide) (by decide)
  · exact get_ip_single T hT hw _ _ 29 112 4 (by omega) (by omega) (by decide) (by decide)
  · exact get_ip_single T hT hw _ _ 29 96 5 (by omega) (by omega) (by decide) (by decide)
  · exact get_ip_single T hT hw _ _ 29 64 6 (by omega) (by omega) (by decide) (by decide)
  · exact get_ip_single_none T hw _ _ 29
  · intro ops st y s k hrun hget
    obtain ⟨⟨r1, hr1, hinv, _, _⟩, hE, _, _⟩ :=
      reach_inv T hT 5 192 0 2 0 29 hw _ h0 ops st hrun
    simp only [dhcpv4_get_ip, hr1] at hget
    rcases pool_inv_get T hT _ _ hE r1 st.leased hinv with ⟨a, h2, hlt, hres, _, _⟩ | ⟨hres, _⟩
    · rw [hres] at hget
      simp only [Option.some.injEq, Prod.mk.injEq] at hget
      have e1 : (2:Nat) ^ (32 - 29) - 1 = 7 := by norm_num
      have e2 : ipv4 192 0 2 0 = 3221225984 := by decide
      have e0 : ipv4 192 0 2 7 = 3221225984 + 7 := by decide
      simp only [e1, e2] at hlt hget ⊢
      have hy : ntohl T y = 3221225984 + a := by
        rw [← hget.1, ntohl_htonl T _ (by omega)]
      rw [hy, e0]
      omega
    · rw [hres] at hget; simp at hget

/-- Witness for `scenario_192_0_2_0_slash_29`: the scenario on x86-64. -/
theorem scenario_192_0_2_0_slash_29_witness :
    ∃ r0 r1 r2 r3 r4 r5 : dhcpv4_iprange,
      parse_range linux_x86_64 5 192 0 2 0 29 = some r0 ∧
      r0.startip = ipv4 192 0 2 0 ∧ r0.routerip = ipv4 192 0 2 1 ∧
      dhcpv4_get_ip linux_x86_64 ⟨[], some r0⟩
        = (⟨[], some r1⟩, some (htonl linux_x86_64 (ipv4 192 0 2 2),
            htonl linux_x86_64 (ipv4 192 0 2 1), 29)) ∧
      dhcpv4_get_ip linux_x86_64 ⟨[], some r1⟩
        = (⟨[], some r2⟩, some (htonl linux_x86_64 (ipv4 192 0 2 3),
            htonl linux_x86_64 (ipv4 192 0 2 1), 29)) ∧
      dhcpv4_get_ip linux_x86_64 ⟨[], some r2⟩
        = (⟨[], some r3⟩, some (htonl linux_x86_64 (ipv4 192 0 2 4),
            htonl linux_x86_64 (ipv4 192 0 2 1), 29)) ∧
      dhcpv4_get_ip linux_x86_64 ⟨[], some r3⟩
        = (⟨[], some r4⟩, some (htonl linux_x86_64 (ipv4 192 0 2 5),
            htonl linux_x86_64 (ipv4 192 0 2 1), 29)) ∧
      dhcpv4_get_ip linux_x86_64 ⟨[], some r4⟩
        = (⟨[], some r5⟩, some (htonl linux_x86_64 (ipv4 192 0 2 6),
            htonl linux_x86_64 (ipv4 192 0 2 1), 29)) ∧
      dhcpv4_get_ip linux_x86_64 ⟨[], some r5⟩ = (⟨[], some r5⟩, none) ∧
      ∀ (ops : List pool_op) (st : pool_state) (y s k : Nat),
        pool_run linux_x86_64 ⟨⟨[], some r0⟩, []⟩ ops = some st →
        (dhcpv4_get_ip linux_x86_64 st.serv).2 = some (y, s, k) →
        ntohl linux_x86_64 y ≠ ipv4 192 0 2 0 ∧ ntohl linux_x86_64 y ≠ ipv4 192 0 2 7 :=
  scenario_192_0_2_0_slash_29 linux_x86_64 (by decide) []


/-! ## `parse_range`: acceptance and the bitmap it builds -/

theorem parse_range_valid (T : Target) (n f1 f2 f3 f4 m : Nat) (r : dhcpv4_iprange)
    (h : parse_range T n f1 f2 f3 f4 m = some r) :
    n = 5 ∧ f1 ≤ 255 ∧ f2 ≤ 255 ∧ f3 ≤ 255 ∧ f4 ≤ 255 ∧ 1 ≤ m ∧ m ≤ 30 := by
  unfold parse_range at h
  split at h; · simp at h
  split at h; · simp at h
  split at h; · simp at h
  split at h; · simp at h
  split at h; · simp at h
  split at h; · simp at h
  omega

theorem parse_range_invalid (T : Target) (n f1 f2 f3 f4 m : Nat)
    (h : n ≠ 5 ∨ 255 < f1 ∨ 255 < f2 ∨ 255 < f3 ∨ 255 < f4 ∨ m = 0 ∨ 30 < m) :
    parse_range T n f1 f2 f3 f4 m = none := by
  cases hp : parse_range T n f1 f2 f3 f4 m with
  | none => rfl
  | some r =>
    have := parse_range_valid T n f1 f2 f3 f4 m r hp
    omega

/-- Acceptance and scalar results of `parse_range` in terms of the five values
that `sscanf` stored for a string `f1.f2.f3.f4/m`: `parse_range` fails
exactly when some octet exceeds 255 or `m` is 0 or exceeds 30; when it
succeeds the stored start address is the address `f1.f2.f3.f4` with its low
`32 - m` bits cleared, the router address is the start address plus 1 and the
stored mask is `m`. -/
theorem parse_range_accepts (T : Target) (f1 f2 f3 f4 m : Nat) :
    (parse_range T 5 f1 f2 f3 f4 m = none ↔
      (255 < f1 ∨ 255 < f2 ∨ 255 < f3 ∨ 255 < f4 ∨ m = 0 ∨ 30 < m)) ∧
    ∀ r, parse_range T 5 f1 f2 f3 f4 m = some r →
      r.startip = ipv4 f1 f2 f3 f4 - ipv4 f1 f2 f3 f4 % 2 ^ (32 - m) ∧
      (∀ t, r.startip.testBit t = (decide (32 - m ≤ t) && (ipv4 f1 f2 f3 f4).testBit t)) ∧
      r.routerip = r.startip + 1 ∧ r.mask = m := by
  constructor
  · constructor
    · intro hnone
      by_contra hc
      obtain ⟨heq, _⟩ := parse_range_eq T f1 f2 f3 f4 m (by omega) (by omega) (by omega)
        (by omega) (by omega) (by omega)
      rw [heq] at hnone
      simp at hnone
    · intro h
      exact parse_range_invalid T 5 f1 f2 f3 f4 m (Or.inr h)
  · intro r hr
    obtain ⟨_, h1, h2, h3, h4, hm1, hm2⟩ := parse_range_valid T 5 f1 f2 f3 f4 m r hr
    obtain ⟨heq, _⟩ := parse_range_eq T f1 f2 f3 f4 m h1 h2 h3 h4 hm1 hm2
    rw [heq] at hr
    have hr2 := (Option.some.inj hr).symm
    subst hr2
    refine ⟨?_, ?_, rfl, rfl⟩
    · simp only
      have := Nat.div_add_mod (ipv4 f1 f2 f3 f4) (2 ^ (32 - m))
      omega
    · intro t
      simp only
      rw [Nat.testBit_mul_pow_two, ← Nat.shiftRight_eq_div_pow, Nat.testBit_shiftRight]
      by_cases ht : 32 - m ≤ t
      · have : 32 - m + (t - (32 - m)) = t := by omega
        simp [ht, this]
      · simp [ht]

/-- On every target with an 8-byte `long`, whatever `int` the shift by 63
yields, the bitmap built for `10.0.0.0/26` is not the word with exactly bits
2..62 set. -/
theorem parse_range_26_long64 (T : Target) (hT : T.sizeof_long = 8) (r : dhcpv4_iprange)
    (hr : parse_range T 5 10 0 0 0 26 = some r) : r.free ≠ [2 ^ 63 - 4] := by
  have hT4 : 4 ≤ T.sizeof_long := by omega
  have hW : long_bits T = 64 := by unfold long_bits; omega
  obtain ⟨heq, _⟩ := parse_range_eq T 10 0 0 0 26 (by omega) (by omega) (by omega) (by omega)
    (by omega) (by omega)
  rw [heq] at hr
  have hr2 := (Option.some.inj hr).symm
  subst hr2
  simp only [hW]
  intro hfree
  have hw := congrArg (fun l => l.getD 0 0) hfree
  simp only [getD_word_and, if_true, List.getD_cons_zero] at hw
  have e1 : (2 ^ (32 - 26) - 2) / 64 = 0 := by norm_num
  have e2 : (List.replicate (0 + 1) (2 ^ 64 - 1)).getD 0 0 = 2 ^ 64 - 1 := rfl
  rw [e1, if_pos rfl, e2] at hw
  have b62 := congrArg (fun w => w.testBit 62) hw
  have b63 := congrArg (fun w => w.testBit 63) hw
  simp only [Nat.testBit_and] at b62 b63
  rw [int_to_long_hi T hT4 _ 62 (by omega), int_to_long_hi T hT4 (int_not 3) 62 (by omega)] at b62
  rw [int_to_long_hi T hT4 _ 63 (by omega), int_to_long_hi T hT4 (int_not 3) 63 (by omega)] at b63
  have c62 : (2 ^ 63 - 4 : Nat).testBit 62 = true := by decide
  have c63 : (2 ^ 63 - 4 : Nat).testBit 63 = false := by decide
  have a62 : (2 ^ 64 - 1 : Nat).testBit 62 = true := by decide
  have a63 : (2 ^ 64 - 1 : Nat).testBit 63 = true := by decide
  rw [c62, a62, hW] at b62
  rw [c63, a63, hW] at b63
  simp only [Bool.true_and, Bool.and_eq_true, decide_eq_true_eq] at b62
  obtain ⟨⟨_, x1⟩, ⟨_, x2⟩⟩ := b62
  rw [x1, x2] at b63
  simp at b63

/-- C2 at a failing input: on x86-64 the range parsed from `10.0.0.0/26` has
the one bitmap word `0x7ffffffc`, that is 29 free addresses (indices 2..30),
where the block of 64 addresses less network, router and broadcast address has
61 (indices 2..62). -/
theorem parse_range_26_x86_64 :
    parse_range linux_x86_64 5 10 0 0 0 26
      = some ⟨167772161, 167772160, 26, 0, 1, [0x7ffffffc]⟩ ∧
    free_count linux_x86_64 ⟨167772161, 167772160, 26, 0, 1, [0x7ffffffc]⟩ = 29 ∧
    2 ^ (32 - 26) - 3 = 61 ∧
    (0x7ffffffc : Nat).testBit 31 = false ∧ (0x7ffffffc : Nat).testBit 62 = false := by
  decide


/-! ## The message parser -/

theorem buf_bytes_length (data : Nat → Nat) : ∀ n a, (buf_bytes data a n).length = n := by
  intro n
  induction n with
  | zero => intro a; rfl
  | succ n ih => intro a; simp [buf_bytes, ih]

theorem buf_bytes_drop (data : Nat → Nat) : ∀ l n a, l ≤ n →
    (buf_bytes data a n).drop l = buf_bytes data (a + l) (n - l) := by
  intro l
  induction l with
  | zero => intro n a _; rfl
  | succ l ih =>
    intro n a h
    obtain ⟨k, rfl⟩ : ∃ k, n = k + 1 := ⟨n - 1, by omega⟩
    simp only [buf_bytes, List.drop_succ_cons]
    rw [ih k (a + 1) (by omega)]
    congr 1 <;> omega

theorem buf_bytes_take (data : Nat → Nat) : ∀ l n a, l ≤ n →
    (buf_bytes data a n).take l = buf_bytes data a l := by
  intro l
  induction l with
  | zero => intro n a _; rfl
  | succ l ih =>
    intro n a h
    obtain ⟨k, rfl⟩ : ∃ k, n = k + 1 := ⟨n - 1, by omega⟩
    simp only [buf_bytes, List.take_succ_cons]
    rw [ih k (a + 1) (by omega)]

theorem buf_bytes_congr (d1 d2 : Nat → Nat) : ∀ n a,
    (∀ i, a ≤ i → i < a + n → rd d1 i = rd d2 i) → buf_bytes d1 a n = buf_bytes d2 a n := by
  intro n
  induction n with
  | zero => intro a _; rfl
  | succ n ih =>
    intro a h
    simp only [buf_bytes]
    rw [h a (le_refl _) (by omega), ih (a + 1) (fun i h1 h2 => h i (by omega) (by omega))]

theorem parse_opt82_loop_options (data : Nat → Nat) (endptr : Nat) : ∀ fuel ptr pack,
    (parse_opt82_loop data endptr fuel ptr pack).2.options = pack.options ∧
    (parse_opt82_loop data endptr fuel ptr pack).2.msg_type = pack.msg_type := by
  intro fuel
  induction fuel with
  | zero => intro ptr pack; exact ⟨rfl, rfl⟩
  | succ n ih =>
    intro ptr pack
    unfold parse_opt82_loop
    split
    · simp only
      split
      · exact ⟨rfl, rfl⟩
      · split
        · exact ih _ _
        · split
          · exact ih _ _
          · exact ih _ _
    · exact ⟨rfl, rfl⟩

theorem record_option_options (T : Target) (data : Nat → Nat) (pack : dhcpv4_packet)
    (opt : dhcpv4_option) : (record_option T data pack opt).options = pack.options := by
  unfold record_option
  split
  · rfl
  · split
    · exact (parse_opt82_loop_options data _ _ _ _).1
    · split
      · rfl
      · split <;> rfl

/-- The option loop against the decoder of the specification: both fail
together, and when the loop is left normally the options appended are, entry
by entry, those of the decoder; every appended option lies inside the received
bytes, and the loop is left at `endptr` or at a `0xFF` byte. -/
theorem parse_options_loop_spec (T : Target) (data : Nat → Nat) (endptr : Nat) :
    ∀ fuel ptr pack, ptr ≤ endptr → endptr - ptr ≤ fuel →
    (parse_options_loop T data endptr fuel ptr pack = none ∧
      decode_options_steps fuel (buf_bytes data ptr (endptr - ptr)) = none) ∨
    (∃ p pack1 l, parse_options_loop T data endptr fuel ptr pack = some (p, pack1) ∧
      pack1.options = pack.options ++ l ∧
      decode_options_steps fuel (buf_bytes data ptr (endptr - ptr))
        = some (l.map (option_entry data)) ∧
      (∀ o, o ∈ l → ptr + 2 ≤ o.data ∧ o.data + o.len ≤ endptr ∧
        o.type = rd data (o.data - 2) ∧ o.len = rd data (o.data - 1)) ∧
      ptr ≤ p ∧ p ≤ endptr ∧ (p < endptr → rd data p = 0xff)) := by
  intro fuel
  induction fuel with
  | zero =>
    intro ptr pack h1 h2
    have : endptr - ptr = 0 := by omega
    refine Or.inr ⟨ptr, pack, [], rfl, by simp, ?_, by simp, le_refl _, h1, fun h => by omega⟩
    rw [this]; rfl
  | succ n ih =>
    intro ptr pack h1 h2
    unfold parse_options_loop
    by_cases hlt : ptr < endptr
    · obtain ⟨k, hk⟩ : ∃ k, endptr - ptr = k + 1 := ⟨endptr - ptr - 1, by omega⟩
      rw [if_pos hlt, hk]
      simp only [buf_bytes, decode_options_steps]
      by_cases h0 : rd data ptr = 0
      · rw [if_pos h0, if_pos h0]
        have hk2 : endptr - (ptr + 1) = k := by omega
        rcases ih (ptr + 1) pack (by omega) (by omega) with ⟨a, b⟩ | ⟨p, pack1, l, a, b, c, d, e, f, g⟩
        · rw [hk2] at b
          exact Or.inl ⟨a, b⟩
        · rw [hk2] at c
          refine Or.inr ⟨p, pack1, l, a, b, c, ?_, by omega, f, g⟩
          intro o ho
          obtain ⟨d1, d2, d3, d4⟩ := d o ho
          exact ⟨by omega, d2, d3, d4⟩
      · rw [if_neg h0, if_neg h0]
        by_cases hff : rd data ptr = 0xff
        · rw [if_pos hff, if_pos hff]
          exact Or.inr ⟨ptr, pack, [], rfl, by simp, rfl, by simp, le_refl _, h1, fun _ => hff⟩
        · rw [if_neg hff, if_neg hff]
          cases k with
          | zero =>
            simp only [buf_bytes]
            have : ptr + 2 + rd data (ptr + 1) > endptr := by omega
            rw [if_pos this]
            exact Or.inl ⟨rfl, trivial⟩
          | succ k =>
            simp only [buf_bytes, buf_bytes_length]
            by_cases hover : ptr + 2 + rd data (ptr + 1) > endptr
            · rw [if_pos hover, if_pos (by omega)]
              exact Or.inl ⟨rfl, rfl⟩
            · rw [if_neg hover, if_neg (by omega)]
              have hle : rd data (ptr + 1) ≤ k := by omega
              rw [buf_bytes_drop data _ k _ hle, buf_bytes_take data _ k _ hle]
              have ha : ptr + 1 + 1 + rd data (ptr + 1) = ptr + 2 + rd data (ptr + 1) := by omega
              have hk2 : k - rd data (ptr + 1) = endptr - (ptr + 2 + rd data (ptr + 1)) := by omega
              rw [ha, hk2]
              rcases ih (ptr + 2 + rd data (ptr + 1))
                (record_option T data { pack with options := pack.options ++
                  [⟨rd data ptr, rd data (ptr + 1), ptr + 2⟩] }
                  ⟨rd data ptr, rd data (ptr + 1), ptr + 2⟩) (by omega) (by omega) with
                ⟨a, b⟩ | ⟨p, pack1, l, a, b, c, d, e, f, g⟩
              · rw [b]
                exact Or.inl ⟨a, rfl⟩
              · rw [c]
                refine Or.inr ⟨p, pack1, ⟨rd data ptr, rd data (ptr + 1), ptr + 2⟩ :: l, a, ?_, ?_,
                  ?_, by omega, f, g⟩
                · rw [b, record_option_options]; simp
                · simp [option_entry]
                · intro o ho
                  rcases List.mem_cons.mp ho with e1 | e1
                  · subst e1
                    exact ⟨le_refl _, by simp only; omega, by simp, by simp⟩
                  · obtain ⟨d1, d2, d3, d4⟩ := d o e1
                    exact ⟨by omega, d2, d3, d4⟩
    · have : endptr - ptr = 0 := by omega
      rw [if_neg hlt, this]
      exact Or.inr ⟨ptr, pack, [], rfl, by simp, rfl, by simp, le_refl _, h1, fun h => by omega⟩


theorem parse_options_loop_ge (T : Target) (data : Nat → Nat) (endptr : Nat) :
    ∀ fuel ptr pack p q, parse_options_loop T data endptr fuel ptr pack = some (p, q) →
      ptr ≤ p := by
  intro fuel
  induction fuel with
  | zero =>
    intro ptr pack p q h
    simp only [parse_options_loop, Option.some.injEq, Prod.mk.injEq] at h
    omega
  | succ n ih =>
    intro ptr pack p q h
    unfold parse_options_loop at h
    split at h
    · split at h
      · have := ih _ _ _ _ h; omega
      · split at h
        · simp only [Option.some.injEq, Prod.mk.injEq] at h; omega
        · simp only at h
          split at h
          · simp at h
          · have := ih _ _ _ _ h; omega
    · simp only [Option.some.injEq, Prod.mk.injEq] at h; omega

/-- The option loop run on two buffers that agree from `ptr` up to the byte at
which the first run stops before the end (a `0xFF` byte): the second run stops
at the same byte with the same option list, whatever follows that byte and
whatever the two received lengths are. -/
theorem parse_options_loop_agree (T : Target) (d1 d2 : Nat → Nat) (e1 e2 : Nat) :
    ∀ fuel1 fuel2 ptr pack1 pack2 p q1,
      e1 - ptr ≤ fuel1 → e2 - ptr ≤ fuel2 →
      parse_options_loop T d1 e1 fuel1 ptr pack1 = some (p, q1) → p < e1 → p < e2 →
      (∀ i, ptr ≤ i → i ≤ p → rd d2 i = rd d1 i) →
      pack2.options = pack1.options →
      ∃ q2, parse_options_loop T d2 e2 fuel2 ptr pack2 = some (p, q2) ∧
        q2.options = q1.options := by
  intro fuel1
  induction fuel1 with
  | zero =>
    intro fuel2 ptr pack1 pack2 p q1 hf1 hf2 h hp1 hp2 hag hopt
    simp only [parse_options_loop, Option.some.injEq, Prod.mk.injEq] at h
    omega
  | succ n ih =>
    intro fuel2 ptr pack1 pack2 p q1 hf1 hf2 h hp1 hp2 hag hopt
    have hge := parse_options_loop_ge T d1 e1 _ _ _ _ _ h
    obtain ⟨m, rfl⟩ : ∃ m, fuel2 = m + 1 := ⟨fuel2 - 1, by omega⟩
    have hb0 : rd d2 ptr = rd d1 ptr := hag ptr (le_refl _) hge
    unfold parse_options_loop at h ⊢
    rw [if_pos (by omega), hb0]
    split at h
    · split at h
      · rename_i h0
        rw [if_pos h0]
        exact ih m (ptr + 1) pack1 pack2 p q1 (by omega) (by omega) h hp1 hp2
          (fun i h1 h2 => hag i (by omega) h2) hopt
      · rename_i h0
        rw [if_neg h0]
        split at h
        · rename_i hff
          rw [if_pos hff]
          simp only [Option.some.injEq, Prod.mk.injEq] at h
          obtain ⟨h1, h2⟩ := h
          subst h1; subst h2
          exact ⟨pack2, rfl, hopt⟩
        · rename_i hff
          rw [if_neg hff]
          simp only at h ⊢
          split at h
          · simp at h
          · rename_i hover
            have hge2 := parse_options_loop_ge T d1 e1 _ _ _ _ _ h
            have hb1 : rd d2 (ptr + 1) = rd d1 (ptr + 1) := hag (ptr + 1) (by omega) (by omega)
            rw [hb1, if_neg (by omega)]
            exact ih m _ _ _ p q1 (by omega) (by omega) h hp1 hp2
              (fun i h1 h2 => hag i (by omega) h2)
              (by rw [record_option_options, record_option_options]; simp [hopt])
    · simp only [Option.some.injEq, Prod.mk.injEq] at h
      omega

/-- What a successful `dhcpv4_parse_packet` went through. -/
theorem dhcpv4_parse_packet_some (T : Target) (chk : dhcpv4_packet → Bool)
    (data : Nat → Nat) (len : Nat) (pack : dhcpv4_packet)
    (h : dhcpv4_parse_packet T chk data len = some pack) :
    sizeof_dhcpv4_hdr ≤ len ∧ rd data hdr_op = DHCP_OP_REQUEST ∧ rd data hdr_htype = 1 ∧
    rd data hdr_hlen = 6 ∧
    (List.range 4).map (fun i => rd data (hdr_magic + i)) = DHCP_MAGIC ∧
    (∃ p, parse_options_loop T data len (len - sizeof_dhcpv4_hdr) sizeof_dhcpv4_hdr
        dhcpv4_packet_alloc = some (p, pack)) ∧
    1 ≤ pack.msg_type ∧ pack.msg_type ≤ 8 ∧ chk pack = false := by
  unfold dhcpv4_parse_packet at h
  split at h; · simp at h
  split at h; · simp at h
  split at h; · simp at h
  split at h; · simp at h
  split at h; · simp at h
  rename_i h1 h2 h3 h4 h5
  split at h
  · simp at h
  · rename_i p pk hloop
    split at h; · simp at h
    split at h; · simp at h
    rename_i h6 h7
    simp only [Option.some.injEq] at h
    subst h
    refine ⟨by omega, by simpa using h2, by simpa using h3, by simpa using h4,
      by simpa using h5, ⟨p, hloop⟩, by omega, by omega, by simpa using h7⟩


/-- C8 (fixed-header checks): `dhcpv4_parse_packet` fails when the received
length is below the 240 bytes of the fixed header (magic cookie included), or
the op byte is not 1 (request), or htype is not 1, or hlen is not 6, or the
four magic-cookie bytes differ from 63 82 53 63 (hex). So no packet violating
one of these is accepted. -/
theorem header_checks (T : Target) (chk : dhcpv4_packet → Bool) (data : Nat → Nat) (len : Nat)
    (h : len < 240 ∨ rd data 0 ≠ 1 ∨ rd data 1 ≠ 1 ∨ rd data 2 ≠ 6 ∨
      rd data 236 ≠ 0x63 ∨ rd data 237 ≠ 0x82 ∨ rd data 238 ≠ 0x53 ∨ rd data 239 ≠ 0x63) :
    dhcpv4_parse_packet T chk data len = none := by
  cases hp : dhcpv4_parse_packet T chk data len with
  | none => rfl
  | some pack =>
    obtain ⟨h1, h2, h3, h4, h5, _⟩ := dhcpv4_parse_packet_some T chk data len pack hp
    simp only [sizeof_dhcpv4_hdr, hdr_op, hdr_htype, hdr_hlen, hdr_magic, DHCP_OP_REQUEST,
      DHCP_MAGIC, List.range, List.range.loop, List.map, List.cons.injEq, and_true] at h1 h2 h3 h4 h5
    obtain ⟨m0, m1, m2, m3⟩ := h5
    simp only [Nat.add_zero, Nat.reduceAdd] at m0 m1 m2 m3
    omega

/-- Witness for `header_checks`: a request whose last magic-cookie byte is 0x64
is rejected, although with the byte 0x63 in its place the same message is
accepted. -/
theorem header_checks_witness :
    rd (buf_of ([1, 1, 6, 0] ++ List.replicate 232 0 ++ [0x63, 0x82, 0x53, 0x64]
      ++ [53, 1, 1, 255])) 239 ≠ 0x63 ∧
    dhcpv4_parse_packet linux_x86_64 (fun _ => false)
      (buf_of ([1, 1, 6, 0] ++ List.replicate 232 0 ++ [0x63, 0x82, 0x53, 0x64]
        ++ [53, 1, 1, 255])) 244 = none ∧
    dhcpv4_parse_packet linux_x86_64 (fun _ => false)
      (buf_of (sample_header ++ [53, 1, 1, 255])) 244
      = some ⟨[⟨53, 1, 242⟩], none, none, 0, 0, 1⟩ :=
  ⟨by decide,
   header_checks linux_x86_64 (fun _ => false) _ 244
     (Or.inr (Or.inr (Or.inr (Or.inr (Or.inr (Or.inr (Or.inr (by decide)))))))),
   by decide⟩

/-- C9 (truncated options): for a buffer of at least 240 received bytes, the
option loop of `dhcpv4_parse_packet` fails exactly when the decoder of the
specification reports truncation, that is when, before any `0xFF` terminator,
the length byte or the declared data of some option would lie beyond the
received length; in that case `dhcpv4_parse_packet` fails; and whenever
`dhcpv4_parse_packet` succeeds, every option of the resulting list has its type
byte, its length byte and its whole data span inside the received bytes, after
the fixed header. -/
theorem truncated_options_rejected (T : Target) (chk : dhcpv4_packet → Bool)
    (data : Nat → Nat) (len : Nat) (hlen : sizeof_dhcpv4_hdr ≤ len) :
    (decode_options (buf_bytes data sizeof_dhcpv4_hdr (len - sizeof_dhcpv4_hdr)) = none ↔
      parse_options_loop T data len (len - sizeof_dhcpv4_hdr) sizeof_dhcpv4_hdr
        dhcpv4_packet_alloc = none) ∧
    (decode_options (buf_bytes data sizeof_dhcpv4_hdr (len - sizeof_dhcpv4_hdr)) = none →
      dhcpv4_parse_packet T chk data len = none) ∧
    (∀ pack, dhcpv4_parse_packet T chk data len = some pack →
      ∀ o, o ∈ pack.options →
        sizeof_dhcpv4_hdr + 2 ≤ o.data ∧ o.data + o.len ≤ len ∧
        o.type = rd data (o.data - 2) ∧ o.len = rd data (o.data - 1)) := by
  have hspec := parse_options_loop_spec T data len (len - sizeof_dhcpv4_hdr) sizeof_dhcpv4_hdr
    dhcpv4_packet_alloc hlen (le_refl _)
  have hdec : decode_options (buf_bytes data sizeof_dhcpv4_hdr (len - sizeof_dhcpv4_hdr))
      = decode_options_steps (len - sizeof_dhcpv4_hdr)
          (buf_bytes data sizeof_dhcpv4_hdr (len - sizeof_dhcpv4_hdr)) := by
    unfold decode_options; rw [buf_bytes_length]
  rw [hdec]
  have hiff : decode_options_steps (len - sizeof_dhcpv4_hdr)
        (buf_bytes data sizeof_dhcpv4_hdr (len - sizeof_dhcpv4_hdr)) = none ↔
      parse_options_loop T data len (len - sizeof_dhcpv4_hdr) sizeof_dhcpv4_hdr
        dhcpv4_packet_alloc = none := by
    rcases hspec with ⟨a, b⟩ | ⟨p, pack1, l, a, _, c, _⟩
    · simp [a, b]
    · simp [a, c]
  refine ⟨hiff, ?_, ?_⟩
  · intro hnone
    have hl := hiff.mp hnone
    cases hp : dhcpv4_parse_packet T chk data len with
    | none => rfl
    | some pack =>
      obtain ⟨_, _, _, _, _, ⟨p, hloop⟩, _⟩ := dhcpv4_parse_packet_some T chk data len pack hp
      rw [hl] at hloop; simp at hloop
  · intro pack hp o ho
    obtain ⟨_, _, _, _, _, ⟨p, hloop⟩, _⟩ := dhcpv4_parse_packet_some T chk data len pack hp
    rcases hspec with ⟨a, _⟩ | ⟨p1, pack1, l, a, b, _, d, _⟩
    · rw [a] at hloop; simp at hloop
    · rw [a] at hloop
      simp only [Option.some.injEq, Prod.mk.injEq] at hloop
      obtain ⟨_, e⟩ := hloop
      subst e
      have : pack1.options = l := by rw [b]; rfl
      rw [this] at ho
      exact d o ho

/-- Witness for `truncated_options_rejected`: a request with options 53 and 50
of which only 249 bytes were received, so that the data of option 50 is cut
short, is rejected; received whole (253 bytes) it is accepted. -/
theorem truncated_options_rejected_witness :
    sizeof_dhcpv4_hdr ≤ 249 ∧
    decode_options (buf_bytes (buf_of (sample_header ++ [53, 1, 1, 0, 50, 4, 10, 0, 0, 5, 255]))
      sizeof_dhcpv4_hdr (249 - sizeof_dhcpv4_hdr)) = none ∧
    dhcpv4_parse_packet linux_x86_64 (fun _ => false)
      (buf_of (sample_header ++ [53, 1, 1, 0, 50, 4, 10, 0, 0, 5, 255])) 249 = none ∧
    dhcpv4_parse_packet linux_x86_64 (fun _ => false)
      (buf_of (sample_header ++ [53, 1, 1, 0, 50, 4, 10, 0, 0, 5, 255])) 251
      = some ⟨[⟨53, 1, 242⟩, ⟨50, 4, 246⟩], none, none, 83886090, 0, 1⟩ :=
  ⟨by decide, by decide,
   (truncated_options_rejected linux_x86_64 (fun _ => false)
     (buf_of (sample_header ++ [53, 1, 1, 0, 50, 4, 10, 0, 0, 5, 255])) 249 (by decide)).2.1
     (by decide),
   by decide⟩


/-- The option loop over `k` pad bytes followed by `0xFF` stops at the `0xFF`
byte and leaves the packet as it was. -/
theorem parse_options_loop_pads (T : Target) (data : Nat → Nat) (endptr : Nat) :
    ∀ k fuel ptr pack, endptr - ptr ≤ fuel → ptr + k < endptr →
      (∀ i, i < k → rd data (ptr + i) = 0) → rd data (ptr + k) = 0xff →
      parse_options_loop T data endptr fuel ptr pack = some (ptr + k, pack) := by
  intro k
  induction k with
  | zero =>
    intro fuel ptr pack hf hlt _ hff
    obtain ⟨m, rfl⟩ : ∃ m, fuel = m + 1 := ⟨fuel - 1, by omega⟩
    simp only [Nat.add_zero] at hff hlt
    unfold parse_options_loop
    rw [if_pos hlt, if_neg (by omega), if_pos hff]
    rfl
  | succ k ih =>
    intro fuel ptr pack hf hlt hz hff
    obtain ⟨m, rfl⟩ : ∃ m, fuel = m + 1 := ⟨fuel - 1, by omega⟩
    unfold parse_options_loop
    have h0 : rd data ptr = 0 := by simpa using hz 0 (by omega)
    rw [if_pos (by omega), if_pos h0]
    have := ih m (ptr + 1) pack (by omega) (by omega)
      (fun i hi => by have := hz (i + 1) (by omega); rwa [show ptr + 1 + i = ptr + (i + 1) by omega])
      (by rwa [show ptr + 1 + k = ptr + (k + 1) by omega])
    rw [this]
    congr 2
    omega

/-- C10 (option list in wire order): for a buffer of at least 240 received
bytes whose option area decodes without truncation, the option list built by
the option loop of `dhcpv4_parse_packet` is exactly the sequence of (type,
length, data) entries of the option bytes in wire order as the decoder of the
specification yields it (a zero byte at an entry boundary skipped as a pad,
decoding ended by the first `0xFF` at an entry boundary); the loop ends at the
end of the received bytes or at that `0xFF` byte, and in the latter case the
bytes after the terminator do not affect the option list: any buffer that
agrees up to the terminator gives the same list, whatever its length. The same
list is the one of a packet accepted by `dhcpv4_parse_packet`. In particular an
option area of zero bytes followed by `0xFF` decodes to the empty option list
without a decoding error. And the list is built: whenever the option area
decodes to a sequence of entries, the loop ends normally with an option list
that has exactly these entries, each option holding the type byte, the length
byte and the offset of the data of its entry in the buffer. -/
theorem option_list_wire_order (T : Target) (chk : dhcpv4_packet → Bool)
    (data : Nat → Nat) (len : Nat) (hlen : sizeof_dhcpv4_hdr ≤ len) :
    (∀ p pack, parse_options_loop T data len (len - sizeof_dhcpv4_hdr) sizeof_dhcpv4_hdr
        dhcpv4_packet_alloc = some (p, pack) →
      decode_options (buf_bytes data sizeof_dhcpv4_hdr (len - sizeof_dhcpv4_hdr))
        = some (pack.options.map (option_entry data)) ∧
      (p = len ∨ (p < len ∧ rd data p = 0xff)) ∧
      ∀ (data2 : Nat → Nat) (len2 : Nat), p < len → p < len2 →
        (∀ i, sizeof_dhcpv4_hdr ≤ i → i ≤ p → rd data2 i = rd data i) →
        ∃ pack2, parse_options_loop T data2 len2 (len2 - sizeof_dhcpv4_hdr) sizeof_dhcpv4_hdr
            dhcpv4_packet_alloc = some (p, pack2) ∧ pack2.options = pack.options) ∧
    (∀ pack, dhcpv4_parse_packet T chk data len = some pack →
      decode_options (buf_bytes data sizeof_dhcpv4_hdr (len - sizeof_dhcpv4_hdr))
        = some (pack.options.map (option_entry data))) ∧
    (∀ k, (∀ i, i < k → rd data (sizeof_dhcpv4_hdr + i) = 0) →
      rd data (sizeof_dhcpv4_hdr + k) = 0xff → sizeof_dhcpv4_hdr + k < len →
      parse_options_loop T data len (len - sizeof_dhcpv4_hdr) sizeof_dhcpv4_hdr
          dhcpv4_packet_alloc = some (sizeof_dhcpv4_hdr + k, dhcpv4_packet_alloc) ∧
      decode_options (buf_bytes data sizeof_dhcpv4_hdr (len - sizeof_dhcpv4_hdr)) = some []) ∧
    (∀ es, decode_options (buf_bytes data sizeof_dhcpv4_hdr (len - sizeof_dhcpv4_hdr)) = some es →
      ∃ p pack, parse_options_loop T data len (len - sizeof_dhcpv4_hdr) sizeof_dhcpv4_hdr
          dhcpv4_packet_alloc = some (p, pack) ∧
        pack.options.map (option_entry data) = es ∧
        ∀ o, o ∈ pack.options →
          sizeof_dhcpv4_hdr + 2 ≤ o.data ∧ o.data + o.len ≤ len ∧
          o.type = rd data (o.data - 2) ∧ o.len = rd data (o.data - 1)) := by
  have hspec := parse_options_loop_spec T data len (len - sizeof_dhcpv4_hdr) sizeof_dhcpv4_hdr
    dhcpv4_packet_alloc hlen (le_refl _)
  have hdec : decode_options (buf_bytes data sizeof_dhcpv4_hdr (len - sizeof_dhcpv4_hdr))
      = decode_options_steps (len - sizeof_dhcpv4_hdr)
          (buf_bytes data sizeof_dhcpv4_hdr (len - sizeof_dhcpv4_hdr)) := by
    unfold decode_options; rw [buf_bytes_length]
  have hfirst : ∀ p pack, parse_options_loop T data len (len - sizeof_dhcpv4_hdr)
        sizeof_dhcpv4_hdr dhcpv4_packet_alloc = some (p, pack) →
      decode_options (buf_bytes data sizeof_dhcpv4_hdr (len - sizeof_dhcpv4_hdr))
        = some (pack.options.map (option_entry data)) ∧
      (p = len ∨ (p < len ∧ rd data p = 0xff)) := by
    intro p pack hloop
    rcases hspec with ⟨a, _⟩ | ⟨p1, pack1, l, a, b, c, _, _, f, g⟩
    · rw [a] at hloop; simp at hloop
    · rw [a] at hloop
      simp only [Option.some.injEq, Prod.mk.injEq] at hloop
      obtain ⟨e1, e2⟩ := hloop
      subst e1; subst e2
      have : pack1.options = l := by rw [b]; rfl
      rw [hdec, c, this]
      refine ⟨rfl, ?_⟩
      by_cases hp : p1 < len
      · exact Or.inr ⟨hp, g hp⟩
      · exact Or.inl (by omega)
  refine ⟨?_, ?_, ?_, ?_⟩
  · intro p pack hloop
    obtain ⟨h1, h2⟩ := hfirst p pack hloop
    refine ⟨h1, h2, ?_⟩
    intro data2 len2 hp1 hp2 hag
    exact parse_options_loop_agree T data data2 len len2 _ _ _ _ _ p pack (le_refl _) (le_refl _)
      hloop hp1 hp2 hag rfl
  · intro pack hp
    obtain ⟨_, _, _, _, _, ⟨p, hloop⟩, _⟩ := dhcpv4_parse_packet_some T chk data len pack hp
    exact (hfirst p pack hloop).1
  · intro k hz hff hlt
    have hloop := parse_options_loop_pads T data len k (len - sizeof_dhcpv4_hdr)
      sizeof_dhcpv4_hdr dhcpv4_packet_alloc (le_refl _) hlt hz hff
    exact ⟨hloop, (hfirst _ _ hloop).1⟩
  · intro es hes
    rcases hspec with ⟨_, b⟩ | ⟨p, pack1, l, a, b, c, d, _⟩
    · rw [hdec, b] at hes
      simp at hes
    · have hl : pack1.options = l := by rw [b]; rfl
      rw [hdec, c] at hes
      refine ⟨p, pack1, a, ?_, ?_⟩
      · rw [hl]
        exact Option.some.inj hes
      · intro o ho
        rw [hl] at ho
        exact d o ho

set_option maxRecDepth 100000 in
/-- Witness for `option_list_wire_order`: 253 received bytes whose option area
is option 53, a pad, option 50, `0xFF` and two more bytes; the list built has
the two options in wire order. An option area of three pad bytes and `0xFF`
gives the empty list. -/
theorem option_list_wire_order_witness :
    sizeof_dhcpv4_hdr ≤ 253 ∧
    decode_options (buf_bytes (buf_of (sample_header ++ [53, 1, 1, 0, 50, 4, 10, 0, 0, 5, 255, 9, 9]))
      sizeof_dhcpv4_hdr (253 - sizeof_dhcpv4_hdr))
      = some [(53, 1, [1]), (50, 4, [10, 0, 0, 5])] ∧
    parse_options_loop linux_x86_64
        (buf_of (sample_header ++ [53, 1, 1, 0, 50, 4, 10, 0, 0, 5, 255, 9, 9])) 253
        (253 - sizeof_dhcpv4_hdr) sizeof_dhcpv4_hdr dhcpv4_packet_alloc
      = some (250, ⟨[⟨53, 1, 242⟩, ⟨50, 4, 246⟩], none, none, 83886090, 0, 1⟩) ∧
    (∃ p pack, parse_options_loop linux_x86_64
        (buf_of (sample_header ++ [53, 1, 1, 0, 50, 4, 10, 0, 0, 5, 255, 9, 9])) 253
        (253 - sizeof_dhcpv4_hdr) sizeof_dhcpv4_hdr dhcpv4_packet_alloc = some (p, pack) ∧
      pack.options.map
          (option_entry (buf_of (sample_header ++ [53, 1, 1, 0, 50, 4, 10, 0, 0, 5, 255, 9, 9])))
        = [(53, 1, [1]), (50, 4, [10, 0, 0, 5])] ∧
      ∀ o, o ∈ pack.options →
        sizeof_dhcpv4_hdr + 2 ≤ o.data ∧ o.data + o.len ≤ 253 ∧
        o.type = rd (buf_of (sample_header ++ [53, 1, 1, 0, 50, 4, 10, 0, 0, 5, 255, 9, 9]))
          (o.data - 2) ∧
        o.len = rd (buf_of (sample_header ++ [53, 1, 1, 0, 50, 4, 10, 0, 0, 5, 255, 9, 9]))
          (o.data - 1)) ∧
    parse_options_loop linux_x86_64 (buf_of (sample_header ++ [0, 0, 0, 255, 53, 1])) 246
        (246 - sizeof_dhcpv4_hdr) sizeof_dhcpv4_hdr dhcpv4_packet_alloc
      = some (sizeof_dhcpv4_hdr + 3, dhcpv4_packet_alloc) ∧
    decode_options (buf_bytes (buf_of (sample_header ++ [0, 0, 0, 255, 53, 1]))
      sizeof_dhcpv4_hdr (246 - sizeof_dhcpv4_hdr)) = some [] :=
  ⟨by decide, by decide, by decide,
   (option_list_wire_order linux_x86_64 (fun _ => false)
     (buf_of (sample_header ++ [53, 1, 1, 0, 50, 4, 10, 0, 0, 5, 255, 9, 9])) 253
     (by decide)).2.2.2 _ (by decide),
   (option_list_wire_order linux_x86_64 (fun _ => false)
     (buf_of (sample_header ++ [0, 0, 0, 255, 53, 1])) 246 (by decide)).2.2.1 3
     (by decide) (by decide) (by decide)⟩

/-! ## `parse_range`: the bitmap where the shift count stays below 32 -/

/-- Number of set bits of a word whose bits below `n` are those of the
interval `[a, b)`. -/
theorem bit_count_interval (w a b : Nat) : ∀ n,
    (∀ j, j < n → w.testBit j = decide (a ≤ j ∧ j < b)) → bit_count w n = min b n - min a n := by
  intro n
  induction n with
  | zero => intro _; simp [bit_count]
  | succ n ih =>
    intro h
    unfold bit_count
    rw [ih (fun j hj => h j (by omega)), h n (by omega)]
    by_cases hc : a ≤ n ∧ n < b
    · simp only [hc, and_self, decide_True, if_true]; omega
    · simp only [hc, decide_False, Bool.false_eq_true, if_false]; omega

/-- Number of set bits of a bitmap whose bit with flat index `n` is set exactly
when `lo ≤ n < hi`; `o` is the index of the first word of the list. -/
theorem sum_bit_count_interval (W lo hi : Nat) : ∀ (ws : List Nat) (o : Nat),
    (∀ i j, i < ws.length → j < W →
      (ws.getD i 0).testBit j = decide (lo ≤ (o + i) * W + j ∧ (o + i) * W + j < hi)) →
    (ws.map (fun w => bit_count w W)).sum
      = min hi ((o + ws.length) * W) - min (max lo (o * W)) ((o + ws.length) * W) := by
  intro ws
  induction ws with
  | nil => intro o _; simp
  | cons w rest ih =>
    intro o h
    have hw : bit_count w W = min (hi - o * W) W - min (lo - o * W) W := by
      apply bit_count_interval
      intro j hj
      have := h 0 j (by simp) hj
      simp only [List.getD_cons_zero, Nat.add_zero] at this
      rw [this]
      exact decide_eq_decide.mpr (by omega)
    have hrest := ih (o + 1) (fun i j hi hj => by
      have := h (i + 1) j (by simp; omega) hj
      simp only [List.getD_cons_succ] at this
      rw [this]
      exact decide_eq_decide.mpr (by rw [show o + (i + 1) = o + 1 + i by omega]))
    simp only [List.map_cons, List.sum_cons, List.length_cons, hw, hrest]
    have e1 : (o + 1 + rest.length) * W = (o + 1) * W + rest.length * W := by ring
    have e2 : (o + (rest.length + 1)) * W = (o + 1) * W + rest.length * W := by ring
    have e3 : (o + 1) * W = o * W + W := by ring
    rw [e1, e2, e3]
    generalize o * W = a
    generalize rest.length * W = b
    omega

/-- Bits of the word `~3` below the width of `long`: all but bits 0 and 1. -/
theorem low_mask_bits (T : Target) (hT : 4 ≤ T.sizeof_long) (j : Nat) (hj : j < long_bits T) :
    (int_to_long T (int_not 3)).testBit j = decide (2 ≤ j) := by
  by_cases h32 : j < 32
  · rw [int_to_long_lo T hT _ j h32, Nat.mod_eq_of_lt (int_not_lt _), testBit_int_not]
    have : (3 : Nat) = 2 ^ 2 - 1 := by norm_num
    rw [this, Nat.testBit_two_pow_sub_one]
    by_cases h2 : j < 2
    · simp [h32, h2]
    · simp [h32, h2]; omega
  · rw [int_to_long_hi T hT _ j (by omega)]
    have : (int_not 3 % 2 ^ 32).testBit 31 = true := by decide
    rw [this]
    simp [hj]; omega

/-- Bits of the word `(1 << s) - 1` when the count `s` is below 32. -/
theorem top_mask_bits (T : Target) (s j : Nat) (hs : s < 32) :
    (int_to_long T (int_sub (int_shl1 T s) 1)).testBit j = decide (j < s) := by
  have h2 : (2:Nat) ^ s - 1 < 2 ^ 31 := by
    have : (2:Nat) ^ s ≤ 2 ^ 31 := Nat.pow_le_pow_right (by omega) (by omega)
    have : 0 < (2:Nat) ^ s := by positivity
    omega
  rw [int_shl1_lt T s hs, int_sub_pow_one s hs, int_to_long_small T _ h2,
    Nat.testBit_two_pow_sub_one]

/-- Where the shift count of the last-word mask stays below 32, the bitmap that
`parse_range` builds is the one the specification describes: the words cover
the block, bit `n` is set exactly for the indices `2 ≤ n < 2 ^ (32 - m) - 1`
(every address of the block but network, router and broadcast address), and
the number of free addresses is `2 ^ (32 - m) - 3`. -/
theorem parse_range_bitmap_exact (T : Target) (hT : 4 ≤ T.sizeof_long) (f1 f2 f3 f4 m : Nat)
    (r : dhcpv4_iprange) (hr : parse_range T 5 f1 f2 f3 f4 m = some r)
    (hs : (2 ^ (32 - m) - 2) % long_bits T + 1 < 32) :
    r.free.length = r.len ∧ 2 ^ (32 - m) ≤ r.len * long_bits T ∧
    (∀ i j, i < r.len → j < long_bits T →
      (r.free.getD i 0).testBit j
        = decide (2 ≤ i * long_bits T + j ∧ i * long_bits T + j < 2 ^ (32 - m) - 1)) ∧
    free_count T r = 2 ^ (32 - m) - 3 := by
  obtain ⟨_, h1, h2, h3, h4, hm1, hm2⟩ := parse_range_valid T 5 f1 f2 f3 f4 m r hr
  obtain ⟨heq, hblk, hp4, hp31⟩ := parse_range_eq T f1 f2 f3 f4 m h1 h2 h3 h4 hm1 hm2
  rw [heq] at hr
  have hr2 := (Option.some.inj hr).symm
  have hW := long_bits_ge T hT
  subst hr2
  simp only
  generalize (2:Nat) ^ (32 - m) = p at *
  have hdm : (p - 2) / long_bits T * long_bits T + (p - 2) % long_bits T = p - 2 := by
    rw [Nat.mul_comm]; exact Nat.div_add_mod _ _
  have hml : (p - 2) % long_bits T < long_bits T := Nat.mod_lt _ (by omega)
  generalize (p - 2) / long_bits T = q at *
  generalize (p - 2) % long_bits T = l at *
  have hlen : (word_and (word_and (List.replicate (q + 1) (2 ^ long_bits T - 1)) q
      (int_to_long T (int_sub (int_shl1 T (l + 1)) 1))) 0 (int_to_long T (int_not 3))).length
      = q + 1 := by
    simp [length_word_and]
  have hcover : p ≤ (q + 1) * long_bits T := by
    rw [Nat.add_mul]; omega
  have hbits : ∀ i j, i < q + 1 → j < long_bits T →
      ((word_and (word_and (List.replicate (q + 1) (2 ^ long_bits T - 1)) q
        (int_to_long T (int_sub (int_shl1 T (l + 1)) 1))) 0
        (int_to_long T (int_not 3))).getD i 0).testBit j
        = decide (2 ≤ i * long_bits T + j ∧ i * long_bits T + j < p - 1) := by
    intro i j hi hj
    have hA : (2 ^ long_bits T - 1).testBit j = true := by
      rw [Nat.testBit_two_pow_sub_one]; simpa using hj
    have hR1 : ∀ t, t < q + 1 →
        (word_and (List.replicate (q + 1) (2 ^ long_bits T - 1)) q
          (int_to_long T (int_sub (int_shl1 T (l + 1)) 1))).getD t 0
        = if t = q then (2 ^ long_bits T - 1) &&& int_to_long T (int_sub (int_shl1 T (l + 1)) 1)
          else 2 ^ long_bits T - 1 := by
      intro t ht
      rw [getD_word_and]
      by_cases e : t = q
      · subst e
        rw [if_pos rfl, if_pos rfl, getD_replicate_zero, if_pos ht]
      · rw [if_neg e, if_neg e, getD_replicate_zero, if_pos ht]
    rw [getD_word_and]
    by_cases hi0 : i = 0 <;> by_cases hiq : i = q
    · subst hi0; subst hiq
      rw [if_pos rfl, hR1 0 (by omega), if_pos rfl, Nat.testBit_and, Nat.testBit_and, hA,
        top_mask_bits T _ j hs, low_mask_bits T hT j hj, Bool.true_and, ← Bool.decide_and]
      exact decide_eq_decide.mpr (by omega)
    · subst hi0
      have : 1 ≤ q := by omega
      have : 1 * long_bits T ≤ q * long_bits T := Nat.mul_le_mul_right _ this
      rw [if_pos rfl, hR1 0 (by omega), if_neg hiq, Nat.testBit_and, hA,
        low_mask_bits T hT j hj, Bool.true_and]
      exact decide_eq_decide.mpr (by omega)
    · subst hiq
      have : 1 ≤ i := by omega
      have : 1 * long_bits T ≤ i * long_bits T := Nat.mul_le_mul_right _ this
      rw [if_neg hi0, hR1 i (by omega), if_pos rfl, Nat.testBit_and, hA,
        top_mask_bits T _ j hs, Bool.true_and]
      exact decide_eq_decide.mpr (by omega)
    · have : 1 ≤ i := by omega
      have : 1 * long_bits T ≤ i * long_bits T := Nat.mul_le_mul_right _ this
      have : i + 1 ≤ q := by omega
      have : (i + 1) * long_bits T ≤ q * long_bits T := Nat.mul_le_mul_right _ this
      rw [Nat.add_mul] at this
      rw [if_neg hi0, hR1 i hi, if_neg hiq, hA]
      exact (decide_eq_true (by omega)).symm
  refine ⟨hlen, hcover, hbits, ?_⟩
  unfold free_count
  simp only
  rw [sum_bit_count_interval (long_bits T) 2 (p - 1) _ 0
    (fun i j hi hj => by
      rw [hlen] at hi
      rw [hbits i j hi hj, Nat.zero_add])]
  rw [hlen]
  simp only [Nat.zero_add, Nat.zero_mul]
  omega

/-- With a 4-byte `long` the shift count of the last-word mask is below 32 for
every mask 1..30. -/
theorem short_shift_long32 (T : Target) (hT : T.sizeof_long = 4) (m : Nat) (hm1 : 1 ≤ m)
    (hm2 : m ≤ 30) : (2 ^ (32 - m) - 2) % long_bits T + 1 < 32 := by
  have hW : long_bits T = 32 := by unfold long_bits; omega
  rw [hW]
  interval_cases m <;> decide

/-- With mask 27..30 the shift count of the last-word mask is below 32 on every
target. -/
theorem short_shift_small_block (T : Target) (hT : 4 ≤ T.sizeof_long) (m : Nat) (hm1 : 27 ≤ m)
    (hm2 : m ≤ 30) : (2 ^ (32 - m) - 2) % long_bits T + 1 < 32 := by
  have hW := long_bits_ge T hT
  have : (2 ^ (32 - m) - 2) % long_bits T ≤ 2 ^ (32 - m) - 2 := Nat.mod_le _ _
  have : 2 ^ (32 - m) ≤ 2 ^ 5 := Nat.pow_le_pow_right (by omega) (by omega)
  omega


/-! ## The iteration bounds of the loops -/

/-- The bound on the iterations of the scan loop never cuts the loop short:
any bound of at least `len - i` gives the same result. -/
theorem get_ip_scan_fuel (T : Target) (r : dhcpv4_iprange) : ∀ f1 f2 i,
    r.len - i ≤ f1 → r.len - i ≤ f2 → get_ip_scan T r f1 i = get_ip_scan T r f2 i := by
  intro f1
  induction f1 with
  | zero =>
    intro f2 i h1 _
    cases f2 with
    | zero => rfl
    | succ m => simp only [get_ip_scan]; rw [if_neg (by omega)]
  | succ n ih =>
    intro f2 i h1 h2
    cases f2 with
    | zero => simp only [get_ip_scan]; rw [if_neg (by omega)]
    | succ m =>
      simp only [get_ip_scan]
      split
      · split
        · rfl
        · exact ih m (i + 1) (by omega) (by omega)
      · rfl

/-- The bound on the iterations of the option loop never cuts the loop short:
any bound of at least `endptr - ptr` gives the same result. -/
theorem parse_options_loop_fuel (T : Target) (data : Nat → Nat) (endptr : Nat) :
    ∀ f1 f2 ptr pack, endptr - ptr ≤ f1 → endptr - ptr ≤ f2 →
      parse_options_loop T data endptr f1 ptr pack
        = parse_options_loop T data endptr f2 ptr pack := by
  intro f1
  induction f1 with
  | zero =>
    intro f2 ptr pack h1 _
    cases f2 with
    | zero => rfl
    | succ m => simp only [parse_options_loop]; rw [if_neg (by omega)]
  | succ n ih =>
    intro f2 ptr pack h1 h2
    cases f2 with
    | zero => simp only [parse_options_loop]; rw [if_neg (by omega)]
    | succ m =>
      simp only [parse_options_loop]
      split
      · split
        · exact ih m (ptr + 1) pack (by omega) (by omega)
        · split
          · rfl
          · split
            · rfl
            · exact ih m _ _ (by omega) (by omega)
      · rfl


/-! ## The message type recorded by the parser -/

theorem record_option_msg_type (T : Target) (data : Nat → Nat) (pack : dhcpv4_packet)
    (opt : dhcpv4_option) :
    (record_option T data pack opt).msg_type
      = if opt.type = 53 then rd data opt.data else pack.msg_type := by
  unfold record_option
  split
  · rfl
  · split
    · exact (parse_opt82_loop_options data _ _ _ _).2
    · split
      · rfl
      · split <;> rfl

/-- The option loop records as message type the byte `data[0]` of the last
option of type 53 that it appends. -/
theorem parse_options_loop_msg_type (T : Target) (data : Nat → Nat) (endptr : Nat) :
    ∀ fuel ptr pack p pack1, parse_options_loop T data endptr fuel ptr pack = some (p, pack1) →
      ∃ l, pack1.options = pack.options ++ l ∧
        pack1.msg_type = recorded_msg_type data l pack.msg_type := by
  intro fuel
  induction fuel with
  | zero =>
    intro ptr pack p pack1 h
    simp only [parse_options_loop, Option.some.injEq, Prod.mk.injEq] at h
    obtain ⟨_, h2⟩ := h
    subst h2
    exact ⟨[], by simp, rfl⟩
  | succ n ih =>
    intro ptr pack p pack1 h
    unfold parse_options_loop at h
    split at h
    · split at h
      · exact ih _ _ _ _ h
      · split at h
        · simp only [Option.some.injEq, Prod.mk.injEq] at h
          obtain ⟨_, h2⟩ := h
          subst h2
          exact ⟨[], by simp, rfl⟩
        · simp only at h
          split at h
          · simp at h
          · obtain ⟨l, h1, h2⟩ := ih _ _ _ _ h
            rw [record_option_options] at h1
            rw [record_option_msg_type] at h2
            refine ⟨⟨rd data ptr, rd data (ptr + 1), ptr + 2⟩ :: l, by simp [h1], ?_⟩
            rw [h2]
            simp [recorded_msg_type]
    · simp only [Option.some.injEq, Prod.mk.injEq] at h
      obtain ⟨_, h2⟩ := h
      subst h2
      exact ⟨[], by simp, rfl⟩

theorem recorded_msg_type_none (data : Nat → Nat) : ∀ (opts : List dhcpv4_option) (init : Nat),
    (∀ o, o ∈ opts → o.type ≠ 53) → recorded_msg_type data opts init = init := by
  intro opts
  induction opts with
  | nil => intro init _; rfl
  | cons o rest ih =>
    intro init h
    have h1 : o.type ≠ 53 := h o (by simp)
    simp only [recorded_msg_type, List.foldl_cons, h1, if_false]
    exact ih init (fun q hq => h q (by simp [hq]))

theorem recorded_msg_type_append (data : Nat → Nat) (l1 l2 : List dhcpv4_option) (init : Nat) :
    recorded_msg_type data (l1 ++ l2) init
      = recorded_msg_type data l2 (recorded_msg_type data l1 init) := by
  simp [recorded_msg_type, List.foldl_append]

/-- The recorded message type comes from the last option of type 53. -/
theorem recorded_msg_type_last (data : Nat → Nat) (pre post : List dhcpv4_option)
    (o : dhcpv4_option) (init : Nat) (ho : o.type = 53)
    (hpost : ∀ q, q ∈ post → q.type ≠ 53) :
    recorded_msg_type data (pre ++ o :: post) init = rd data o.data := by
  rw [recorded_msg_type_append]
  have : recorded_msg_type data (o :: post) (recorded_msg_type data pre init)
      = recorded_msg_type data post (rd data o.data) := by
    simp [recorded_msg_type, ho]
  rw [this, recorded_msg_type_none data post _ hpost]

/-- C11 (message type): whenever `dhcpv4_parse_packet` succeeds, the message
type it records is in 1..8 and the option list contains an option of type 53
(the recorded type is the byte `data[0]` of the last such option). Conversely,
when the option loop ends with a list that has no option 53, or in which the
value taken from the last option 53 is 0 or greater than 8,
`dhcpv4_parse_packet` fails. -/
theorem msg_type_valid (T : Target) (chk : dhcpv4_packet → Bool) (data : Nat → Nat) (len : Nat) :
    (∀ pack, dhcpv4_parse_packet T chk data len = some pack →
      1 ≤ pack.msg_type ∧ pack.msg_type ≤ 8 ∧ (∃ o, o ∈ pack.options ∧ o.type = 53) ∧
      pack.msg_type = recorded_msg_type data pack.options 0) ∧
    (∀ p pack, parse_options_loop T data len (len - sizeof_dhcpv4_hdr) sizeof_dhcpv4_hdr
        dhcpv4_packet_alloc = some (p, pack) →
      ((∀ o, o ∈ pack.options → o.type ≠ 53) → dhcpv4_parse_packet T chk data len = none) ∧
      (∀ pre o post, pack.options = pre ++ o :: post → o.type = 53 →
        (∀ q, q ∈ post → q.type ≠ 53) → (rd data o.data = 0 ∨ 8 < rd data o.data) →
        dhcpv4_parse_packet T chk data len = none)) := by
  have hrec : ∀ p pack, parse_options_loop T data len (len - sizeof_dhcpv4_hdr)
      sizeof_dhcpv4_hdr dhcpv4_packet_alloc = some (p, pack) →
      pack.msg_type = recorded_msg_type data pack.options 0 := by
    intro p pack h
    obtain ⟨l, h1, h2⟩ := parse_options_loop_msg_type T data len _ _ _ _ _ h
    have : pack.options = l := by rw [h1]; rfl
    rw [this, h2]; rfl
  have hfail : ∀ p pack, parse_options_loop T data len (len - sizeof_dhcpv4_hdr)
      sizeof_dhcpv4_hdr dhcpv4_packet_alloc = some (p, pack) →
      (pack.msg_type = 0 ∨ 8 < pack.msg_type) → dhcpv4_parse_packet T chk data len = none := by
    intro p pack h hm
    cases hp : dhcpv4_parse_packet T chk data len with
    | none => rfl
    | some pk =>
      obtain ⟨_, _, _, _, _, ⟨p2, hloop⟩, h1, h2, _⟩ :=
        dhcpv4_parse_packet_some T chk data len pk hp
      rw [h] at hloop
      simp only [Option.some.injEq, Prod.mk.injEq] at hloop
      obtain ⟨_, e⟩ := hloop
      subst e
      omega
  constructor
  · intro pack hp
    obtain ⟨_, _, _, _, _, ⟨p, hloop⟩, h1, h2, _⟩ := dhcpv4_parse_packet_some T chk data len pack hp
    have hm := hrec p pack hloop
    refine ⟨h1, h2, ?_, hm⟩
    by_contra hc
    have hno : ∀ o, o ∈ pack.options → o.type ≠ 53 := fun o ho e => hc ⟨o, ho, e⟩
    rw [recorded_msg_type_none data _ 0 hno] at hm
    omega
  · intro p pack hloop
    have hm := hrec p pack hloop
    constructor
    · intro hno
      rw [recorded_msg_type_none data _ 0 hno] at hm
      exact hfail p pack hloop (Or.inl hm)
    · intro pre o post hopt ho hpost hval
      rw [hopt, recorded_msg_type_last data pre post o 0 ho hpost] at hm
      exact hfail p pack hloop (by omega)


/-! ## The bytes of a reply -/

theorem buf_bytes_append (data : Nat → Nat) : ∀ n m a,
    buf_bytes data a (n + m) = buf_bytes data a n ++ buf_bytes data (a + n) m := by
  intro n
  induction n with
  | zero => intro m a; simp [buf_bytes]
  | succ n ih =>
    intro m a
    rw [show n + 1 + m = (n + m) + 1 by omega]
    simp only [buf_bytes, List.cons_append]
    rw [ih m (a + 1), show a + 1 + n = a + (n + 1) by omega]

theorem int_bytes_length (T : Target) (x : Nat) : (int_bytes T x).length = 4 := by
  unfold int_bytes; split <;> rfl

theorem short_bytes_length (T : Target) (x : Nat) : (short_bytes T x).length = 2 := by
  unfold short_bytes; split <;> rfl

/-- A store that replaces the middle part of a byte array. -/
theorem set_bytes_mid (pre mid post bs : List Nat) (off : Nat) (h1 : pre.length = off)
    (h2 : mid.length = bs.length) :
    set_bytes (pre ++ mid ++ post) off bs = pre ++ bs ++ post := by
  subst h1
  have e1 : (pre ++ mid ++ post).take pre.length = pre := by
    rw [List.append_assoc]; exact List.take_left _ _
  have e2 : (pre ++ mid ++ post).drop (pre.length + bs.length) = post := by
    rw [← h2, ← List.length_append]; exact List.drop_left _ _
  unfold set_bytes
  rw [e1, e2]

/-- The header of a reply, field by field: the request header with `op` set to
reply, `ciaddr` cleared, `yiaddr` set, and `siaddr` set for an Offer and
cleared otherwise. -/
theorem reply_header_eq (T : Target) (msg_type : Nat) (req : Nat → Nat) (yiaddr siaddr : Nat) :
    reply_header T msg_type req yiaddr siaddr
      = [DHCP_OP_REPLY] ++ buf_bytes req 1 11 ++ int_bytes T 0 ++ int_bytes T yiaddr
        ++ int_bytes T (if msg_type = DHCPOFFER then siaddr else 0) ++ buf_bytes req 24 216 := by
  have e : buf_bytes req 0 sizeof_dhcpv4_hdr
      = buf_bytes req 0 1 ++ buf_bytes req 1 11 ++ buf_bytes req 12 4 ++ buf_bytes req 16 4
        ++ buf_bytes req 20 4 ++ buf_bytes req 24 216 := by
    have a1 := buf_bytes_append req 1 239 0
    have a2 := buf_bytes_append req 11 228 1
    have a3 := buf_bytes_append req 4 224 12
    have a4 := buf_bytes_append req 4 220 16
    have a5 := buf_bytes_append req 4 216 20
    simp only [Nat.reduceAdd] at a1 a2 a3 a4 a5
    rw [show sizeof_dhcpv4_hdr = 240 from rfl, a1, a2, a3, a4, a5]
    simp only [List.append_assoc]
  unfold reply_header
  simp only [e, hdr_op, hdr_ciaddr, hdr_yiaddr, hdr_siaddr]
  have s1 : set_bytes (buf_bytes req 0 1 ++ buf_bytes req 1 11 ++ buf_bytes req 12 4
      ++ buf_bytes req 16 4 ++ buf_bytes req 20 4 ++ buf_bytes req 24 216) 0 [DHCP_OP_REPLY]
      = [DHCP_OP_REPLY] ++ buf_bytes req 1 11 ++ buf_bytes req 12 4 ++ buf_bytes req 16 4
        ++ buf_bytes req 20 4 ++ buf_bytes req 24 216 := by
    have := set_bytes_mid [] (buf_bytes req 0 1) (buf_bytes req 1 11 ++ buf_bytes req 12 4
      ++ buf_bytes req 16 4 ++ buf_bytes req 20 4 ++ buf_bytes req 24 216) [DHCP_OP_REPLY] 0
      rfl (by simp [buf_bytes_length])
    simpa only [List.nil_append, List.append_assoc] using this
  have s2 : set_bytes ([DHCP_OP_REPLY] ++ buf_bytes req 1 11 ++ buf_bytes req 12 4
      ++ buf_bytes req 16 4 ++ buf_bytes req 20 4 ++ buf_bytes req 24 216) 12 (int_bytes T 0)
      = [DHCP_OP_REPLY] ++ buf_bytes req 1 11 ++ int_bytes T 0 ++ buf_bytes req 16 4
        ++ buf_bytes req 20 4 ++ buf_bytes req 24 216 := by
    have := set_bytes_mid ([DHCP_OP_REPLY] ++ buf_bytes req 1 11) (buf_bytes req 12 4)
      (buf_bytes req 16 4 ++ buf_bytes req 20 4 ++ buf_bytes req 24 216) (int_bytes T 0) 12
      (by simp [buf_bytes_length]) (by simp [buf_bytes_length, int_bytes_length])
    simpa only [List.append_assoc] using this
  have s3 : set_bytes ([DHCP_OP_REPLY] ++ buf_bytes req 1 11 ++ int_bytes T 0
      ++ buf_bytes req 16 4 ++ buf_bytes req 20 4 ++ buf_bytes req 24 216) 16 (int_bytes T yiaddr)
      = [DHCP_OP_REPLY] ++ buf_bytes req 1 11 ++ int_bytes T 0 ++ int_bytes T yiaddr
        ++ buf_bytes req 20 4 ++ buf_bytes req 24 216 := by
    have := set_bytes_mid ([DHCP_OP_REPLY] ++ buf_bytes req 1 11 ++ int_bytes T 0)
      (buf_bytes req 16 4) (buf_bytes req 20 4 ++ buf_bytes req 24 216) (int_bytes T yiaddr) 16
      (by simp [buf_bytes_length, int_bytes_length]) (by simp [buf_bytes_length, int_bytes_length])
    simpa only [List.append_assoc] using this
  have s4 : ∀ v, set_bytes ([DHCP_OP_REPLY] ++ buf_bytes req 1 11 ++ int_bytes T 0
      ++ int_bytes T yiaddr ++ buf_bytes req 20 4 ++ buf_bytes req 24 216) 20 (int_bytes T v)
      = [DHCP_OP_REPLY] ++ buf_bytes req 1 11 ++ int_bytes T 0 ++ int_bytes T yiaddr
        ++ int_bytes T v ++ buf_bytes req 24 216 := by
    intro v
    have := set_bytes_mid ([DHCP_OP_REPLY] ++ buf_bytes req 1 11 ++ int_bytes T 0
      ++ int_bytes T yiaddr) (buf_bytes req 20 4) (buf_bytes req 24 216) (int_bytes T v) 20
      (by simp [buf_bytes_length, int_bytes_length]) (by simp [buf_bytes_length, int_bytes_length])
    simpa only [List.append_assoc] using this
  rw [s1, s2, s3, s4]

theorem reply_header_length (T : Target) (msg_type : Nat) (req : Nat → Nat)
    (yiaddr siaddr : Nat) : (reply_header T msg_type req yiaddr siaddr).length = 240 := by
  rw [reply_header_eq]
  simp [buf_bytes_length, int_bytes_length]


theorem int_bytes_bswap32 (x : Nat) :
    [bswap32 x % 256, bswap32 x / 256 % 256, bswap32 x / 65536 % 256,
      bswap32 x / 16777216 % 256] = be32 x := by
  unfold bswap32 be32
  have h1 : x % 256 < 256 := by omega
  have h2 : x / 256 % 256 < 256 := by omega
  have h3 : x / 65536 % 256 < 256 := by omega
  have h4 : x / 16777216 % 256 < 256 := by omega
  generalize x % 256 = a at *
  generalize x / 256 % 256 = b at *
  generalize x / 65536 % 256 = c at *
  generalize x / 16777216 % 256 = d at *
  congr 1
  · omega
  · congr 1
    · omega
    · congr 1
      · omega
      · congr 1
        omega

theorem be32_mod (x : Nat) : be32 (x % 2 ^ 32) = be32 x := by
  unfold be32
  congr 1
  · omega
  · congr 1
    · omega
    · congr 1
      · omega
      · congr 1
        omega

/-- A value converted by `htonl` lies in memory most significant byte first,
on every host. -/
theorem int_bytes_htonl (T : Target) (x : Nat) : int_bytes T (htonl T x) = be32 x := by
  unfold int_bytes htonl
  cases T.little_endian with
  | true => simp only [if_true]; exact int_bytes_bswap32 x
  | false => simp only [Bool.false_eq_true, if_false]; exact be32_mod x

theorem int_bytes_ntohl (T : Target) (x : Nat) : int_bytes T (ntohl T x) = be32 x :=
  int_bytes_htonl T x

theorem int_not_eq (x : Nat) (h : x < 2 ^ 32) : int_not x = 2 ^ 32 - (x + 1) := by
  apply Nat.eq_of_testBit_eq
  intro t
  rw [testBit_int_not, Nat.testBit_two_pow_sub_succ h]

/-- The netmask that `dhcpv4_send_reply` computes for a prefix length 1..32. -/
theorem reply_netmask (T : Target) (mask : Nat) (h1 : 1 ≤ mask) (h2 : mask ≤ 32) :
    int_not (int_sub (int_shl1 T (int_sub 32 mask)) 1) = 2 ^ 32 - 2 ^ (32 - mask) := by
  have e : int_sub 32 mask = 32 - mask := by unfold int_sub; omega
  have hk : 32 - mask < 32 := by omega
  have hp : (2:Nat) ^ (32 - mask) < 2 ^ 32 := Nat.pow_lt_pow_right (by omega) hk
  have hp0 : 0 < (2:Nat) ^ (32 - mask) := by positivity
  rw [e, int_shl1_lt T _ hk, int_sub_pow_one _ hk, int_not_eq _ (by omega)]
  omega

/-- The bytes of the packet that `dhcpv4_send_reply` builds, and its option
list. -/
theorem send_reply_packet_eq (T : Target) (d1 d2 k : Nat) (req : Nat → Nat)
    (y s m lt : Nat) :
    (dhcpv4_send_reply_packet T d1 d2 k req y s m lt).1
      = reply_header T k req y s ++ ([53, 1] ++ (int_bytes T k).take 1)
        ++ ([54, 4] ++ int_bytes T s) ++ ([51, 4] ++ be32 lt) ++ ([3, 4] ++ int_bytes T s)
        ++ ([1, 4] ++ be32 (int_not (int_sub (int_shl1 T (int_sub 32 m)) 1)))
        ++ reply_dns_bytes T d1 d2 ++ [255] ∧
    (dhcpv4_send_reply_packet T d1 d2 k req y s m lt).2.options
      = [⟨53, 1, 242⟩, ⟨54, 4, 245⟩, ⟨51, 4, 251⟩, ⟨3, 4, 257⟩, ⟨1, 4, 263⟩]
        ++ reply_dns_options d1 d2 := by
  have t4 : ∀ x, (int_bytes T x).take 4 = int_bytes T x := fun x =>
    List.take_of_length_le (by rw [int_bytes_length])
  have t8 : (int_bytes T d1 ++ int_bytes T d2).take 8 = int_bytes T d1 ++ int_bytes T d2 :=
    List.take_of_length_le (by simp [int_bytes_length])
  have l1 : ((int_bytes T k).take 1).length = 1 := by
    rw [List.length_take, int_bytes_length]; rfl
  have lb : ∀ x, (be32 x).length = 4 := fun _ => rfl
  have tb : ∀ x, (be32 x).take 4 = be32 x := fun _ => rfl
  unfold dhcpv4_send_reply_packet reply_dns_bytes reply_dns_options
  simp only [dhcpv4_packet_add_opt, int_bytes_htonl, int_bytes_ntohl, t4, tb]
  by_cases h1 : d1 = 0
  · simp [h1, dhcpv4_packet_alloc, reply_header_length, int_bytes_length, l1, lb]
  · by_cases h2 : d2 = 0
    · simp [h1, h2, t4, dhcpv4_packet_alloc, reply_header_length, int_bytes_length, l1, lb]
    · simp [h1, h2, t8, dhcpv4_packet_alloc, reply_header_length, int_bytes_length, l1, lb]


theorem getD_buf_bytes (data : Nat → Nat) : ∀ n a i, i < n →
    (buf_bytes data a n).getD i 0 = rd data (a + i) := by
  intro n
  induction n with
  | zero => intro a i h; omega
  | succ n ih =>
    intro a i h
    cases i with
    | zero => simp [buf_bytes]
    | succ i =>
      simp only [buf_bytes, List.getD_cons_succ]
      rw [ih (a + 1) i (by omega)]
      congr 1; omega

theorem reply_dns_bytes_length (T : Target) (d1 d2 : Nat) :
    (reply_dns_bytes T d1 d2).length
      = if d1 ≠ 0 ∧ d2 ≠ 0 then 10 else if d1 ≠ 0 then 6 else 0 := by
  unfold reply_dns_bytes
  split
  · simp [int_bytes_length]
  · split
    · simp [int_bytes_length]
    · rfl

/-- The part of a reply in front of the optional option 6 has 267 bytes. -/
theorem send_reply_packet_split (T : Target) (d1 d2 k : Nat) (req : Nat → Nat)
    (y s m lt : Nat) :
    ∃ pre : List Nat, pre.length = 267 ∧
      (dhcpv4_send_reply_packet T d1 d2 k req y s m lt).1
        = pre ++ (reply_dns_bytes T d1 d2 ++ [255]) := by
  refine ⟨reply_header T k req y s ++ ([53, 1] ++ (int_bytes T k).take 1)
        ++ ([54, 4] ++ int_bytes T s) ++ ([51, 4] ++ be32 lt) ++ ([3, 4] ++ int_bytes T s)
        ++ ([1, 4] ++ be32 (int_not (int_sub (int_shl1 T (int_sub 32 m)) 1))), ?_, ?_⟩
  · have l1 : ((int_bytes T k).take 1).length = 1 := by
      rw [List.length_take, int_bytes_length]; rfl
    have lb : ∀ x, (be32 x).length = 4 := fun _ => rfl
    simp [reply_header_length, int_bytes_length, l1, lb]
  · rw [(send_reply_packet_eq T d1 d2 k req y s m lt).1]
    simp only [List.append_assoc]

/-- Outside `op`, `ciaddr`, `yiaddr` and `siaddr`, the header bytes of a reply
are those of the request. -/
theorem send_reply_packet_getD_hdr (T : Target) (d1 d2 k : Nat) (req : Nat → Nat)
    (y s m lt : Nat) (i : Nat) (hi : i < 240) (hop : i ≠ 0) (hrange : i < 12 ∨ 24 ≤ i) :
    (dhcpv4_send_reply_packet T d1 d2 k req y s m lt).1.getD i 0 = rd req i := by
  have hbytes := (send_reply_packet_eq T d1 d2 k req y s m lt).1
  have hlen := reply_header_length T k req y s
  have hget : (dhcpv4_send_reply_packet T d1 d2 k req y s m lt).1.getD i 0
      = (reply_header T k req y s).getD i 0 := by
    rw [hbytes]
    simp only [List.append_assoc]
    exact List.getD_append _ _ _ _ (by rw [hlen]; exact hi)
  rw [hget, reply_header_eq]
  rcases hrange with h | h
  · have e : [DHCP_OP_REPLY] ++ buf_bytes req 1 11 ++ int_bytes T 0 ++ int_bytes T y
        ++ int_bytes T (if k = DHCPOFFER then s else 0) ++ buf_bytes req 24 216
        = [DHCP_OP_REPLY] ++ (buf_bytes req 1 11 ++ (int_bytes T 0 ++ int_bytes T y
        ++ int_bytes T (if k = DHCPOFFER then s else 0) ++ buf_bytes req 24 216)) := by
      simp only [List.append_assoc]
    rw [e, List.getD_append_right _ _ _ _ (by simp; omega),
      List.getD_append _ _ _ _ (by simp [buf_bytes_length]; omega),
      getD_buf_bytes req 11 1 _ (by simp; omega)]
    congr 1
    simp; omega
  · rw [List.getD_append_right _ _ _ _ (by simp [buf_bytes_length, int_bytes_length]; omega),
      getD_buf_bytes req 216 24 _ (by simp [buf_bytes_length, int_bytes_length]; omega)]
    congr 1
    simp [buf_bytes_length, int_bytes_length]; omega

/-- C15 (header of a reply): the fixed header of the message built by
`dhcpv4_send_reply` is the request's header byte for byte, except for four
fields: `op` is reply (2), `ciaddr` is 0, `yiaddr` is the given `yiaddr`, and
`siaddr` is the given `siaddr` when the kind is Offer and 0 for every other
kind. All bytes of `htype`, `hlen`, `hops`, `xid`, `secs`, `flags` (offsets
1..11) and of `giaddr`, `chaddr`, `sname`, `file` and the magic cookie (offsets
24..239) are those of the request. -/
theorem reply_header_frame (T : Target) (d1 d2 k : Nat) (req : Nat → Nat) (y s m lt : Nat) :
    (dhcpv4_send_reply_packet T d1 d2 k req y s m lt).1.take sizeof_dhcpv4_hdr
      = [DHCP_OP_REPLY] ++ buf_bytes req 1 11 ++ int_bytes T 0 ++ int_bytes T y
        ++ int_bytes T (if k = DHCPOFFER then s else 0) ++ buf_bytes req 24 216 ∧
    DHCP_OP_REPLY = 2 ∧ int_bytes T 0 = [0, 0, 0, 0] ∧
    (∀ i, i < sizeof_dhcpv4_hdr → i ≠ hdr_op → (i < hdr_ciaddr ∨ hdr_giaddr ≤ i) →
      (dhcpv4_send_reply_packet T d1 d2 k req y s m lt).1.getD i 0 = rd req i) := by
  have hbytes := (send_reply_packet_eq T d1 d2 k req y s m lt).1
  have hlen := reply_header_length T k req y s
  have htake : (dhcpv4_send_reply_packet T d1 d2 k req y s m lt).1.take sizeof_dhcpv4_hdr
      = reply_header T k req y s := by
    rw [hbytes]
    simp only [List.append_assoc]
    exact List.take_left' hlen
  have h0 : int_bytes T 0 = [0, 0, 0, 0] := by
    unfold int_bytes; split <;> rfl
  refine ⟨by rw [htake, reply_header_eq], rfl, h0, ?_⟩
  intro i hi hop hrange
  simp only [sizeof_dhcpv4_hdr, hdr_op, hdr_ciaddr, hdr_giaddr] at hi hop hrange
  exact send_reply_packet_getD_hdr T d1 d2 k req y s m lt i hi hop hrange

/-- The options of a reply on a little-endian host, for a reply kind below
256 and a prefix length `mask` in 1..32, the bytes that `dhcpv4_send_reply`
writes after the fixed header are exactly: 53,1,kind; 54,4 and the four bytes
of `siaddr`; 51,4 and the lease time as a big-endian 32-bit value; 3,4 and the
four bytes of `siaddr`; 1,4 and the big-endian netmask `2^32 - 2^(32-mask)`;
then the optional option 6 and nothing else; and the last byte is 0xFF. -/
theorem reply_option_bytes (T : Target) (hle : T.little_endian = true) (d1 d2 k : Nat)
    (req : Nat → Nat) (y s m lt : Nat) (hk : k < 256) (hm1 : 1 ≤ m) (hm2 : m ≤ 32) :
    (dhcpv4_send_reply_packet T d1 d2 k req y s m lt).1.drop sizeof_dhcpv4_hdr
      = [53, 1, k] ++ ([54, 4] ++ int_bytes T s) ++ ([51, 4] ++ be32 lt)
        ++ ([3, 4] ++ int_bytes T s) ++ ([1, 4] ++ be32 (2 ^ 32 - 2 ^ (32 - m)))
        ++ reply_dns_bytes T d1 d2 ++ [255] ∧
    (dhcpv4_send_reply_packet T d1 d2 k req y s m lt).1.getLast? = some 255 := by
  have hbytes := (send_reply_packet_eq T d1 d2 k req y s m lt).1
  have hlen := reply_header_length T k req y s
  have hkb : (int_bytes T k).take 1 = [k] := by
    unfold int_bytes
    rw [hle]
    simp only [if_true, List.take_succ_cons, List.take_zero]
    rw [Nat.mod_eq_of_lt hk]
  constructor
  · rw [hbytes, hkb, reply_netmask T m hm1 hm2]
    simp only [List.append_assoc]
    exact List.drop_left' hlen
  · rw [hbytes]
    exact List.getLast?_concat _

/-- Witness for `reply_option_bytes`: an Offer on x86-64 with mask 24, lease
time 3600 and no DNS address configured. -/
theorem reply_option_bytes_witness :
    (dhcpv4_send_reply_packet linux_x86_64 0 0 2 (buf_of (sample_header ++ [53, 1, 1, 255]))
        (htonl linux_x86_64 (ipv4 10 0 0 5)) (htonl linux_x86_64 (ipv4 10 0 0 1)) 24
        3600).1.drop sizeof_dhcpv4_hdr
      = [53, 1, 2] ++ ([54, 4] ++ int_bytes linux_x86_64 (htonl linux_x86_64 (ipv4 10 0 0 1)))
        ++ ([51, 4] ++ be32 3600)
        ++ ([3, 4] ++ int_bytes linux_x86_64 (htonl linux_x86_64 (ipv4 10 0 0 1)))
        ++ ([1, 4] ++ be32 (2 ^ 32 - 2 ^ (32 - 24)))
        ++ reply_dns_bytes linux_x86_64 0 0 ++ [255] ∧
    (dhcpv4_send_reply_packet linux_x86_64 0 0 2 (buf_of (sample_header ++ [53, 1, 1, 255]))
        (htonl linux_x86_64 (ipv4 10 0 0 5)) (htonl linux_x86_64 (ipv4 10 0 0 1)) 24
        3600).1.getLast? = some 255 :=
  reply_option_bytes linux_x86_64 rfl 0 0 2 _ _ _ 24 3600 (by decide) (by decide) (by decide)

/-- On a big-endian host the byte written for the kind is the most significant
byte of the `int`, which is 0 for every kind below `2 ^ 24`. -/
theorem reply_kind_byte_big_endian (T : Target) (hbe : T.little_endian = false) (k : Nat)
    (hk : k < 2 ^ 24) : (int_bytes T k).take 1 = [0] := by
  unfold int_bytes
  rw [hbe]
  simp only [Bool.false_eq_true, if_false, List.take_succ_cons, List.take_zero]
  congr 1
  omega

/-- C14 (option 6 and message length): with both configured DNS addresses
non-zero the reply carries one option 6 of length 8 holding `dns1` then `dns2`
and has 278 bytes; with `dns1` non-zero and `dns2` zero it carries one option 6
of length 4 holding `dns1` and has 274 bytes; otherwise (`dns1` zero) it
carries no option 6 and has 268 bytes. -/
theorem reply_dns_option (T : Target) (d1 d2 k : Nat) (req : Nat → Nat) (y s m lt : Nat) :
    (d1 ≠ 0 ∧ d2 ≠ 0 →
      (dhcpv4_send_reply_packet T d1 d2 k req y s m lt).1.drop 267
        = [6, 8] ++ int_bytes T d1 ++ int_bytes T d2 ++ [255] ∧
      (dhcpv4_send_reply_packet T d1 d2 k req y s m lt).1.length = 278 ∧
      (dhcpv4_send_reply_packet T d1 d2 k req y s m lt).2.options.filter (fun o => o.type = 6)
        = [⟨6, 8, 269⟩]) ∧
    (d1 ≠ 0 ∧ d2 = 0 →
      (dhcpv4_send_reply_packet T d1 d2 k req y s m lt).1.drop 267
        = [6, 4] ++ int_bytes T d1 ++ [255] ∧
      (dhcpv4_send_reply_packet T d1 d2 k req y s m lt).1.length = 274 ∧
      (dhcpv4_send_reply_packet T d1 d2 k req y s m lt).2.options.filter (fun o => o.type = 6)
        = [⟨6, 4, 269⟩]) ∧
    (d1 = 0 →
      (dhcpv4_send_reply_packet T d1 d2 k req y s m lt).1.drop 267 = [255] ∧
      (dhcpv4_send_reply_packet T d1 d2 k req y s m lt).1.length = 268 ∧
      (dhcpv4_send_reply_packet T d1 d2 k req y s m lt).2.options.filter (fun o => o.type = 6)
        = []) := by
  obtain ⟨pre, hpre, hsplit⟩ := send_reply_packet_split T d1 d2 k req y s m lt
  have hopts := (send_reply_packet_eq T d1 d2 k req y s m lt).2
  have hdrop : (dhcpv4_send_reply_packet T d1 d2 k req y s m lt).1.drop 267
      = reply_dns_bytes T d1 d2 ++ [255] := by
    rw [hsplit]; exact List.drop_left' hpre
  have hlen : (dhcpv4_send_reply_packet T d1 d2 k req y s m lt).1.length
      = 267 + (reply_dns_bytes T d1 d2).length + 1 := by
    rw [hsplit]; simp [hpre]; omega
  rw [hdrop, hlen, hopts, reply_dns_bytes_length]
  refine ⟨?_, ?_, ?_⟩
  · intro h
    simp [reply_dns_bytes, reply_dns_options, h]
  · intro h
    simp [reply_dns_bytes, reply_dns_options, h]
  · intro h
    simp [reply_dns_bytes, reply_dns_options, h]


/-! ## The Nak -/

theorem send_nak_packet_eq (T : Target) (req : Nat → Nat) :
    (dhcpv4_send_nak_packet T req).1
      = reply_header T DHCPNAK req 0 0 ++ ([53, 1] ++ (int_bytes T DHCPNAK).take 1) ++ [255] ∧
    (dhcpv4_send_nak_packet T req).2.options = [⟨53, 1, 242⟩] := by
  have hl : (reply_header T DHCPNAK req 0 0).length = 240 := reply_header_length T _ req 0 0
  have e : reply_header T DHCPNAK req 0 0
      = set_bytes (set_bytes (set_bytes (set_bytes (buf_bytes req 0 sizeof_dhcpv4_hdr) hdr_op
          [DHCP_OP_REPLY]) hdr_ciaddr (int_bytes T 0)) hdr_yiaddr (int_bytes T 0)) hdr_siaddr
          (int_bytes T 0) := by
    simp [reply_header, DHCPNAK, DHCPOFFER]
  unfold dhcpv4_send_nak_packet
  simp only [dhcpv4_packet_add_opt, ← e, hl]
  simp [dhcpv4_packet_alloc]

/-- The Nak on a little-endian host: the message built by
`dhcpv4_send_nak` has `op` = reply (2), `ciaddr`, `yiaddr` and `siaddr` zero,
every other header byte as in the request (so the request's `xid`, `flags`,
`giaddr` and client hardware address), and an option area that is exactly the
four bytes 53, 1, 6 (Nak), 255: one option 53 and the terminator, 244 bytes in
all. -/
theorem nak_packet (T : Target) (hle : T.little_endian = true) (req : Nat → Nat) :
    (dhcpv4_send_nak_packet T req).1
      = [2] ++ buf_bytes req 1 11 ++ [0, 0, 0, 0] ++ [0, 0, 0, 0] ++ [0, 0, 0, 0]
        ++ buf_bytes req 24 216 ++ [53, 1, 6, 255] ∧
    (dhcpv4_send_nak_packet T req).1.length = 244 ∧
    (dhcpv4_send_nak_packet T req).1.drop sizeof_dhcpv4_hdr = [53, 1, 6, 255] ∧
    (dhcpv4_send_nak_packet T req).2.options = [⟨53, 1, 242⟩] ∧
    buf_bytes req 1 11 = buf_bytes req 1 3 ++ buf_bytes req hdr_xid 4 ++ buf_bytes req hdr_secs 2
      ++ buf_bytes req hdr_flags 2 ∧
    buf_bytes req 24 216 = buf_bytes req hdr_giaddr 4 ++ buf_bytes req hdr_chaddr 16
      ++ buf_bytes req hdr_sname 64 ++ buf_bytes req hdr_file 128 ++ buf_bytes req hdr_magic 4 := by
  obtain ⟨hb, ho⟩ := send_nak_packet_eq T req
  have h0 : int_bytes T 0 = [0, 0, 0, 0] := by
    unfold int_bytes; split <;> rfl
  have hk : (int_bytes T DHCPNAK).take 1 = [6] := by
    unfold int_bytes
    rw [hle]
    rfl
  have hform : (dhcpv4_send_nak_packet T req).1
      = [2] ++ buf_bytes req 1 11 ++ [0, 0, 0, 0] ++ [0, 0, 0, 0] ++ [0, 0, 0, 0]
        ++ buf_bytes req 24 216 ++ [53, 1, 6, 255] := by
    rw [hb, reply_header_eq, hk]
    simp [h0, DHCP_OP_REPLY, DHCPNAK, DHCPOFFER]
  refine ⟨hform, ?_, ?_, ho, ?_, ?_⟩
  · rw [hform]; simp [buf_bytes_length]
  · rw [hform]
    exact List.drop_left' (by simp [buf_bytes_length, sizeof_dhcpv4_hdr])
  · have a1 := buf_bytes_append req 3 8 1
    have a2 := buf_bytes_append req 4 4 4
    have a3 := buf_bytes_append req 2 2 8
    simp only [Nat.reduceAdd] at a1 a2 a3
    rw [a1, a2, a3]
    simp [hdr_xid, hdr_secs, hdr_flags]
  · have a1 := buf_bytes_append req 4 212 24
    have a2 := buf_bytes_append req 16 196 28
    have a3 := buf_bytes_append req 64 132 44
    have a4 := buf_bytes_append req 128 4 108
    simp only [Nat.reduceAdd] at a1 a2 a3 a4
    rw [a1, a2, a3, a4]
    simp [hdr_giaddr, hdr_chaddr, hdr_sname, hdr_file, hdr_magic]

/-- Witness for `nak_packet`: the Nak for a sample request on x86-64. -/
theorem nak_packet_witness :
    (dhcpv4_send_nak_packet linux_x86_64 (buf_of (sample_header ++ [53, 1, 3, 255]))).1.length
      = 244 ∧
    (dhcpv4_send_nak_packet linux_x86_64
      (buf_of (sample_header ++ [53, 1, 3, 255]))).1.drop sizeof_dhcpv4_hdr = [53, 1, 6, 255] :=
  ⟨(nak_packet linux_x86_64 rfl _).2.1, (nak_packet linux_x86_64 rfl _).2.2.1⟩


/-! ## Parsing a reply -/

/-- One round of the option loop on an option that fits. -/
theorem parse_options_loop_step (T : Target) (data : Nat → Nat) (endptr fuel ptr : Nat)
    (pack : dhcpv4_packet) (t l : Nat) (ht : rd data ptr = t) (hl : rd data (ptr + 1) = l)
    (h0 : t ≠ 0) (hff : t ≠ 0xff) (hfit : ptr + 2 + l ≤ endptr) :
    parse_options_loop T data endptr (fuel + 1) ptr pack
      = parse_options_loop T data endptr fuel (ptr + 2 + l)
          (record_option T data { pack with options := pack.options ++ [⟨t, l, ptr + 2⟩] }
            ⟨t, l, ptr + 2⟩) := by
  conv => lhs; unfold parse_options_loop
  rw [if_pos (by omega), ht, hl, if_neg h0, if_neg hff]
  simp only
  rw [if_neg (by omega)]

/-- The option loop at a `0xFF` byte. -/
theorem parse_options_loop_end (T : Target) (data : Nat → Nat) (endptr fuel ptr : Nat)
    (pack : dhcpv4_packet) (ht : rd data ptr = 0xff) (hlt : ptr < endptr) :
    parse_options_loop T data endptr (fuel + 1) ptr pack = some (ptr, pack) := by
  conv => lhs; unfold parse_options_loop
  rw [if_pos hlt, ht]
  rfl

/-- The option loop over the five fixed options of a reply, from offset 240 to
offset 267. -/
theorem parse_reply_options (T : Target) (data : Nat → Nat) (endptr fuel k s : Nat)
    (hend : 267 ≤ endptr)
    (b240 : rd data 240 = 53) (b241 : rd data 241 = 1) (b242 : rd data 242 = k)
    (b243 : rd data 243 = 54) (b244 : rd data 244 = 4) (b245 : load32 T data 245 = s)
    (b249 : rd data 249 = 51) (b250 : rd data 250 = 4)
    (b255 : rd data 255 = 3) (b256 : rd data 256 = 4)
    (b261 : rd data 261 = 1) (b262 : rd data 262 = 4) :
    parse_options_loop T data endptr (fuel + 5) 240 dhcpv4_packet_alloc
      = parse_options_loop T data endptr fuel 267
          ⟨[⟨53, 1, 242⟩, ⟨54, 4, 245⟩, ⟨51, 4, 251⟩, ⟨3, 4, 257⟩, ⟨1, 4, 263⟩],
            none, none, 0, s, k⟩ := by
  rw [parse_options_loop_step T data endptr (fuel + 4) 240 _ 53 1 b240 b241 (by decide)
    (by decide) (by omega)]
  rw [parse_options_loop_step T data endptr (fuel + 3) 243 _ 54 4 b243 b244 (by decide)
    (by decide) (by omega)]
  rw [parse_options_loop_step T data endptr (fuel + 2) 249 _ 51 4 b249 b250 (by decide)
    (by decide) (by omega)]
  rw [parse_options_loop_step T data endptr (fuel + 1) 255 _ 3 4 b255 b256 (by decide)
    (by decide) (by omega)]
  rw [parse_options_loop_step T data endptr fuel 261 _ 1 4 b261 b262 (by decide)
    (by decide) (by omega)]
  simp [record_option, dhcpv4_packet_alloc, b242, b245]


/-- Overwriting the first byte of a buffer. -/
theorem getD_set_bytes_zero (B : List Nat) (v i : Nat) :
    (set_bytes B 0 [v]).getD i 0 = if i = 0 then v else B.getD i 0 := by
  unfold set_bytes
  cases i with
  | zero => simp
  | succ n =>
    cases B with
    | nil => simp
    | cons b B => simp

/-- Overwriting the first byte of a non-empty buffer keeps its length. -/
theorem set_bytes_zero_length (B : List Nat) (v : Nat) (h : 1 ≤ B.length) :
    (set_bytes B 0 [v]).length = B.length := by
  unfold set_bytes
  simp
  omega

/-- Reading a byte in the option area of a buffer made of a 240-byte header,
a first run of option bytes and a rest. -/
theorem rd_buf_mid (H F R : List Nat) (hH : H.length = 240) (j : Nat) (hj : j < F.length) :
    rd (buf_of (H ++ F ++ R)) (240 + j) = F.getD j 0 % 256 := by
  unfold rd buf_of
  rw [List.append_assoc, List.getD_append_right _ _ _ _ (by omega),
    List.getD_append _ _ _ _ (by omega)]
  congr 2
  omega

theorem rd_buf_post (H F R : List Nat) (hH : H.length = 240) (j : Nat) :
    rd (buf_of (H ++ F ++ R)) (240 + F.length + j) = R.getD j 0 % 256 := by
  unfold rd buf_of
  rw [List.getD_append_right _ _ _ _ (by simp; omega)]
  congr 2
  simp; omega

/-- The option loop on a reply of a little-endian host whose `op` byte has been
set to the request code: it ends at the `0xFF` byte with the option list of the
builder, the server identifier and the kind. -/
theorem parse_reply_loop (T : Target) (hle : T.little_endian = true)
    (d1 d2 k : Nat) (req : Nat → Nat) (y s m lt : Nat) (hk : k < 256) (hs : s < 2 ^ 32) :
    ∃ p, parse_options_loop T
        (buf_of (set_bytes (dhcpv4_send_reply_packet T d1 d2 k req y s m lt).1 hdr_op
          [DHCP_OP_REQUEST]))
        (dhcpv4_send_reply_packet T d1 d2 k req y s m lt).1.length
        ((dhcpv4_send_reply_packet T d1 d2 k req y s m lt).1.length - sizeof_dhcpv4_hdr)
        sizeof_dhcpv4_hdr dhcpv4_packet_alloc
      = some (p, ⟨(dhcpv4_send_reply_packet T d1 d2 k req y s m lt).2.options,
          none, none, 0, s, k⟩) := by
  obtain ⟨hbytes, hopts⟩ := send_reply_packet_eq T d1 d2 k req y s m lt
  have hHl := reply_header_length T k req y s
  generalize hM : int_not (int_sub (int_shl1 T (int_sub 32 m)) 1) = M at hbytes
  have hsplit : (dhcpv4_send_reply_packet T d1 d2 k req y s m lt).1
      = reply_header T k req y s
        ++ [53, 1, k, 54, 4, s % 256, s / 256 % 256, s / 65536 % 256, s / 16777216 % 256,
            51, 4, lt / 16777216 % 256, lt / 65536 % 256, lt / 256 % 256, lt % 256,
            3, 4, s % 256, s / 256 % 256, s / 65536 % 256, s / 16777216 % 256,
            1, 4, M / 16777216 % 256, M / 65536 % 256, M / 256 % 256, M % 256]
        ++ (reply_dns_bytes T d1 d2 ++ [255]) := by
    rw [hbytes]
    simp [int_bytes, hle, be32, Nat.mod_eq_of_lt hk]
  generalize (dhcpv4_send_reply_packet T d1 d2 k req y s m lt).1 = B at hsplit ⊢
  rw [hopts]
  simp only [hdr_op, DHCP_OP_REQUEST, sizeof_dhcpv4_hdr]
  have hDi : ∀ i, i ≠ 0 → rd (buf_of (set_bytes B 0 [1])) i = rd (buf_of B) i := by
    intro i hi
    unfold rd buf_of
    rw [getD_set_bytes_zero, if_neg hi]
  have hmid : ∀ i j, i = 240 + j → j < 27 → ∀ v, 
      [53, 1, k, 54, 4, s % 256, s / 256 % 256, s / 65536 % 256, s / 16777216 % 256,
            51, 4, lt / 16777216 % 256, lt / 65536 % 256, lt / 256 % 256, lt % 256,
            3, 4, s % 256, s / 256 % 256, s / 65536 % 256, s / 16777216 % 256,
            1, 4, M / 16777216 % 256, M / 65536 % 256, M / 256 % 256, M % 256].getD j 0 = v →
      rd (buf_of (set_bytes B 0 [1])) i = v % 256 := by
    intro i j hij hj v hv
    rw [hDi i (by omega), hij, hsplit, rd_buf_mid _ _ _ hHl j (by simpa using hj), hv]
  have hpost : ∀ i j, i = 267 + j →
      rd (buf_of (set_bytes B 0 [1])) i = (reply_dns_bytes T d1 d2 ++ [255]).getD j 0 % 256 := by
    intro i j hij
    rw [hDi i (by omega), hij, hsplit]
    exact rd_buf_post _ _ _ hHl j
  have b240 := hmid 240 0 rfl (by decide) 53 rfl
  have b241 := hmid 241 1 rfl (by decide) 1 rfl
  have b242 := hmid 242 2 rfl (by decide) k rfl
  have b243 := hmid 243 3 rfl (by decide) 54 rfl
  have b244 := hmid 244 4 rfl (by decide) 4 rfl
  have b245 := hmid 245 5 rfl (by decide) (s % 256) rfl
  have b246 := hmid 246 6 rfl (by decide) (s / 256 % 256) rfl
  have b247 := hmid 247 7 rfl (by decide) (s / 65536 % 256) rfl
  have b248 := hmid 248 8 rfl (by decide) (s / 16777216 % 256) rfl
  have b249 := hmid 249 9 rfl (by decide) 51 rfl
  have b250 := hmid 250 10 rfl (by decide) 4 rfl
  have b255 := hmid 255 15 rfl (by decide) 3 rfl
  have b256 := hmid 256 16 rfl (by decide) 4 rfl
  have b261 := hmid 261 21 rfl (by decide) 1 rfl
  have b262 := hmid 262 22 rfl (by decide) 4 rfl
  rw [Nat.mod_eq_of_lt hk] at b242
  have hload : load32 T (buf_of (set_bytes B 0 [1])) 245 = s := by
    unfold load32
    rw [hle, if_pos rfl, b245, b246, b247, b248]
    omega
  have hBl : B.length = 268 + (reply_dns_bytes T d1 d2).length := by
    rw [hsplit]
    simp [hHl]
    omega
  have h5 := fun fuel h => parse_reply_options T (buf_of (set_bytes B 0 [1])) B.length fuel k s h
    b240 b241 b242 b243 b244 hload b249 b250 b255 b256 b261 b262
  by_cases e1 : d1 = 0
  · have hdns : reply_dns_bytes T d1 d2 = [] := by simp [reply_dns_bytes, e1]
    have hdo : reply_dns_options d1 d2 = [] := by simp [reply_dns_options, e1]
    rw [hdns] at hBl hpost
    have e255 := hpost 267 0 rfl
    rw [hdo, hBl]
    rw [hBl] at h5
    refine ⟨267, ?_⟩
    rw [show 268 + ([] : List Nat).length - 240 = 23 + 5 from rfl, h5 23 (by simp),
      parse_options_loop_end T _ _ 22 267 _ e255 (by simp)]
    rfl
  · by_cases e2 : d2 = 0
    · have hdns : reply_dns_bytes T d1 d2 = [6, 4] ++ int_bytes T d1 := by
        simp [reply_dns_bytes, e1, e2]
      have hdo : reply_dns_options d1 d2 = [⟨6, 4, 269⟩] := by simp [reply_dns_options, e1, e2]
      have hl : (reply_dns_bytes T d1 d2).length = 6 := by rw [hdns]; simp [int_bytes_length]
      rw [hl] at hBl
      have e6 := hpost 267 0 rfl
      have e4 := hpost 268 1 rfl
      have e255 := hpost 273 6 rfl
      rw [hdns] at e6 e4 e255
      rw [List.getD_append_right _ _ _ _ (by simp [int_bytes_length])] at e255
      simp [int_bytes_length] at e6 e4 e255
      rw [hdo, hBl]
      rw [hBl] at h5
      refine ⟨273, ?_⟩
      rw [show 268 + 6 - 240 = 29 + 5 from rfl, h5 29 (by simp),
        parse_options_loop_step T _ _ 28 267 _ 6 4 e6 e4 (by decide) (by decide) (by simp),
        parse_options_loop_end T _ _ 27 273 _ e255 (by simp)]
      rfl
    · have hdns : reply_dns_bytes T d1 d2 = [6, 8] ++ int_bytes T d1 ++ int_bytes T d2 := by
        simp [reply_dns_bytes, e1, e2]
      have hdo : reply_dns_options d1 d2 = [⟨6, 8, 269⟩] := by simp [reply_dns_options, e1, e2]
      have hl : (reply_dns_bytes T d1 d2).length = 10 := by rw [hdns]; simp [int_bytes_length]
      rw [hl] at hBl
      have e6 := hpost 267 0 rfl
      have e4 := hpost 268 1 rfl
      have e255 := hpost 277 10 rfl
      rw [hdns] at e6 e4 e255
      rw [List.getD_append_right _ _ _ _ (by simp [int_bytes_length])] at e255
      simp [int_bytes_length] at e6 e4 e255
      rw [hdo, hBl]
      rw [hBl] at h5
      refine ⟨277, ?_⟩
      rw [show 268 + 10 - 240 = 33 + 5 from rfl, h5 33 (by simp),
        parse_options_loop_step T _ _ 32 267 _ 6 8 e6 e4 (by decide) (by decide) (by simp),
        parse_options_loop_end T _ _ 31 277 _ e255 (by simp)]
      rfl


/-- Loading the four bytes that `int_bytes` stored gives the value back. -/
theorem load32_int_bytes (T : Target) (pre post : List Nat) (x off : Nat)
    (h : pre.length = off) :
    load32 T (buf_of (pre ++ int_bytes T x ++ post)) off = x % 2 ^ 32 := by
  have hr : ∀ j, j < 4 →
      rd (buf_of (pre ++ int_bytes T x ++ post)) (off + j) = (int_bytes T x).getD j 0 % 256 := by
    intro j hj
    unfold rd buf_of
    rw [List.append_assoc, List.getD_append_right _ _ _ _ (by omega),
      List.getD_append _ _ _ _ (by rw [int_bytes_length]; omega)]
    congr 2
    omega
  have r0 := hr 0 (by decide)
  have r1 := hr 1 (by decide)
  have r2 := hr 2 (by decide)
  have r3 := hr 3 (by decide)
  rw [Nat.add_zero] at r0
  unfold load32
  rw [r0, r1, r2, r3]
  unfold int_bytes
  cases T.little_endian
  · simp only [Bool.false_eq_true, if_false, List.getD_cons_zero, List.getD_cons_succ]
    omega
  · simp only [if_true, List.getD_cons_zero, List.getD_cons_succ]
    omega

/-- The field `yiaddr` of a reply reads back as the address given. -/
theorem send_reply_packet_yiaddr (T : Target) (d1 d2 k : Nat) (req : Nat → Nat)
    (y s m lt : Nat) :
    load32 T (buf_of (dhcpv4_send_reply_packet T d1 d2 k req y s m lt).1) hdr_yiaddr
      = y % 2 ^ 32 := by
  rw [(send_reply_packet_eq T d1 d2 k req y s m lt).1, reply_header_eq]
  simp only [List.append_assoc]
  have := load32_int_bytes T ([DHCP_OP_REPLY] ++ (buf_bytes req 1 11 ++ int_bytes T 0))
    (int_bytes T (if k = DHCPOFFER then s else 0) ++ (buf_bytes req 24 216 ++
      ([53, 1] ++ (List.take 1 (int_bytes T k) ++ ([54, 4] ++ (int_bytes T s ++ ([51, 4] ++
      (be32 lt ++ ([3, 4] ++ (int_bytes T s ++ ([1, 4] ++
      (be32 (int_not (int_sub (int_shl1 T (int_sub 32 m)) 1)) ++
      (reply_dns_bytes T d1 d2 ++ [255]))))))))))))) y hdr_yiaddr
    (by simp [buf_bytes_length, int_bytes_length, hdr_yiaddr])
  simpa only [List.append_assoc] using this


/-- C12 (round trip), as amended: `dhcpv4_parse_packet` rejects every buffer
that `dhcpv4_send_reply` produces, because its `op` byte is the reply code and
the parser accepts requests only. On a little-endian host, for a kind in 1..8
and a request header with hardware type 1, hardware length 6 and the magic
cookie, the same buffer with the `op` byte set to the request code is parsed
(unless `dhcpv4_check_options` objects) into the kind as message type, `siaddr`
as server identifier and exactly the option list the builder wrote, in order;
and the header field `yiaddr` reads back as the `yiaddr` given. -/
theorem reply_round_trip (T : Target) (hle : T.little_endian = true)
    (chk : dhcpv4_packet → Bool) (d1 d2 k : Nat) (req : Nat → Nat) (y s m lt : Nat)
    (hk1 : 1 ≤ k) (hk8 : k ≤ 8) (hy : y < 2 ^ 32) (hs : s < 2 ^ 32)
    (hhtype : rd req hdr_htype = 1) (hhlen : rd req hdr_hlen = 6)
    (hmagic : (List.range 4).map (fun i => rd req (hdr_magic + i)) = DHCP_MAGIC) :
    dhcpv4_parse_packet T chk (buf_of (dhcpv4_send_reply_packet T d1 d2 k req y s m lt).1)
        (dhcpv4_send_reply_packet T d1 d2 k req y s m lt).1.length = none ∧
    dhcpv4_parse_packet T chk
        (buf_of (set_bytes (dhcpv4_send_reply_packet T d1 d2 k req y s m lt).1 hdr_op
          [DHCP_OP_REQUEST]))
        (set_bytes (dhcpv4_send_reply_packet T d1 d2 k req y s m lt).1 hdr_op
          [DHCP_OP_REQUEST]).length
      = (if chk ⟨(dhcpv4_send_reply_packet T d1 d2 k req y s m lt).2.options,
            none, none, 0, s, k⟩ then none
          else some ⟨(dhcpv4_send_reply_packet T d1 d2 k req y s m lt).2.options,
            none, none, 0, s, k⟩) ∧
    load32 T (buf_of (set_bytes (dhcpv4_send_reply_packet T d1 d2 k req y s m lt).1 hdr_op
        [DHCP_OP_REQUEST])) hdr_yiaddr = y := by
  obtain ⟨p, hloop⟩ := parse_reply_loop T hle d1 d2 k req y s m lt (by omega) hs
  have hyi := send_reply_packet_yiaddr T d1 d2 k req y s m lt
  have hhdr := send_reply_packet_getD_hdr T d1 d2 k req y s m lt
  obtain ⟨pre, hpre, hsplit⟩ := send_reply_packet_split T d1 d2 k req y s m lt
  have hop : (dhcpv4_send_reply_packet T d1 d2 k req y s m lt).1.getD 0 0 = 2 := by
    rw [(send_reply_packet_eq T d1 d2 k req y s m lt).1, reply_header_eq]
    rfl
  have hlen : 268 ≤ (dhcpv4_send_reply_packet T d1 d2 k req y s m lt).1.length := by
    rw [hsplit]
    simp [hpre]
    omega
  generalize (dhcpv4_send_reply_packet T d1 d2 k req y s m lt).2.options = opts at hloop ⊢
  generalize (dhcpv4_send_reply_packet T d1 d2 k req y s m lt).1 = B at hloop hyi hhdr hop hlen ⊢
  have hBl : (set_bytes B hdr_op [DHCP_OP_REQUEST]).length = B.length :=
    set_bytes_zero_length B _ (by omega)
  have hD0 : rd (buf_of (set_bytes B hdr_op [DHCP_OP_REQUEST])) 0 = 1 := by
    unfold rd buf_of hdr_op
    rw [getD_set_bytes_zero, if_pos rfl]
    rfl
  have hDi : ∀ i, i ≠ 0 → rd (buf_of (set_bytes B hdr_op [DHCP_OP_REQUEST])) i
      = rd (buf_of B) i := by
    intro i hi
    unfold rd buf_of hdr_op
    rw [getD_set_bytes_zero, if_neg hi]
  have hDr : ∀ i, i < 240 → i ≠ 0 → (i < 12 ∨ 24 ≤ i) →
      rd (buf_of (set_bytes B hdr_op [DHCP_OP_REQUEST])) i = rd req i := by
    intro i h1 h2 h3
    rw [hDi i h2]
    unfold rd buf_of
    rw [hhdr i h1 h2 h3]
    unfold rd
    exact Nat.mod_mod _ _
  refine ⟨?_, ?_, ?_⟩
  · unfold dhcpv4_parse_packet
    have : rd (buf_of B) hdr_op ≠ DHCP_OP_REQUEST := by
      unfold rd buf_of hdr_op
      rw [hop]
      decide
    rw [if_pos this]
    split <;> rfl
  · have hm : (List.range 4).map
        (fun i => rd (buf_of (set_bytes B hdr_op [DHCP_OP_REQUEST])) (hdr_magic + i))
        = DHCP_MAGIC := by
      rw [← hmagic]
      apply List.map_congr_left
      intro i hi
      have : i < 4 := List.mem_range.mp hi
      exact hDr _ (by unfold hdr_magic; omega) (by unfold hdr_magic; omega)
        (by unfold hdr_magic; omega)
    have ht : rd (buf_of (set_bytes B hdr_op [DHCP_OP_REQUEST])) hdr_htype = 1 := by
      rw [hDr _ (by decide) (by decide) (by decide), hhtype]
    have hl : rd (buf_of (set_bytes B hdr_op [DHCP_OP_REQUEST])) hdr_hlen = 6 := by
      rw [hDr _ (by decide) (by decide) (by decide), hhlen]
    unfold dhcpv4_parse_packet
    rw [hBl, if_neg (by unfold sizeof_dhcpv4_hdr; omega),
      if_neg (not_not.mpr (show rd (buf_of (set_bytes B hdr_op [DHCP_OP_REQUEST])) hdr_op
        = DHCP_OP_REQUEST from hD0)),
      if_neg (by rw [ht]; decide), if_neg (by rw [hl]; decide), if_neg (by rw [hm]; decide),
      hloop]
    simp only
    rw [if_neg (by omega)]
  · unfold load32
    rw [hDi _ (by decide), hDi _ (by decide), hDi _ (by decide), hDi _ (by decide)]
    have := hyi
    unfold load32 at this
    rw [this]
    exact Nat.mod_eq_of_lt hy

/-- Witness for `reply_round_trip`: an Offer built on x86-64 for a sample
Discover, with a check of the options that accepts everything. -/
theorem reply_round_trip_witness :
    dhcpv4_parse_packet linux_x86_64 (fun _ => false)
        (buf_of (dhcpv4_send_reply_packet linux_x86_64 0 0 DHCPOFFER
          (buf_of (sample_header ++ [53, 1, 1, 255]))
          (htonl linux_x86_64 (ipv4 10 0 0 5)) (htonl linux_x86_64 (ipv4 10 0 0 1)) 24 3600).1)
        (dhcpv4_send_reply_packet linux_x86_64 0 0 DHCPOFFER
          (buf_of (sample_header ++ [53, 1, 1, 255]))
          (htonl linux_x86_64 (ipv4 10 0 0 5)) (htonl linux_x86_64 (ipv4 10 0 0 1)) 24
          3600).1.length = none ∧
    dhcpv4_parse_packet linux_x86_64 (fun _ => false)
        (buf_of (set_bytes (dhcpv4_send_reply_packet linux_x86_64 0 0 DHCPOFFER
          (buf_of (sample_header ++ [53, 1, 1, 255]))
          (htonl linux_x86_64 (ipv4 10 0 0 5)) (htonl linux_x86_64 (ipv4 10 0 0 1)) 24 3600).1
          hdr_op [DHCP_OP_REQUEST]))
        (set_bytes (dhcpv4_send_reply_packet linux_x86_64 0 0 DHCPOFFER
          (buf_of (sample_header ++ [53, 1, 1, 255]))
          (htonl linux_x86_64 (ipv4 10 0 0 5)) (htonl linux_x86_64 (ipv4 10 0 0 1)) 24 3600).1
          hdr_op [DHCP_OP_REQUEST]).length
      = (if (fun _ => false) (⟨(dhcpv4_send_reply_packet linux_x86_64 0 0 DHCPOFFER
            (buf_of (sample_header ++ [53, 1, 1, 255]))
            (htonl linux_x86_64 (ipv4 10 0 0 5)) (htonl linux_x86_64 (ipv4 10 0 0 1)) 24
            3600).2.options, none, none, 0, htonl linux_x86_64 (ipv4 10 0 0 1), DHCPOFFER⟩ :
            dhcpv4_packet) then none
          else some ⟨(dhcpv4_send_reply_packet linux_x86_64 0 0 DHCPOFFER
            (buf_of (sample_header ++ [53, 1, 1, 255]))
            (htonl linux_x86_64 (ipv4 10 0 0 5)) (htonl linux_x86_64 (ipv4 10 0 0 1)) 24
            3600).2.options, none, none, 0, htonl linux_x86_64 (ipv4 10 0 0 1), DHCPOFFER⟩) ∧
    load32 linux_x86_64 (buf_of (set_bytes (dhcpv4_send_reply_packet linux_x86_64 0 0 DHCPOFFER
        (buf_of (sample_header ++ [53, 1, 1, 255]))
        (htonl linux_x86_64 (ipv4 10 0 0 5)) (htonl linux_x86_64 (ipv4 10 0 0 1)) 24 3600).1
        hdr_op [DHCP_OP_REQUEST])) hdr_yiaddr = htonl linux_x86_64 (ipv4 10 0 0 5) :=
  reply_round_trip linux_x86_64 rfl (fun _ => false) 0 0 DHCPOFFER
    (buf_of (sample_header ++ [53, 1, 1, 255]))
    (htonl linux_x86_64 (ipv4 10 0 0 5)) (htonl linux_x86_64 (ipv4 10 0 0 1)) 24 3600
    (by decide) (by decide) (by decide) (by decide) (by decide) (by decide) (by decide)

set_option maxRecDepth 100000 in
/-- Counterexample to C12 as stated: the sample Discover is a request that
`dhcpv4_parse_packet` accepts, and the Offer that `dhcpv4_send_reply` builds
for it is rejected by `dhcpv4_parse_packet`. -/
theorem reply_not_parsed :
    dhcpv4_parse_packet linux_x86_64 (fun _ => false)
        (buf_of (sample_header ++ [53, 1, 1, 255])) 244 ≠ none ∧
    dhcpv4_parse_packet linux_x86_64 (fun _ => false)
        (buf_of (dhcpv4_send_reply_packet linux_x86_64 0 0 DHCPOFFER
          (buf_of (sample_header ++ [53, 1, 1, 255]))
          (htonl linux_x86_64 (ipv4 10 0 0 5)) (htonl linux_x86_64 (ipv4 10 0 0 1)) 24 3600).1)
        (dhcpv4_send_reply_packet linux_x86_64 0 0 DHCPOFFER
          (buf_of (sample_header ++ [53, 1, 1, 255]))
          (htonl linux_x86_64 (ipv4 10 0 0 5)) (htonl linux_x86_64 (ipv4 10 0 0 1)) 24
          3600).1.length = none := by
  constructor
  · decide
  · decide


/-! ## The IP header checksum -/

/-- Two rounds of the carry loop of `ip_csum` reduce a 32-bit sum to 16 bits. -/
theorem csum_fold_two (s : Nat) (h : s < 2 ^ 32) : csum_fold 2 s = ones_reduce s := by
  have e1 : ∀ x, x >>> 16 = x / 65536 := fun x => Nat.shiftRight_eq_div_pow x 16
  have e2 : ∀ x, x &&& 0xffff = x % 65536 := fun x => Nat.and_pow_two_sub_one_eq_mod x 16
  unfold csum_fold csum_fold csum_fold ones_reduce
  simp only [e1, e2]
  split
  · split
    · split <;> omega
    · split <;> omega
  · split <;> omega

theorem ones_reduce_le (x : Nat) : ones_reduce x ≤ 65535 := by
  unfold ones_reduce
  split <;> omega

/-- The bound on the rounds of the carry loop never cuts it short: the loop
condition is false after two rounds, and any larger bound gives the same
result. -/
theorem csum_fold_fuel (s : Nat) (h : s < 2 ^ 32) (fuel : Nat) :
    csum_fold 2 s >>> 16 = 0 ∧ csum_fold (fuel + 2) s = csum_fold 2 s := by
  have e1 : ∀ x, x >>> 16 = x / 65536 := fun x => Nat.shiftRight_eq_div_pow x 16
  have e2 : ∀ x, x &&& 0xffff = x % 65536 := fun x => Nat.and_pow_two_sub_one_eq_mod x 16
  constructor
  · rw [csum_fold_two s h, e1]
    have := ones_reduce_le s
    omega
  · have stop : ∀ f x, x < 65536 → csum_fold f x = x := by
      intro f x hx
      cases f with
      | zero => rfl
      | succ f =>
        unfold csum_fold
        rw [e1, if_neg (by omega)]
    unfold csum_fold csum_fold
    simp only [e1, e2]
    split
    · split
      · rw [stop fuel _ (by omega), stop 0 _ (by omega)]
      · rfl
    · rfl

/-- The ones'-complement sum of 16-bit words is the reduction of their sum. -/
theorem ones_sum_eq (ws : List Nat) (h : ∀ w ∈ ws, w < 65536) :
    ones_sum ws = ones_reduce ws.sum := by
  have gen : ∀ (ws : List Nat) (a : Nat), (∀ w ∈ ws, w < 65536) → a < 65536 →
      ws.foldl ones_add a = ones_reduce (a + ws.sum) := by
    intro ws
    induction ws with
    | nil =>
      intro a _ ha
      simp only [List.foldl_nil, List.sum_nil, Nat.add_zero]
      unfold ones_reduce
      split <;> omega
    | cons w ws ih =>
      intro a hw ha
      have hw1 : w < 65536 := hw w (List.mem_cons_self _ _)
      have hlt : ones_add a w < 65536 := by
        unfold ones_add
        split <;> omega
      rw [List.foldl_cons, ih _ (fun x hx => hw x (List.mem_cons_of_mem _ hx)) hlt,
        List.sum_cons]
      generalize ws.sum = r
      unfold ones_add ones_reduce
      split <;> split <;> split <;> omega
  unfold ones_sum
  rw [gen ws 0 h (by decide), Nat.zero_add]

/-- The 32-bit accumulation of `ip_csum` is the sum of the words modulo
`2 ^ 32`. -/
theorem csum_accumulate (ws : List Nat) :
    ws.foldl (fun s w => (s + w) % 2 ^ 32) 0 = ws.sum % 2 ^ 32 := by
  have gen : ∀ (ws : List Nat) (a : Nat),
      ws.foldl (fun s w => (s + w) % 2 ^ 32) a = (a + ws.sum) % 2 ^ 32 ∨ 
      (ws = [] ∧ ws.foldl (fun s w => (s + w) % 2 ^ 32) a = a) := by
    intro ws
    induction ws with
    | nil => intro a; right; exact ⟨rfl, rfl⟩
    | cons w ws ih =>
      intro a
      left
      rw [List.foldl_cons, List.sum_cons]
      rcases ih ((a + w) % 2 ^ 32) with h | ⟨h1, h2⟩
      · rw [h]; omega
      · rw [h2, h1]; simp
  rcases gen ws 0 with h | ⟨h1, _⟩
  · rw [h, Nat.zero_add]
  · rw [h1]; rfl

theorem load16_lt (T : Target) (buf : Nat → Nat) (off : Nat) : load16 T buf off < 65536 := by
  have a : rd buf off < 256 := Nat.mod_lt _ (by decide)
  have b : rd buf (off + 1) < 256 := Nat.mod_lt _ (by decide)
  unfold load16
  split <;> omega

theorem csum_words_lt (T : Target) (buf : Nat → Nat) (len : Nat) :
    ∀ w ∈ csum_words T buf len, w < 65536 := by
  intro w hw
  unfold csum_words at hw
  obtain ⟨i, _, rfl⟩ := List.mem_map.mp hw
  exact load16_lt T buf _

theorem csum_words_sum_le (T : Target) (buf : Nat → Nat) (len : Nat) :
    (csum_words T buf len).sum ≤ 65535 * ((len + 1) / 2) := by
  have gen : ∀ ws : List Nat, (∀ w ∈ ws, w < 65536) → ws.sum ≤ 65535 * ws.length := by
    intro ws
    induction ws with
    | nil => intro _; simp
    | cons w ws ih =>
      intro h
      have h1 := h w (List.mem_cons_self _ _)
      have h2 := ih (fun x hx => h x (List.mem_cons_of_mem _ hx))
      rw [List.sum_cons, List.length_cons]
      omega
  have := gen _ (csum_words_lt T buf len)
  unfold csum_words at this ⊢
  simpa using this

/-- The value of `ip_csum` over a buffer of at most 131072 bytes: the 16-bit
complement of the ones'-complement sum of its words. -/
theorem ip_csum_eq (T : Target) (buf : Nat → Nat) (len : Nat) (hlen : len ≤ 131072) :
    ip_csum T buf len = 65535 - ones_sum (csum_words T buf len) ∧
    ip_csum T buf len = 65535 - ones_reduce (csum_words T buf len).sum := by
  have hsum := csum_words_sum_le T buf len
  have hlt : (csum_words T buf len).sum < 2 ^ 32 := by omega
  have e : ip_csum T buf len = 65535 - ones_reduce (csum_words T buf len).sum := by
    unfold ip_csum
    simp only
    rw [csum_accumulate, Nat.mod_eq_of_lt hlt, csum_fold_two _ hlt]
    have hr := ones_reduce_le (csum_words T buf len).sum
    rw [int_not_eq _ (by omega), show (0xffff : Nat) = 2 ^ 16 - 1 from rfl,
      Nat.and_pow_two_sub_one_eq_mod]
    omega
  exact ⟨by rw [e, ones_sum_eq _ (csum_words_lt T buf len)], e⟩


/-- The bytes of a buffer after `set_bytes`. -/
theorem getD_set_bytes (buf : List Nat) (off : Nat) (bs : List Nat) (i : Nat)
    (h : off + bs.length ≤ buf.length) :
    (set_bytes buf off bs).getD i 0
      = if i < off then buf.getD i 0
        else if i < off + bs.length then bs.getD (i - off) 0 else buf.getD i 0 := by
  unfold set_bytes
  have hl : (buf.take off).length = off := by rw [List.length_take]; omega
  split
  · rename_i h1
    rw [List.append_assoc, List.getD_append _ _ _ _ (by omega)]
    simp only [List.getD_eq_getElem?_getD]
    rw [List.getElem?_take_of_lt h1]
  · rename_i h1
    split
    · rename_i h2
      rw [List.getD_append _ _ _ _ (by simp; omega),
        List.getD_append_right _ _ _ _ (by omega), hl]
    · rename_i h2
      rw [List.getD_append_right _ _ _ _ (by simp; omega)]
      simp only [List.getD_eq_getElem?_getD, List.getElem?_drop, List.length_append, hl]
      congr 2
      omega

theorem load16_short_bytes (T : Target) (buf : List Nat) (off c : Nat)
    (h : off + 2 ≤ buf.length) :
    load16 T (buf_of (set_bytes buf off (short_bytes T c))) off = c % 65536 := by
  have hl : (short_bytes T c).length = 2 := short_bytes_length T c
  have g0 := getD_set_bytes buf off (short_bytes T c) off (by omega)
  have g1 := getD_set_bytes buf off (short_bytes T c) (off + 1) (by omega)
  rw [if_neg (by omega), if_pos (by omega), Nat.sub_self] at g0
  rw [if_neg (by omega), if_pos (by omega), Nat.add_sub_cancel_left] at g1
  unfold load16 rd buf_of
  rw [g0, g1]
  unfold short_bytes
  cases T.little_endian
  · simp only [Bool.false_eq_true, if_false, List.getD_cons_zero, List.getD_cons_succ]
    omega
  · simp only [if_true, List.getD_cons_zero, List.getD_cons_succ]
    omega

theorem load16_set_bytes_other (T : Target) (buf : List Nat) (off : Nat) (bs : List Nat)
    (i : Nat) (h : off + bs.length ≤ buf.length) (hi : i + 2 ≤ off ∨ off + bs.length ≤ i) :
    load16 T (buf_of (set_bytes buf off bs)) i = load16 T (buf_of buf) i := by
  have g0 := getD_set_bytes buf off bs i h
  have g1 := getD_set_bytes buf off bs (i + 1) h
  have e0 : (set_bytes buf off bs).getD i 0 = buf.getD i 0 := by
    rw [g0]
    rcases hi with hi | hi
    · rw [if_pos (by omega)]
    · rw [if_neg (by omega), if_neg (by omega)]
  have e1 : (set_bytes buf off bs).getD (i + 1) 0 = buf.getD (i + 1) 0 := by
    rw [g1]
    rcases hi with hi | hi
    · rw [if_pos (by omega)]
    · rw [if_neg (by omega), if_neg (by omega)]
  unfold load16 rd buf_of
  rw [e0, e1]

theorem csum_words_20 (T : Target) (buf : Nat → Nat) :
    csum_words T buf 20 = [load16 T buf 0, load16 T buf 2, load16 T buf 4, load16 T buf 6,
      load16 T buf 8, load16 T buf 10, load16 T buf 12, load16 T buf 14, load16 T buf 16,
      load16 T buf 18] := rfl

/-- Storing the value of `ip_csum` in a zero checksum field of a 20-byte header
makes `ip_csum` over the header return 0. -/
theorem ip_csum_stored (T : Target) (hdr : List Nat) (hlen : hdr.length = 20)
    (hz : load16 T (buf_of hdr) 10 = 0) :
    ip_csum T (buf_of (set_bytes hdr 10 (short_bytes T (ip_csum T (buf_of hdr) 20)))) 20
      = 0 := by
  obtain ⟨_, h2⟩ := ip_csum_eq T (buf_of hdr) 20 (by decide)
  obtain ⟨_, h3⟩ := ip_csum_eq T
    (buf_of (set_bytes hdr 10 (short_bytes T (ip_csum T (buf_of hdr) 20)))) 20 (by decide)
  rw [h3]
  have hsb : (short_bytes T (ip_csum T (buf_of hdr) 20)).length = 2 := short_bytes_length T _
  have o : ∀ i, i + 2 ≤ 10 ∨ 12 ≤ i →
      load16 T (buf_of (set_bytes hdr 10 (short_bytes T (ip_csum T (buf_of hdr) 20)))) i
        = load16 T (buf_of hdr) i := fun i hi =>
    load16_set_bytes_other T hdr 10 _ i (by rw [hsb]; omega) (by rw [hsb]; exact hi)
  have c := load16_short_bytes T hdr 10 (ip_csum T (buf_of hdr) 20) (by omega)
  have hsum : (csum_words T (buf_of (set_bytes hdr 10
      (short_bytes T (ip_csum T (buf_of hdr) 20)))) 20).sum
      = (csum_words T (buf_of hdr) 20).sum + ip_csum T (buf_of hdr) 20 := by
    rw [csum_words_20, csum_words_20, c, o 0 (by omega), o 2 (by omega), o 4 (by omega),
      o 6 (by omega), o 8 (by omega), o 12 (by omega), o 14 (by omega), o 16 (by omega),
      o 18 (by omega), hz]
    simp only [List.sum_cons, List.sum_nil]
    rw [h2]
    omega
  rw [hsum, h2]
  generalize (csum_words T (buf_of hdr) 20).sum = S
  unfold ones_reduce
  split <;> split <;> omega

/-- C17 (IP header checksum): for every 20-byte IPv4 header, `ip_csum(header,
20)` is the 16-bit complement `65535 - S` of the ones'-complement
(end-around-carry) sum `S` of its ten 16-bit words; and when the checksum field
(the word at offset 10) is zero, storing that value in the checksum field, as
`dhcpv4_send_raw` does, makes `ip_csum` over the completed header return 0. -/
theorem ip_csum_header (T : Target) (hdr : List Nat) (hlen : hdr.length = 20)
    (hz : load16 T (buf_of hdr) 10 = 0) :
    csum_words T (buf_of hdr) 20
      = [load16 T (buf_of hdr) 0, load16 T (buf_of hdr) 2, load16 T (buf_of hdr) 4,
         load16 T (buf_of hdr) 6, load16 T (buf_of hdr) 8, load16 T (buf_of hdr) 10,
         load16 T (buf_of hdr) 12, load16 T (buf_of hdr) 14, load16 T (buf_of hdr) 16,
         load16 T (buf_of hdr) 18] ∧
    ones_sum (csum_words T (buf_of hdr) 20) ≤ 65535 ∧
    ip_csum T (buf_of hdr) 20 = 65535 - ones_sum (csum_words T (buf_of hdr) 20) ∧
    ip_csum T (buf_of (set_bytes hdr 10 (short_bytes T (ip_csum T (buf_of hdr) 20)))) 20
      = 0 := by
  obtain ⟨h1, _⟩ := ip_csum_eq T (buf_of hdr) 20 (by decide)
  have hs := ones_sum_eq _ (csum_words_lt T (buf_of hdr) 20)
  have hr := ones_reduce_le (csum_words T (buf_of hdr) 20).sum
  exact ⟨rfl, by rw [hs]; exact hr, h1, ip_csum_stored T hdr hlen hz⟩

/-- Witness for `ip_csum_header`: the IPv4 header of a 300-byte message from
10.0.0.1 to 10.0.0.5 on x86-64, before the checksum is stored. -/
theorem ip_csum_header_witness :
    csum_words linux_x86_64
        (buf_of [0x45, 0x10, 1, 72, 0, 0, 0, 0, 128, 17, 0, 0, 10, 0, 0, 1, 10, 0, 0, 5]) 20
      = [0x1045, 0x4801, 0, 0, 0x1180, 0, 10, 0x100, 10, 0x500] ∧
    ip_csum linux_x86_64
        (buf_of [0x45, 0x10, 1, 72, 0, 0, 0, 0, 128, 17, 0, 0, 10, 0, 0, 1, 10, 0, 0, 5]) 20
      = 0x9025 ∧
    ip_csum linux_x86_64 (buf_of (set_bytes
        [0x45, 0x10, 1, 72, 0, 0, 0, 0, 128, 17, 0, 0, 10, 0, 0, 1, 10, 0, 0, 5] 10
        (short_bytes linux_x86_64 (ip_csum linux_x86_64
          (buf_of [0x45, 0x10, 1, 72, 0, 0, 0, 0, 128, 17, 0, 0, 10, 0, 0, 1, 10, 0, 0, 5])
          20)))) 20 = 0 := by
  have h := ip_csum_header linux_x86_64
    [0x45, 0x10, 1, 72, 0, 0, 0, 0, 128, 17, 0, 0, 10, 0, 0, 1, 10, 0, 0, 5] rfl (by decide)
  exact ⟨by decide, by decide, h.2.2.2⟩


/-! ## Transmission -/

/-- Outside `op`, `ciaddr`, `yiaddr` and `siaddr`, the bytes of the header
that a reply or a Nak starts with are those of the request, whatever follows
the header. -/
theorem reply_header_getD (T : Target) (k : Nat) (req : Nat → Nat) (y s : Nat)
    (rest : List Nat) (i : Nat) (hi : i < 240) (hop : i ≠ 0) (hrange : i < 12 ∨ 24 ≤ i) :
    (reply_header T k req y s ++ rest).getD i 0 = rd req i := by
  rw [List.getD_append _ _ _ _ (by rw [reply_header_length]; exact hi), reply_header_eq]
  rcases hrange with h | h
  · have e : [DHCP_OP_REPLY] ++ buf_bytes req 1 11 ++ int_bytes T 0 ++ int_bytes T y
        ++ int_bytes T (if k = DHCPOFFER then s else 0) ++ buf_bytes req 24 216
        = [DHCP_OP_REPLY] ++ (buf_bytes req 1 11 ++ (int_bytes T 0 ++ int_bytes T y
        ++ int_bytes T (if k = DHCPOFFER then s else 0) ++ buf_bytes req 24 216)) := by
      simp only [List.append_assoc]
    rw [e, List.getD_append_right _ _ _ _ (by simp; omega),
      List.getD_append _ _ _ _ (by simp [buf_bytes_length]; omega),
      getD_buf_bytes req 11 1 _ (by simp; omega)]
    congr 1
    simp; omega
  · rw [List.getD_append_right _ _ _ _ (by simp [buf_bytes_length, int_bytes_length]; omega),
      getD_buf_bytes req 216 24 _ (by simp [buf_bytes_length, int_bytes_length]; omega)]
    congr 1
    simp [buf_bytes_length, int_bytes_length]; omega

/-- The field `giaddr` of a message that starts with the header of a reply is
the `giaddr` of the request. -/
theorem reply_header_giaddr (T : Target) (k : Nat) (req : Nat → Nat) (y s : Nat)
    (rest : List Nat) :
    load32 T (buf_of (reply_header T k req y s ++ rest)) hdr_giaddr = load32 T req hdr_giaddr := by
  have g : ∀ i, 24 ≤ i → i < 28 →
      rd (buf_of (reply_header T k req y s ++ rest)) i = rd req i := by
    intro i h1 h2
    unfold rd buf_of
    rw [reply_header_getD T k req y s rest i (by omega) (by omega) (Or.inr h1)]
    unfold rd
    exact Nat.mod_mod _ _
  unfold load32 hdr_giaddr
  rw [g 24 (by decide) (by decide), g (24 + 1) (by decide) (by decide),
    g (24 + 2) (by decide) (by decide), g (24 + 3) (by decide) (by decide)]

theorem short_bytes_htons (T : Target) (x : Nat) : short_bytes T (htons T x) = be16 x := by
  unfold short_bytes htons bswap16 be16
  have ha : x % 256 < 256 := Nat.mod_lt _ (by decide)
  have hb : x / 256 % 256 < 256 := Nat.mod_lt _ (by decide)
  cases T.little_endian
  · simp only [Bool.false_eq_true, if_false]
    congr 1
    · omega
    · congr 1; omega
  · simp only [if_true]
    generalize x % 256 = a at ha ⊢
    generalize x / 256 % 256 = b at hb ⊢
    congr 1
    · omega
    · congr 1; omega

theorem short_bytes_ntohs (T : Target) (x : Nat) : short_bytes T (ntohs T x) = be16 x :=
  short_bytes_htons T x

/-- C18 (choice of the path): `dhcpv4_send` hands the message to `sendto` as a
UDP datagram addressed to the message's `giaddr`, port 68 (the bytes 0, 68 in
network order), when `giaddr` is non-zero, and to `writev` as a raw Ethernet
frame when `giaddr` is zero. The messages built by `dhcpv4_send_reply` and
`dhcpv4_send_nak` carry the `giaddr` of the request, so for them the request's
`giaddr` decides the path. -/
theorem send_path (T : Target) (serv : dhcpv4_serv) (buf : List Nat) (saddr daddr : Nat)
    (n : Int) (d1 d2 k : Nat) (req : Nat → Nat) (y s m lt : Nat) :
    (dhcpv4_send T serv buf saddr daddr n).1
      = (if load32 T (buf_of buf) hdr_giaddr ≠ 0 then
          transmission.udp (load32 T (buf_of buf) hdr_giaddr) (htons T 68) buf
        else transmission.raw (raw_header T serv buf saddr daddr) buf) ∧
    short_bytes T (htons T 68) = [0, 68] ∧
    (dhcpv4_send_reply T d1 d2 k serv req y s m lt n).1
      = (if load32 T req hdr_giaddr ≠ 0 then
          transmission.udp (load32 T req hdr_giaddr) (htons T 68)
            (dhcpv4_send_reply_packet T d1 d2 k req y s m lt).1
        else transmission.raw
          (raw_header T serv (dhcpv4_send_reply_packet T d1 d2 k req y s m lt).1 s y)
          (dhcpv4_send_reply_packet T d1 d2 k req y s m lt).1) ∧
    (dhcpv4_send_nak T serv req n).1
      = (if load32 T req hdr_giaddr ≠ 0 then
          transmission.udp (load32 T req hdr_giaddr) (htons T 68)
            (dhcpv4_send_nak_packet T req).1
        else transmission.raw
          (raw_header T serv (dhcpv4_send_nak_packet T req).1 0 0xffffffff)
          (dhcpv4_send_nak_packet T req).1) := by
  have gen : ∀ b sa da, (dhcpv4_send T serv b sa da n).1
      = (if load32 T (buf_of b) hdr_giaddr ≠ 0 then
          transmission.udp (load32 T (buf_of b) hdr_giaddr) (htons T 68) b
        else transmission.raw (raw_header T serv b sa da) b) := by
    intro b sa da
    unfold dhcpv4_send dhcpv4_send_udp dhcpv4_send_raw
    split <;> rfl
  have g1 : load32 T (buf_of (dhcpv4_send_reply_packet T d1 d2 k req y s m lt).1) hdr_giaddr
      = load32 T req hdr_giaddr := by
    rw [(send_reply_packet_eq T d1 d2 k req y s m lt).1]
    simp only [List.append_assoc]
    exact reply_header_giaddr T k req y s _
  have g2 : load32 T (buf_of (dhcpv4_send_nak_packet T req).1) hdr_giaddr
      = load32 T req hdr_giaddr := by
    rw [(send_nak_packet_eq T req).1]
    simp only [List.append_assoc]
    exact reply_header_giaddr T DHCPNAK req 0 0 _
  refine ⟨gen buf saddr daddr, ?_, ?_, ?_⟩
  · rw [short_bytes_htons]; rfl
  · unfold dhcpv4_send_reply
    rw [gen, g1]
  · unfold dhcpv4_send_nak
    rw [gen, g2]


theorem short_bytes_zero (T : Target) : short_bytes T 0 = [0, 0] := by
  unfold short_bytes; split <;> rfl

/-- The 20 bytes of the IPv4 header as `dhcpv4_send_raw` has them before the
checksum is computed. -/
theorem raw_ip_header_unchecked (T : Target) (len saddr daddr : Nat) :
    ([0x45, 0x10] ++ be16 len ++ [0, 0] ++ [0, 0] ++ [128, 17] ++ [0, 0]
        ++ int_bytes T saddr ++ int_bytes T daddr).length = 20 ∧
    load16 T (buf_of ([0x45, 0x10] ++ be16 len ++ [0, 0] ++ [0, 0] ++ [128, 17] ++ [0, 0]
        ++ int_bytes T saddr ++ int_bytes T daddr)) 10 = 0 := by
  constructor
  · simp [be16, int_bytes_length]
  · unfold load16 rd buf_of be16
    simp

/-- The header that `dhcpv4_send_raw` builds, byte for byte. -/
theorem raw_header_eq (T : Target) (serv : dhcpv4_serv) (buf : List Nat) (saddr daddr : Nat)
    (hw : serv.hwaddr.length = 6) (hlen : 28 + buf.length < 65536) :
    raw_header T serv buf saddr daddr
      = ((buf.drop hdr_chaddr).take 6 ++ serv.hwaddr ++ [0x08, 0x00])
        ++ set_bytes ([0x45, 0x10] ++ be16 (28 + buf.length) ++ [0, 0] ++ [0, 0] ++ [128, 17]
            ++ [0, 0] ++ int_bytes T saddr ++ int_bytes T daddr) 10
            (short_bytes T (ip_csum T (buf_of ([0x45, 0x10] ++ be16 (28 + buf.length) ++ [0, 0]
              ++ [0, 0] ++ [128, 17] ++ [0, 0] ++ int_bytes T saddr ++ int_bytes T daddr)) 20))
        ++ ([0, 67] ++ [0, 68] ++ be16 (8 + buf.length) ++ [0, 0]) := by
  have e1 : (20 + 8 + buf.length) % 65536 = 28 + buf.length := by omega
  have e2 : (8 + buf.length) % 65536 = 8 + buf.length := by omega
  have e3 : serv.hwaddr.take 6 = serv.hwaddr := List.take_of_length_le (by omega)
  unfold raw_header
  simp only [short_bytes_htons, short_bytes_ntohs, short_bytes_zero, e1, e2, e3]
  rfl

/-- C19 (the raw frame): for a message of `n` bytes (at least a fixed header,
and `28 + n` below 65536) and a server hardware address of 6 bytes,
`dhcpv4_send_raw` hands `writev` exactly 42 header bytes followed by the
message: an Ethernet header with destination the first 6 bytes of `chaddr`,
source the server's hardware address and ethertype 0x0800; an IPv4 header with
version 4 and IHL 5 (byte 0x45), TOS 0x10, total length `28 + n`, id 0,
fragment offset 0, TTL 128, protocol 17, the checksum computed by `ip_csum`
over the header with a zero checksum field (so that `ip_csum` over the final
header is 0), and the given source and destination addresses; and a UDP header
with source port 67, destination port 68, length `8 + n` and checksum 0. -/
theorem raw_frame (T : Target) (serv : dhcpv4_serv) (buf : List Nat) (saddr daddr : Nat)
    (n : Int) (hbuf : sizeof_dhcpv4_hdr ≤ buf.length) (hw : serv.hwaddr.length = 6)
    (hlen : 28 + buf.length < 65536) :
    (dhcpv4_send_raw T serv buf saddr daddr n).1
      = transmission.raw (raw_header T serv buf saddr daddr) buf ∧
    raw_header T serv buf saddr daddr
      = ((buf.drop hdr_chaddr).take 6 ++ serv.hwaddr ++ [0x08, 0x00])
        ++ ([0x45, 0x10] ++ be16 (28 + buf.length) ++ [0, 0] ++ [0, 0] ++ [128, 17]
            ++ short_bytes T (ip_csum T (buf_of ([0x45, 0x10] ++ be16 (28 + buf.length)
              ++ [0, 0] ++ [0, 0] ++ [128, 17] ++ [0, 0] ++ int_bytes T saddr
              ++ int_bytes T daddr)) 20)
            ++ int_bytes T saddr ++ int_bytes T daddr)
        ++ ([0, 67] ++ [0, 68] ++ be16 (8 + buf.length) ++ [0, 0]) ∧
    ((buf.drop hdr_chaddr).take 6).length = 6 ∧
    (raw_header T serv buf saddr daddr).length = 42 ∧
    ip_csum T (buf_of (((raw_header T serv buf saddr daddr).drop 14).take 20)) 20 = 0 := by
  have heq := raw_header_eq T serv buf saddr daddr hw hlen
  obtain ⟨hl0, hz⟩ := raw_ip_header_unchecked T (28 + buf.length) saddr daddr
  generalize hc : ip_csum T (buf_of ([0x45, 0x10] ++ be16 (28 + buf.length) ++ [0, 0]
    ++ [0, 0] ++ [128, 17] ++ [0, 0] ++ int_bytes T saddr ++ int_bytes T daddr)) 20 = c at heq ⊢
  have hset : set_bytes ([0x45, 0x10] ++ be16 (28 + buf.length) ++ [0, 0] ++ [0, 0] ++ [128, 17]
      ++ [0, 0] ++ int_bytes T saddr ++ int_bytes T daddr) 10 (short_bytes T c)
      = [0x45, 0x10] ++ be16 (28 + buf.length) ++ [0, 0] ++ [0, 0] ++ [128, 17]
        ++ short_bytes T c ++ int_bytes T saddr ++ int_bytes T daddr := by
    have := set_bytes_mid ([0x45, 0x10] ++ be16 (28 + buf.length) ++ [0, 0] ++ [0, 0]
      ++ [128, 17]) [0, 0] (int_bytes T saddr ++ int_bytes T daddr) (short_bytes T c) 10
      (by simp [be16]) (by rw [short_bytes_length]; rfl)
    simpa only [List.append_assoc] using this
  have hch : ((buf.drop hdr_chaddr).take 6).length = 6 := by
    rw [List.length_take, List.length_drop]
    unfold sizeof_dhcpv4_hdr at hbuf
    unfold hdr_chaddr
    omega
  have hlset : (set_bytes ([0x45, 0x10] ++ be16 (28 + buf.length) ++ [0, 0] ++ [0, 0]
      ++ [128, 17] ++ [0, 0] ++ int_bytes T saddr ++ int_bytes T daddr) 10
      (short_bytes T c)).length = 20 := by
    rw [hset]
    simp [be16, int_bytes_length, short_bytes_length]
  refine ⟨rfl, by rw [heq, hset], hch, ?_, ?_⟩
  · rw [heq]
    have lb : ∀ x, (be16 x).length = 2 := fun _ => rfl
    simp only [List.length_append, hlset, hch, hw, lb, List.length_cons, List.length_nil]
  · have hpre : ((buf.drop hdr_chaddr).take 6 ++ serv.hwaddr ++ [0x08, 0x00]).length = 14 := by
      simp only [List.length_append, hch, hw, List.length_cons, List.length_nil]
    rw [heq, List.append_assoc, List.drop_left' hpre, List.take_left' hlset, ← hc]
    exact ip_csum_stored T _ hl0 hz

set_option maxRecDepth 100000 in
/-- Witness for `raw_frame`: the Nak for a sample request, sent on x86-64 by a
server with hardware address 02:00:00:00:00:01. -/
theorem raw_frame_witness :
    (raw_header linux_x86_64 ⟨[2, 0, 0, 0, 0, 1], none⟩
        (dhcpv4_send_nak_packet linux_x86_64 (buf_of (sample_header ++ [53, 1, 3, 255]))).1
        0 0xffffffff).length = 42 ∧
    ip_csum linux_x86_64 (buf_of (((raw_header linux_x86_64 ⟨[2, 0, 0, 0, 0, 1], none⟩
        (dhcpv4_send_nak_packet linux_x86_64 (buf_of (sample_header ++ [53, 1, 3, 255]))).1
        0 0xffffffff).drop 14).take 20)) 20 = 0 := by
  have h := raw_frame linux_x86_64 ⟨[2, 0, 0, 0, 0, 1], none⟩
    (dhcpv4_send_nak_packet linux_x86_64 (buf_of (sample_header ++ [53, 1, 3, 255]))).1
    0 0xffffffff 286 (by decide) rfl (by decide)
  exact ⟨h.2.2.2.1, h.2.2.2.2⟩


/-! ## What an allocation changes in the bitmap -/

/-- The word that `dhcpv4_get_ip` ands into the bitmap for bit `j`: when `j` is
below 31, or `j` is 31 and a `long` has 32 bits, every bit of it other than
bit `j` is set. -/
theorem clear_mask_others (T : Target) (hT : 4 ≤ T.sizeof_long) (j b : Nat)
    (hj : j < 31 ∨ (j = 31 ∧ long_bits T = 32)) (hb : b < long_bits T) :
    (int_to_long T (int_not (int_shl1 T j))).testBit b = !decide (b = j) := by
  have hj32 : j < 32 := by omega
  by_cases hb32 : b < 32
  · rw [int_to_long_lo T hT _ b hb32, Nat.mod_eq_of_lt (int_not_lt _), testBit_int_not,
      int_shl1_lt T j hj32, Nat.testBit_two_pow]
    by_cases e : j = b
    · subst e; simp [hb32]
    · have e2 : ¬ b = j := fun h => e h.symm
      simp [hb32, e, e2]
  · have hj31 : j < 31 := by omega
    rw [int_to_long_hi T hT _ b (by omega), Nat.mod_eq_of_lt (int_not_lt _), testBit_int_not,
      int_shl1_lt T j hj32, Nat.testBit_two_pow]
    have e1 : ¬ j = 31 := by omega
    have e2 : ¬ b = j := by omega
    simp [hb, e1, e2]

/-- The branch of `dhcpv4_get_ip` that takes bit `k - 1` of word `i` changes
that bit and no other, when `k - 1` is below 31 or a `long` has 32 bits. -/
theorem get_ip_take_frame (T : Target) (hT : 4 ≤ T.sizeof_long) (r : dhcpv4_iprange)
    (i k : Nat) (hj : k - 1 < 31 ∨ (k - 1 = 31 ∧ long_bits T = 32)) (t b : Nat)
    (hb : b < long_bits T) :
    ((get_ip_take T r i k).1.free.getD t 0).testBit b
      = ((r.free.getD t 0).testBit b && !decide (t = i ∧ b = k - 1)) := by
  unfold get_ip_take
  simp only
  rw [getD_word_and]
  by_cases e : t = i
  · subst e
    rw [if_pos rfl, Nat.testBit_and, clear_mask_others T hT (k - 1) b hj hb]
    simp
  · rw [if_neg e]
    simp [e]

/-- What `dhcpv4_get_ip` does to the bitmap of a range. When it reports that no
address is available the bitmap is unchanged. When it returns an address, that
address belongs to a set bit `j` of a word `i`; and if `j` is below 31, or a
`long` has 32 bits, the new bitmap differs from the old one in that bit only,
which is now clear. -/
theorem get_ip_frame (T : Target) (hT : 4 ≤ T.sizeof_long) (r : dhcpv4_iprange) :
    ((range_get_ip T r).2 = none → (range_get_ip T r).1.free = r.free) ∧
    (∀ res, (range_get_ip T r).2 = some res →
      ∃ i j, i < r.len ∧ j < long_bits T ∧ (r.free.getD i 0).testBit j = true ∧
        res = (htonl T ((r.startip + i * 8 * T.sizeof_long + (j + 1) - 1) % 2 ^ 32),
          htonl T r.routerip, r.mask) ∧
        ((j < 31 ∨ long_bits T = 32) → ∀ t b, b < long_bits T →
          (((range_get_ip T r).1.free.getD t 0).testBit b
            = ((r.free.getD t 0).testBit b && !decide (t = i ∧ b = j))))) := by
  have take : ∀ i, i < r.len → ffsl T (r.free.getD i 0) ≠ 0 →
      ∀ r1 : dhcpv4_iprange, r1.free = r.free → r1.startip = r.startip →
        r1.routerip = r.routerip → r1.mask = r.mask →
      range_get_ip T r = get_ip_take T r1 i (ffsl T (r.free.getD i 0)) →
      ((range_get_ip T r).2 = none → (range_get_ip T r).1.free = r.free) ∧
      (∀ res, (range_get_ip T r).2 = some res →
        ∃ i j, i < r.len ∧ j < long_bits T ∧ (r.free.getD i 0).testBit j = true ∧
          res = (htonl T ((r.startip + i * 8 * T.sizeof_long + (j + 1) - 1) % 2 ^ 32),
            htonl T r.routerip, r.mask) ∧
          ((j < 31 ∨ long_bits T = 32) → ∀ t b, b < long_bits T →
            (((range_get_ip T r).1.free.getD t 0).testBit b
              = ((r.free.getD t 0).testBit b && !decide (t = i ∧ b = j))))) := by
    intro i hi hk r1 hf hs hrt hm hr
    obtain ⟨h1, h2, _⟩ := ffsl_pos T _ hk
    obtain ⟨j, hkj⟩ : ∃ j, ffsl T (r.free.getD i 0) = j + 1 :=
      ⟨ffsl T (r.free.getD i 0) - 1, by omega⟩
    rw [hkj] at hr h1 h2
    simp only [Nat.add_sub_cancel] at h1 h2
    constructor
    · intro hn
      rw [hr] at hn
      simp [get_ip_take] at hn
    · intro res hres
      refine ⟨i, j, hi, h1, h2, ?_, ?_⟩
      · rw [hr] at hres
        simp only [get_ip_take, Option.some.injEq] at hres
        rw [← hres, hs, hrt, hm]
      · intro hj t b hb
        rw [hr, get_ip_take_frame T hT r1 i (j + 1) (by
          simp only [Nat.add_sub_cancel]
          rcases hj with hj | hj
          · exact Or.inl hj
          · omega) t b hb, hf]
        simp
  rcases range_get_ip_cases T r with ⟨i, _, hi, hk, _, hr⟩ | ⟨i, _, hi, hk, _, _, hr⟩ | ⟨_, hr⟩
  · exact take i hi hk r rfl rfl rfl rfl hr
  · exact take i hi hk r rfl rfl rfl rfl hr
  · constructor
    · intro _
      rw [hr]
    · intro res hres
      rw [hr] at hres
      simp at hres

set_option maxRecDepth 1000000 in
/-- C20 at a failing input: on x86-64 the range parsed from `10.0.0.0/25` has
the bitmap words `0xfffffffffffffffc` and `0x7fffffff`. After 29 allocations
(10.0.0.2 to 10.0.0.30) word 0 is `0xffffffff80000000`: the addresses with
index 31 to 63 are free. The next `dhcpv4_get_ip` returns 10.0.0.31 and leaves
word 0 at 0: besides bit 31 it has cleared bits 32..63, the bits of addresses
it did not return. -/
theorem get_ip_clears_upper_half :
    parse_range linux_x86_64 5 10 0 0 0 25
      = some ⟨ipv4 10 0 0 1, ipv4 10 0 0 0, 25, 0, 2, [0xfffffffffffffffc, 0x7fffffff]⟩ ∧
    pool_run linux_x86_64
        ⟨⟨[], some ⟨ipv4 10 0 0 1, ipv4 10 0 0 0, 25, 0, 2, [0xfffffffffffffffc, 0x7fffffff]⟩⟩,
          []⟩ (List.replicate 29 pool_op.get)
      = some ⟨⟨[], some ⟨ipv4 10 0 0 1, ipv4 10 0 0 0, 25, 0, 2,
          [0xffffffff80000000, 0x7fffffff]⟩⟩,
          (List.range 29).reverse.map (fun i => htonl linux_x86_64 (ipv4 10 0 0 (i + 2)))⟩ ∧
    dhcpv4_get_ip linux_x86_64
        ⟨[], some ⟨ipv4 10 0 0 1, ipv4 10 0 0 0, 25, 0, 2, [0xffffffff80000000, 0x7fffffff]⟩⟩
      = (⟨[], some ⟨ipv4 10 0 0 1, ipv4 10 0 0 0, 25, 0, 2, [0, 0x7fffffff]⟩⟩,
          some (htonl linux_x86_64 (ipv4 10 0 0 31), htonl linux_x86_64 (ipv4 10 0 0 1), 25)) ∧
    (0xffffffff80000000 : Nat).testBit 32 = true ∧ (0 : Nat).testBit 32 = false := by
  refine ⟨by decide, by decide, by decide, by decide, by decide⟩


/-! ## What a release changes in the bitmap -/

/-- The word that `dhcpv4_put_ip` ors into the bitmap for bit `j`: when `j` is
below 31, or `j` is 31 and a `long` has 32 bits, bit `j` is set in it and no
other. -/
theorem set_mask_others (T : Target) (hT : 4 ≤ T.sizeof_long) (j b : Nat)
    (hj : j < 31 ∨ (j = 31 ∧ long_bits T = 32)) (hb : b < long_bits T) :
    (int_to_long T (int_shl1 T j)).testBit b = decide (b = j) := by
  have hj32 : j < 32 := by omega
  have h2 : (2:Nat) ^ j < 2 ^ 32 := Nat.pow_lt_pow_right (by omega) hj32
  by_cases hb32 : b < 32
  · rw [set_mask_bit T hT j b hj32 hb32]
    by_cases e : j = b
    · subst e; simp
    · have e2 : ¬ b = j := fun h => e h.symm
      simp [e, e2]
  · have hj31 : j < 31 := by omega
    rw [int_to_long_hi T hT _ b (by omega), int_shl1_lt T j hj32, Nat.mod_eq_of_lt h2,
      Nat.testBit_two_pow]
    have e1 : ¬ j = 31 := by omega
    have e2 : ¬ b = j := by omega
    simp [e1, e2]

/-- What `dhcpv4_put_ip` does to a range: cursor, start address, router address
and mask are unchanged; and for an index `n` whose word is inside the bitmap
and whose bit `n mod W` is below 31 (or when a `long` has 32 bits), bit `n mod
W` of word `n div W` is set and every other bit of the bitmap is unchanged. -/
theorem put_ip_frame (T : Target) (hT : 4 ≤ T.sizeof_long) (r : dhcpv4_iprange) (ip : Nat) :
    (range_put_ip T r ip).pos = r.pos ∧ (range_put_ip T r ip).startip = r.startip ∧
    (range_put_ip T r ip).routerip = r.routerip ∧ (range_put_ip T r ip).mask = r.mask ∧
    (range_put_ip T r ip).len = r.len ∧
    (int_to_long T (int_sub (ntohl T ip) r.startip) / long_bits T < r.free.length →
      (int_to_long T (int_sub (ntohl T ip) r.startip) % long_bits T < 31 ∨ long_bits T = 32) →
      ∀ t b, b < long_bits T →
        ((range_put_ip T r ip).free.getD t 0).testBit b
          = ((r.free.getD t 0).testBit b ||
              decide (t = int_to_long T (int_sub (ntohl T ip) r.startip) / long_bits T ∧
                b = int_to_long T (int_sub (ntohl T ip) r.startip) % long_bits T))) := by
  refine ⟨rfl, rfl, rfl, rfl, rfl, ?_⟩
  intro hi hj t b hb
  have hW := long_bits_ge T hT
  unfold range_put_ip
  simp only
  generalize int_to_long T (int_sub (ntohl T ip) r.startip) = n at hi hj ⊢
  have hmod : n % long_bits T < long_bits T := Nat.mod_lt _ (by omega)
  rw [getD_word_or _ _ _ _ hi]
  by_cases e : t = n / long_bits T
  · subst e
    rw [if_pos rfl, Nat.testBit_or, set_mask_others T hT (n % long_bits T) b (by omega) hb]
    simp
  · rw [if_neg e]
    simp [e]

set_option maxRecDepth 1000000 in
/-- C21 at a failing input: on x86-64, in the range parsed from `10.0.0.0/25`,
30 allocations hand out 10.0.0.2 to 10.0.0.31 and leave word 0 of the bitmap at
0. Releasing 10.0.0.31 (index 31) then makes word 0 `0xffffffff80000000`:
besides bit 31 the call has set bits 32..63, the bits of 10.0.0.32 to
10.0.0.63. -/
theorem put_ip_sets_upper_half :
    pool_run linux_x86_64
        ⟨⟨[], some ⟨ipv4 10 0 0 1, ipv4 10 0 0 0, 25, 0, 2, [0xfffffffffffffffc, 0x7fffffff]⟩⟩,
          []⟩ (List.replicate 30 pool_op.get)
      = some ⟨⟨[], some ⟨ipv4 10 0 0 1, ipv4 10 0 0 0, 25, 0, 2, [0, 0x7fffffff]⟩⟩,
          (List.range 30).reverse.map (fun i => htonl linux_x86_64 (ipv4 10 0 0 (i + 2)))⟩ ∧
    int_sub (ntohl linux_x86_64 (htonl linux_x86_64 (ipv4 10 0 0 31))) (ipv4 10 0 0 0) = 31 ∧
    dhcpv4_put_ip linux_x86_64
        ⟨[], some ⟨ipv4 10 0 0 1, ipv4 10 0 0 0, 25, 0, 2, [0, 0x7fffffff]⟩⟩
        (htonl linux_x86_64 (ipv4 10 0 0 31))
      = ⟨[], some ⟨ipv4 10 0 0 1, ipv4 10 0 0 0, 25, 0, 2, [0xffffffff80000000, 0x7fffffff]⟩⟩ ∧
    (0 : Nat).testBit 32 = false ∧ (0xffffffff80000000 : Nat).testBit 32 = true := by
  refine ⟨by decide, by decide, by decide, by decide, by decide⟩


/-! ## Option 82 -/

/-- The bound on the iterations of the loop of `parse_opt82` never cuts the
loop short: any bound of at least `endptr - ptr` gives the same result. -/
theorem parse_opt82_loop_fuel (data : Nat → Nat) (endptr : Nat) :
    ∀ f1 f2 ptr pack, endptr - ptr ≤ f1 → endptr - ptr ≤ f2 →
      parse_opt82_loop data endptr f1 ptr pack = parse_opt82_loop data endptr f2 ptr pack := by
  intro f1
  induction f1 with
  | zero =>
    intro f2 ptr pack h1 _
    cases f2 with
    | zero => rfl
    | succ m => simp only [parse_opt82_loop]; rw [if_neg (by omega)]
  | succ n ih =>
    intro f2 ptr pack h1 h2
    cases f2 with
    | zero => simp only [parse_opt82_loop]; rw [if_neg (by omega)]
    | succ m =>
      simp only [parse_opt82_loop]
      split
      · split
        · rfl
        · exact ih m _ _ (by omega) (by omega)
      · rfl

/-- The loop of `parse_opt82` never resets an entry: a circuit-id or remote-id
that is set stays set, whether the function fails or not. -/
theorem parse_opt82_loop_keeps (data : Nat → Nat) (endptr : Nat) : ∀ fuel ptr pack,
    (pack.agent_circuit_id ≠ none →
      (parse_opt82_loop data endptr fuel ptr pack).2.agent_circuit_id ≠ none) ∧
    (pack.agent_remote_id ≠ none →
      (parse_opt82_loop data endptr fuel ptr pack).2.agent_remote_id ≠ none) := by
  intro fuel
  induction fuel with
  | zero => intro ptr pack; exact ⟨id, id⟩
  | succ n ih =>
    intro ptr pack
    unfold parse_opt82_loop
    split
    · simp only
      split
      · exact ⟨id, id⟩
      · split
        · exact ⟨fun _ => (ih _ _).1 (by simp), fun h => (ih _ _).2 h⟩
        · split
          · exact ⟨fun h => (ih _ _).1 h, fun _ => (ih _ _).2 (by simp)⟩
          · exact ih _ _
    · exact ⟨id, id⟩

/-- The packet after a sub-option of type `t` and length `l` whose data start
at `d`. -/
theorem parse_opt82_step (data : Nat → Nat) (pack : dhcpv4_packet) (d l : Nat)
    (hfit : 2 + rd data (d + 1) ≤ l) :
    parse_opt82 data pack ⟨82, l, d⟩
      = parse_opt82 data
          (if rd data d = 1 then
            { pack with agent_circuit_id := some ⟨rd data d, rd data (d + 1), d + 2⟩ }
          else if rd data d = 2 then
            { pack with agent_remote_id := some ⟨rd data d, rd data (d + 1), d + 2⟩ }
          else pack)
          ⟨82, l - (2 + rd data (d + 1)), d + 2 + rd data (d + 1)⟩ := by
  unfold parse_opt82
  simp only
  obtain ⟨m, rfl⟩ : ∃ m, l = m + 1 := ⟨l - 1, by omega⟩
  conv => lhs; unfold parse_opt82_loop
  rw [if_pos (by omega)]
  simp only
  rw [if_neg (by omega)]
  have e : d + 2 + rd data (d + 1) + (m + 1 - (2 + rd data (d + 1))) = d + (m + 1) := by omega
  rw [e]
  exact parse_opt82_loop_fuel data _ _ _ _ _ (by omega) (by omega)

/-- A sub-option that overruns option 82 at its start: `parse_opt82` fails and
leaves the packet as it is. -/
theorem parse_opt82_overrun (data : Nat → Nat) (pack : dhcpv4_packet) (d l : Nat)
    (h1 : 1 ≤ l) (hover : l < 2 + rd data (d + 1)) :
    parse_opt82 data pack ⟨82, l, d⟩ = (false, pack) := by
  unfold parse_opt82
  simp only
  obtain ⟨m, rfl⟩ : ∃ m, l = m + 1 := ⟨l - 1, by omega⟩
  unfold parse_opt82_loop
  rw [if_pos (by omega)]
  simp only
  rw [if_pos (by omega)]


set_option maxRecDepth 100000 in
/-- Counterexample to C22 as stated: in this Discover the second sub-option of
option 82 declares 9 bytes where 1 is left, so `parse_opt82` fails;
`dhcpv4_parse_packet` succeeds, and the circuit-id entry is not empty: it is
the first sub-option. -/
theorem opt82_circuit_id_kept :
    (parse_opt82 (buf_of (sample_header ++ [53, 1, 1, 82, 5, 1, 1, 0xaa, 2, 9, 255]))
        ⟨[⟨53, 1, 242⟩, ⟨82, 5, 245⟩], none, none, 0, 0, 1⟩ ⟨82, 5, 245⟩).1 = false ∧
    dhcpv4_parse_packet linux_x86_64 (fun _ => false)
        (buf_of (sample_header ++ [53, 1, 1, 82, 5, 1, 1, 0xaa, 2, 9, 255])) 251
      = some ⟨[⟨53, 1, 242⟩, ⟨82, 5, 245⟩], some ⟨1, 1, 247⟩, none, 0, 0, 1⟩ := by
  constructor
  · decide
  · decide


/-! ## Return value of a transmission -/

/-- The value `dhcpv4_send` returns, from the value `n` that the one write call
returned: on the UDP path 0 exactly when `n` is the length of the message, on
the raw path 0 exactly when `n` is not negative. -/
theorem send_return_value (T : Target) (serv : dhcpv4_serv) (buf : List Nat)
    (saddr daddr : Nat) (n : Int) :
    (load32 T (buf_of buf) hdr_giaddr ≠ 0 →
      ((dhcpv4_send T serv buf saddr daddr n).2 = 0 ↔ n = (buf.length : Int)) ∧
      ((dhcpv4_send T serv buf saddr daddr n).2 = -1 ↔ n ≠ (buf.length : Int))) ∧
    (load32 T (buf_of buf) hdr_giaddr = 0 →
      ((dhcpv4_send T serv buf saddr daddr n).2 = 0 ↔ 0 ≤ n) ∧
      ((dhcpv4_send T serv buf saddr daddr n).2 = -1 ↔ n < 0)) := by
  constructor
  · intro h
    unfold dhcpv4_send dhcpv4_send_udp
    rw [if_pos h]
    simp only
    by_cases e : n = (buf.length : Int)
    · simp [e]
    · simp [e]
  · intro h
    unfold dhcpv4_send dhcpv4_send_raw
    rw [if_neg (by simp [h])]
    simp only
    by_cases e : n < 0
    · simp [e]
    · simp [e]
      omega

set_option maxRecDepth 100000 in
/-- C23 at a failing input: on x86-64 the Nak for a sample request without
relay (`giaddr` zero) goes out on the raw path, 42 header bytes and 244 message
bytes. When `writev` reports 10 bytes written, a short write, `dhcpv4_send_nak`
returns 0. For the same request with `giaddr` 10.0.0.9 the Nak goes out on the
UDP path, and a report of 10 bytes makes `dhcpv4_send_nak` return -1. -/
theorem raw_short_write_returns_ok :
    dhcpv4_send_nak linux_x86_64 ⟨[2, 0, 0, 0, 0, 1], none⟩
        (buf_of (sample_header ++ [53, 1, 3, 255])) 10
      = (transmission.raw
          (raw_header linux_x86_64 ⟨[2, 0, 0, 0, 0, 1], none⟩
            (dhcpv4_send_nak_packet linux_x86_64 (buf_of (sample_header ++ [53, 1, 3, 255]))).1
            0 0xffffffff)
          (dhcpv4_send_nak_packet linux_x86_64 (buf_of (sample_header ++ [53, 1, 3, 255]))).1,
        0) ∧
    (raw_header linux_x86_64 ⟨[2, 0, 0, 0, 0, 1], none⟩
        (dhcpv4_send_nak_packet linux_x86_64 (buf_of (sample_header ++ [53, 1, 3, 255]))).1
        0 0xffffffff).length = 42 ∧
    (dhcpv4_send_nak_packet linux_x86_64 (buf_of (sample_header ++ [53, 1, 3, 255]))).1.length
      = 244 ∧
    dhcpv4_send_nak linux_x86_64 ⟨[2, 0, 0, 0, 0, 1], none⟩
        (buf_of (set_bytes sample_header hdr_giaddr [10, 0, 0, 9] ++ [53, 1, 3, 255])) 10
      = (transmission.udp (load32 linux_x86_64 (buf_of [10, 0, 0, 9]) 0) (htons linux_x86_64 68)
          (dhcpv4_send_nak_packet linux_x86_64
            (buf_of (set_bytes sample_header hdr_giaddr [10, 0, 0, 9] ++ [53, 1, 3, 255]))).1,
        -1) := by
  refine ⟨by decide, by decide, by decide, by decide⟩


/-! ## Reads beyond the received data -/

theorem parse_opt82_loop_congr (d1 d2 : Nat → Nat) (endptr : Nat)
    (h : ∀ i, i ≤ endptr → rd d1 i = rd d2 i) : ∀ fuel ptr pack,
    parse_opt82_loop d1 endptr fuel ptr pack = parse_opt82_loop d2 endptr fuel ptr pack := by
  intro fuel
  induction fuel with
  | zero => intro ptr pack; rfl
  | succ n ih =>
    intro ptr pack
    unfold parse_opt82_loop
    by_cases hlt : ptr < endptr
    · rw [if_pos hlt, if_pos hlt, h ptr (by omega), h (ptr + 1) (by omega)]
      simp only [ih]
    · rw [if_neg hlt, if_neg hlt]

theorem record_option_congr (T : Target) (d1 d2 : Nat → Nat) (E : Nat)
    (h : ∀ i, i < E + 4 → rd d1 i = rd d2 i) (pack : dhcpv4_packet) (opt : dhcpv4_option)
    (hfit : opt.data + opt.len ≤ E) :
    record_option T d1 pack opt = record_option T d2 pack opt := by
  have hl : load32 T d1 opt.data = load32 T d2 opt.data := by
    unfold load32
    rw [h opt.data (by omega), h (opt.data + 1) (by omega), h (opt.data + 2) (by omega),
      h (opt.data + 3) (by omega)]
  unfold record_option parse_opt82
  rw [h opt.data (by omega), hl,
    parse_opt82_loop_congr d1 d2 _ (fun i hi => h i (by omega))]

/-- The option loop gives the same result on two buffers that agree on the
received bytes and on the four bytes after them. -/
theorem parse_options_loop_congr (T : Target) (d1 d2 : Nat → Nat) (endptr : Nat)
    (h : ∀ i, i < endptr + 4 → rd d1 i = rd d2 i) : ∀ fuel ptr pack,
    parse_options_loop T d1 endptr fuel ptr pack
      = parse_options_loop T d2 endptr fuel ptr pack := by
  intro fuel
  induction fuel with
  | zero => intro ptr pack; rfl
  | succ n ih =>
    intro ptr pack
    unfold parse_options_loop
    by_cases hlt : ptr < endptr
    · rw [if_pos hlt, if_pos hlt, h ptr (by omega), h (ptr + 1) (by omega)]
      simp only
      split
      · exact ih _ _
      · split
        · rfl
        · split
          · rfl
          · rename_i hfit
            rw [record_option_congr T d1 d2 endptr h _ _ (by simp only; omega)]
            exact ih _ _
    · rw [if_neg hlt, if_neg hlt]

/-- A bound on what `dhcpv4_parse_packet` reads: its result is the same on two
buffers that agree on the received bytes and on the four bytes after them. -/
theorem parse_packet_congr (T : Target) (chk : dhcpv4_packet → Bool) (d1 d2 : Nat → Nat)
    (len : Nat) (h : ∀ i, i < len + 4 → rd d1 i = rd d2 i) :
    dhcpv4_parse_packet T chk d1 len = dhcpv4_parse_packet T chk d2 len := by
  unfold dhcpv4_parse_packet
  by_cases hlen : len < sizeof_dhcpv4_hdr
  · rw [if_pos hlen, if_pos hlen]
  · have h240 : 240 ≤ len := by unfold sizeof_dhcpv4_hdr at hlen; omega
    have hm : (List.range 4).map (fun i => rd d1 (hdr_magic + i))
        = (List.range 4).map (fun i => rd d2 (hdr_magic + i)) := by
      apply List.map_congr_left
      intro i hi
      have : i < 4 := List.mem_range.mp hi
      exact h _ (by unfold hdr_magic; omega)
    rw [if_neg hlen, if_neg hlen, h hdr_op (by unfold hdr_op; omega),
      h hdr_htype (by unfold hdr_htype; omega), h hdr_hlen (by unfold hdr_hlen; omega), hm,
      parse_options_loop_congr T d1 d2 len h]

set_option maxRecDepth 100000 in
/-- C24 at failing inputs, on x86-64. A message of 242 received bytes that ends
in an option 53 of length 0: the buffers below agree on all 242 received bytes
and differ in the byte at offset 242 only, and `dhcpv4_parse_packet` accepts
the one with message type 1 and rejects the other, so the message type is
taken from offset 242, outside the received data and outside the (empty) data
of the option. A message of 245 received bytes that ends in an option 50 of
length 0: the requested address is the four bytes at offsets 245 to 248. -/
theorem parse_reads_past_end :
    (sample_header ++ [53, 0, 1]).take 242 = (sample_header ++ [53, 0, 9]).take 242 ∧
    dhcpv4_parse_packet linux_x86_64 (fun _ => false) (buf_of (sample_header ++ [53, 0, 1])) 242
      = some ⟨[⟨53, 0, 242⟩], none, none, 0, 0, 1⟩ ∧
    dhcpv4_parse_packet linux_x86_64 (fun _ => false) (buf_of (sample_header ++ [53, 0, 9])) 242
      = none ∧
    dhcpv4_parse_packet linux_x86_64 (fun _ => false)
        (buf_of (sample_header ++ [53, 1, 1, 50, 0, 1, 2, 3, 4])) 245
      = some ⟨[⟨53, 1, 242⟩, ⟨50, 0, 245⟩], none, none, 0x04030201, 0, 1⟩ ∧
    dhcpv4_parse_packet linux_x86_64 (fun _ => false)
        (buf_of (sample_header ++ [53, 1, 1, 50, 0])) 245
      = some ⟨[⟨53, 1, 242⟩, ⟨50, 0, 245⟩], none, none, 0, 0, 1⟩ := by
  refine ⟨by decide, by decide, by decide, by decide, by decide⟩


/-! ## The kind byte on a big-endian host -/

set_option maxRecDepth 100000 in
/-- C13 at a failing input: on a big-endian host (MIPS) the Offer built by
`dhcpv4_send_reply` for a sample Discover, with server 10.0.0.1, mask 24 and
lease time 3600, has the option bytes 53, 1, 0 where the kind of an Offer is 2:
the one byte copied from the `int` kind is its most significant byte. The
options that follow are as they should be. -/
theorem reply_kind_lost_big_endian :
    (dhcpv4_send_reply_packet linux_mips_be 0 0 DHCPOFFER
        (buf_of (sample_header ++ [53, 1, 1, 255]))
        (htonl linux_mips_be (ipv4 10 0 0 5)) (htonl linux_mips_be (ipv4 10 0 0 1)) 24
        3600).1.drop sizeof_dhcpv4_hdr
      = [53, 1, 0, 54, 4, 10, 0, 0, 1, 51, 4, 0, 0, 14, 16, 3, 4, 10, 0, 0, 1,
         1, 4, 255, 255, 255, 0, 255] ∧
    DHCPOFFER = 2 ∧ int_bytes linux_mips_be DHCPOFFER = [0, 0, 0, 2] := by
  refine ⟨by decide, by decide, by decide⟩

set_option maxRecDepth 100000 in
/-- C16 at a failing input: on a big-endian host (MIPS) the Nak built by
`dhcpv4_send_nak` for a sample request has the option area 53, 1, 0, 255 where
the kind of a Nak is 6: the one byte copied from the `int val = DHCPNAK` is its
most significant byte. -/
theorem nak_kind_lost_big_endian :
    (dhcpv4_send_nak_packet linux_mips_be
        (buf_of (sample_header ++ [53, 1, 3, 255]))).1.drop sizeof_dhcpv4_hdr
      = [53, 1, 0, 255] ∧
    DHCPNAK = 6 ∧ int_bytes linux_mips_be DHCPNAK = [0, 0, 0, 6] := by
  refine ⟨by decide, by decide, by decide⟩


/-! ## Option 82 against the decoder of the specification -/

theorem last_suboption_cons (t : Nat) (o : dhcpv4_option) (subs : List dhcpv4_option)
    (init : Option dhcpv4_option) :
    last_suboption t (o :: subs) init
      = last_suboption t subs (if o.type = t then some o else init) := rfl

/-- The bound on the steps of the sub-option decoder never cuts it short: any
bound of at least the number of bytes gives the same result. -/
theorem decode_suboptions_steps_fuel : ∀ (n1 n2 off : Nat) (bytes : List Nat),
    bytes.length ≤ n1 → bytes.length ≤ n2 →
    decode_suboptions_steps n1 off bytes = decode_suboptions_steps n2 off bytes := by
  intro n1
  induction n1 with
  | zero =>
    intro n2 off bytes h1 _
    have : bytes = [] := List.length_eq_zero.mp (by omega)
    subst this
    cases n2 <;> rfl
  | succ n ih =>
    intro n2 off bytes h1 h2
    match bytes, n2, h1, h2 with
    | [], 0, _, _ => rfl
    | [], _ + 1, _, _ => rfl
    | [_], 0, _, h2 => simp at h2
    | [_], _ + 1, _, _ => rfl
    | _ :: _ :: _, 0, _, h2 => simp at h2
    | t :: l :: body, m + 1, h1, h2 =>
      simp only [decode_suboptions_steps]
      simp only [List.length_cons] at h1 h2
      split
      · rfl
      · rename_i hfit
        have hd : (body.drop l).length ≤ body.length := by
          rw [List.length_drop]; omega
        rw [ih m (off + 2 + l) (body.drop l) (by omega) (by omega)]

/-- The loop of `parse_opt82` against the sub-option decoder of the
specification: the function fails exactly when the decoder meets an overrun,
and in either case the circuit-id (remote-id) entry is the last sub-option of
type 1 (type 2) that the decoder lists, or the entry as it was when the decoder
lists none; nothing else of the packet changes. -/
theorem parse_opt82_loop_spec (data : Nat → Nat) (endptr : Nat) :
    ∀ fuel ptr pack, ptr ≤ endptr →
    parse_opt82_loop data endptr fuel ptr pack
      = ((decode_suboptions_steps fuel ptr (buf_bytes data ptr (endptr - ptr))).2,
         { pack with
           agent_circuit_id := last_suboption 1
             (decode_suboptions_steps fuel ptr (buf_bytes data ptr (endptr - ptr))).1
             pack.agent_circuit_id,
           agent_remote_id := last_suboption 2
             (decode_suboptions_steps fuel ptr (buf_bytes data ptr (endptr - ptr))).1
             pack.agent_remote_id }) := by
  intro fuel
  induction fuel with
  | zero =>
    intro ptr pack _
    cases pack
    rfl
  | succ n ih =>
    intro ptr pack hle
    unfold parse_opt82_loop
    by_cases hlt : ptr < endptr
    · rw [if_pos hlt]
      simp only
      obtain ⟨k, hk⟩ : ∃ k, endptr - ptr = k + 1 := ⟨endptr - ptr - 1, by omega⟩
      rw [hk]
      cases k with
      | zero =>
        rw [if_pos (by omega)]
        cases pack
        rfl
      | succ k =>
        have hb : buf_bytes data ptr (k + 1 + 1)
            = rd data ptr :: rd data (ptr + 1) :: buf_bytes data (ptr + 1 + 1) k := rfl
        rw [hb]
        simp only [decode_suboptions_steps, buf_bytes_length]
        by_cases hover : ptr + 2 + rd data (ptr + 1) > endptr
        · have hc : k < rd data (ptr + 1) := by omega
          rw [if_pos hover, if_pos hc]
          cases pack
          rfl
        · have hc : ¬ k < rd data (ptr + 1) := by omega
          rw [if_neg hover, if_neg hc]
          have hdrop : (buf_bytes data (ptr + 1 + 1) k).drop (rd data (ptr + 1))
              = buf_bytes data (ptr + 2 + rd data (ptr + 1))
                  (endptr - (ptr + 2 + rd data (ptr + 1))) := by
            rw [buf_bytes_drop data (rd data (ptr + 1)) k (ptr + 1 + 1) (by omega)]
            congr 1
            omega
          rw [hdrop, ih (ptr + 2 + rd data (ptr + 1)) _ (by omega)]
          simp only [last_suboption_cons]
          by_cases h1 : rd data ptr = 1
          · simp [h1]
          · by_cases h2 : rd data ptr = 2
            · simp [h2]
            · simp [h1, h2]
    · rw [if_neg hlt]
      have : endptr - ptr = 0 := by omega
      rw [this]
      cases pack
      rfl

/-- Function `parse_opt82` against the sub-option decoder of the
specification. -/
theorem parse_opt82_spec (data : Nat → Nat) (pack : dhcpv4_packet) (opt : dhcpv4_option) :
    parse_opt82 data pack opt
      = ((decode_suboptions opt.data (buf_bytes data opt.data opt.len)).2,
         { pack with
           agent_circuit_id := last_suboption 1
             (decode_suboptions opt.data (buf_bytes data opt.data opt.len)).1
             pack.agent_circuit_id,
           agent_remote_id := last_suboption 2
             (decode_suboptions opt.data (buf_bytes data opt.data opt.len)).1
             pack.agent_remote_id }) := by
  unfold parse_opt82 decode_suboptions
  rw [parse_opt82_loop_spec data _ _ _ _ (by omega), buf_bytes_length,
    Nat.add_sub_cancel_left]

/-- C22 (option 82, soft failure), as amended: for an option 82 that fits the
received data, the option loop goes on with the next option whatever
`parse_opt82` returns, so a failure of the sub-option parsing does not make
`dhcpv4_parse_packet` fail. `parse_opt82` fails exactly when a sub-option would
end beyond the data of option 82. Failed or not, it leaves as circuit-id entry
the last sub-option of type 1 among the sub-options that lie wholly inside
option 82 before the overrun (with the type, length and data offset of that
sub-option), or the entry as it was before when there is none; likewise the
remote-id entry with type 2; and it changes nothing else of the packet. -/
theorem opt82_soft_failure (T : Target) (data : Nat → Nat) (endptr fuel ptr : Nat)
    (pack : dhcpv4_packet) (l : Nat) (h82 : rd data ptr = 82) (hl : rd data (ptr + 1) = l)
    (hfit : ptr + 2 + l ≤ endptr) :
    parse_options_loop T data endptr (fuel + 1) ptr pack
      = parse_options_loop T data endptr fuel (ptr + 2 + l)
          (parse_opt82 data { pack with options := pack.options ++ [⟨82, l, ptr + 2⟩] }
            ⟨82, l, ptr + 2⟩).2 ∧
    parse_opt82 data { pack with options := pack.options ++ [⟨82, l, ptr + 2⟩] }
        ⟨82, l, ptr + 2⟩
      = ((decode_suboptions (ptr + 2) (buf_bytes data (ptr + 2) l)).2,
         { pack with
           options := pack.options ++ [⟨82, l, ptr + 2⟩],
           agent_circuit_id := last_suboption 1
             (decode_suboptions (ptr + 2) (buf_bytes data (ptr + 2) l)).1 pack.agent_circuit_id,
           agent_remote_id := last_suboption 2
             (decode_suboptions (ptr + 2) (buf_bytes data (ptr + 2) l)).1
             pack.agent_remote_id }) := by
  constructor
  · rw [parse_options_loop_step T data endptr fuel ptr pack 82 l h82 hl (by decide) (by decide)
      hfit]
    rfl
  · rw [parse_opt82_spec]

set_option maxRecDepth 100000 in
/-- Witness for `opt82_soft_failure`: a Discover on x86-64 whose option 82 of
length 5 holds a circuit-id sub-option of one byte and then a sub-option that
declares 9 bytes. The decoder lists the circuit-id sub-option and reports the
overrun; `parse_opt82` fails and the circuit-id entry is that sub-option. -/
theorem opt82_soft_failure_witness :
    decode_suboptions (243 + 2)
        (buf_bytes (buf_of (sample_header ++ [53, 1, 1, 82, 5, 1, 1, 0xaa, 2, 9, 255]))
          (243 + 2) 5)
      = ([⟨1, 1, 247⟩], false) ∧
    parse_opt82 (buf_of (sample_header ++ [53, 1, 1, 82, 5, 1, 1, 0xaa, 2, 9, 255]))
        ⟨[⟨53, 1, 242⟩] ++ [⟨82, 5, 243 + 2⟩], none, none, 0, 0, 1⟩ ⟨82, 5, 243 + 2⟩
      = (false, ⟨[⟨53, 1, 242⟩, ⟨82, 5, 245⟩], some ⟨1, 1, 247⟩, none, 0, 0, 1⟩) ∧
    parse_options_loop linux_x86_64
        (buf_of (sample_header ++ [53, 1, 1, 82, 5, 1, 1, 0xaa, 2, 9, 255])) 251 (7 + 1) 243
        ⟨[⟨53, 1, 242⟩], none, none, 0, 0, 1⟩
      = parse_options_loop linux_x86_64
          (buf_of (sample_header ++ [53, 1, 1, 82, 5, 1, 1, 0xaa, 2, 9, 255])) 251 7 (243 + 2 + 5)
          (parse_opt82 (buf_of (sample_header ++ [53, 1, 1, 82, 5, 1, 1, 0xaa, 2, 9, 255]))
            ⟨[⟨53, 1, 242⟩] ++ [⟨82, 5, 243 + 2⟩], none, none, 0, 0, 1⟩ ⟨82, 5, 243 + 2⟩).2 := by
  have h := opt82_soft_failure linux_x86_64
    (buf_of (sample_header ++ [53, 1, 1, 82, 5, 1, 1, 0xaa, 2, 9, 255])) 251 7 243
    ⟨[⟨53, 1, 242⟩], none, none, 0, 0, 1⟩ 5 (by decide) (by decide) (by decide)
  refine ⟨by decide, ?_, h.1⟩
  rw [h.2]
  decide


/-! ## `parse_range` on the string -/

theorem digit_char (d : Nat) (h : d < 10) :
    (Char.ofNat (48 + d)).isDigit = true ∧ (Char.ofNat (48 + d)).toNat - 48 = d ∧
    isspace (Char.ofNat (48 + d)) = false ∧ (Char.ofNat (48 + d)).toNat ≠ 45 ∧
    (Char.ofNat (48 + d)).toNat ≠ 43 := by
  interval_cases d <;> decide

/-- The digits of a decimal field are taken whole when what follows is not a
digit. -/
theorem scan_digits_field : ∀ (ds : List Nat) (acc : Nat) (rest : List Char),
    (∀ d, d ∈ ds → d < 10) → (∀ c r, rest = c :: r → c.isDigit = false) →
    scan_digits (decimal_field ds ++ rest) acc
      = (ds.foldl (fun a d => a * 10 + d) acc, rest) := by
  intro ds
  induction ds with
  | nil =>
    intro acc rest _ hrest
    cases rest with
    | nil => rfl
    | cons c r =>
      simp only [decimal_field, List.map_nil, List.nil_append, scan_digits, List.foldl_nil]
      rw [hrest c r rfl]
      rfl
  | cons d ds ih =>
    intro acc rest hd hrest
    obtain ⟨h1, h2, _⟩ := digit_char d (hd d (List.mem_cons_self _ _))
    have e : decimal_field (d :: ds) ++ rest
        = Char.ofNat (48 + d) :: (decimal_field ds ++ rest) := rfl
    rw [e]
    simp only [scan_digits]
    rw [if_pos h1, h2, List.foldl_cons]
    exact ih _ rest (fun x hx => hd x (List.mem_cons_of_mem _ hx)) hrest

/-- One `%u` conversion on a decimal field followed by something that is not a
digit: the value of the field, as `strtoul` and the store into an `unsigned
int` leave it. -/
theorem scan_u_field (T : Target) (ds : List Nat) (rest : List Char) (hne : ds ≠ [])
    (hd : ∀ d, d ∈ ds → d < 10) (hrest : ∀ c r, rest = c :: r → c.isDigit = false) :
    scan_u T (decimal_field ds ++ rest)
      = scan_result.ok (strtoul_value T false (decimal_value ds) % 2 ^ 32) rest := by
  obtain ⟨d, ds1, rfl⟩ := List.exists_cons_of_ne_nil hne
  obtain ⟨h1, _, h3, h4, h5⟩ := digit_char d (hd d (List.mem_cons_self _ _))
  have hs := scan_digits_field (d :: ds1) 0 rest hd hrest
  have e : decimal_field (d :: ds1) ++ rest
      = Char.ofNat (48 + d) :: (decimal_field ds1 ++ rest) := rfl
  rw [e] at hs ⊢
  unfold scan_u
  simp only [skip_space, h3, Bool.false_eq_true, if_false, h4, h5, or_self, decide_False, h1,
    if_true, hs]
  rfl

theorem expect_char_cons (ch : Nat) (rest : List Char) (h : ch < 128) :
    expect_char ch (Char.ofNat ch :: rest) = some rest := by
  have : (Char.ofNat ch).toNat = ch := by
    interval_cases ch <;> rfl
  show (if (Char.ofNat ch).toNat = ch then some rest else none) = some rest
  rw [if_pos this]

/-- What `sscanf` stores for a string `a.b.c.d/m` of five unsigned decimal
fields: five conversions, each field converted by `strtoul` and reduced modulo
`2^32`. -/
theorem sscanf_range_fields (T : Target) (a b c d m : List Nat)
    (ha : a ≠ []) (hb : b ≠ []) (hc : c ≠ []) (hd : d ≠ []) (hm : m ≠ [])
    (da : ∀ x, x ∈ a → x < 10) (db : ∀ x, x ∈ b → x < 10) (dc : ∀ x, x ∈ c → x < 10)
    (dd : ∀ x, x ∈ d → x < 10) (dm : ∀ x, x ∈ m → x < 10) :
    sscanf_range T (range_string a b c d m)
      = (5, strtoul_value T false (decimal_value a) % 2 ^ 32,
          strtoul_value T false (decimal_value b) % 2 ^ 32,
          strtoul_value T false (decimal_value c) % 2 ^ 32,
          strtoul_value T false (decimal_value d) % 2 ^ 32,
          strtoul_value T false (decimal_value m) % 2 ^ 32) := by
  have e : range_string a b c d m
      = decimal_field a ++ (Char.ofNat 46 :: (decimal_field b ++ (Char.ofNat 46 ::
          (decimal_field c ++ (Char.ofNat 46 :: (decimal_field d ++ (Char.ofNat 47 ::
          (decimal_field m ++ [])))))))) := by
    unfold range_string
    simp only [List.append_assoc, List.singleton_append, List.append_nil, List.cons_append,
      List.nil_append]
  have n46 : ∀ (x : Char) (r0 r : List Char), Char.ofNat 46 :: r0 = x :: r → x.isDigit = false := by
    intro x r0 r h
    rw [← (List.cons.inj h).1]
    decide
  have n47 : ∀ (x : Char) (r0 r : List Char), Char.ofNat 47 :: r0 = x :: r → x.isDigit = false := by
    intro x r0 r h
    rw [← (List.cons.inj h).1]
    decide
  have nnil : ∀ (x : Char) (r : List Char), ([] : List Char) = x :: r → x.isDigit = false := by
    intro x r h
    cases h
  rw [e]
  unfold sscanf_range
  rw [scan_u_field T a _ ha da (fun x r h => n46 x _ r h)]
  simp only [expect_char_cons 46 _ (by decide), Option.map_some']
  rw [scan_u_field T b _ hb db (fun x r h => n46 x _ r h)]
  simp only [expect_char_cons 46 _ (by decide), Option.map_some']
  rw [scan_u_field T c _ hc dc (fun x r h => n46 x _ r h)]
  simp only [expect_char_cons 46 _ (by decide), Option.map_some']
  rw [scan_u_field T d _ hd dd (fun x r h => n47 x _ r h)]
  simp only [expect_char_cons 47 _ (by decide), Option.map_some']
  rw [scan_u_field T m _ hm dm nnil]


theorem strtoul_value_small (T : Target) (hT : 4 ≤ T.sizeof_long) (v : Nat) (h : v < 2 ^ 32) :
    strtoul_value T false v % 2 ^ 32 = v := by
  have hW := long_bits_ge T hT
  have hp : (2:Nat) ^ 32 ≤ 2 ^ long_bits T := Nat.pow_le_pow_right (by omega) hW
  unfold strtoul_value
  rw [if_neg (by omega)]
  simp only [Bool.false_eq_true, if_false]
  exact Nat.mod_eq_of_lt h

theorem strtoul_value_long32 (T : Target) (h4 : T.sizeof_long = 4) (v : Nat) :
    strtoul_value T false v % 2 ^ 32 = min v (2 ^ 32 - 1) := by
  have hW : long_bits T = 32 := by unfold long_bits; omega
  unfold strtoul_value
  rw [hW]
  simp only [Bool.false_eq_true, if_false]
  split <;> omega

/-- Where no field reaches `2^32`, `parse_range` on the string `a.b.c.d/m` is
`parse_range` on the values of the five fields: it fails exactly when some
octet exceeds 255 or `m` is 0 or exceeds 30, and on success the start address
is the address with its low `32 - m` bits cleared, the router address is the
start address plus 1 and the mask is `m`. -/
theorem parse_range_str_small (T : Target) (hT : 4 ≤ T.sizeof_long) (a b c d m : List Nat)
    (ha : a ≠ []) (hb : b ≠ []) (hc : c ≠ []) (hd : d ≠ []) (hm : m ≠ [])
    (da : ∀ x, x ∈ a → x < 10) (db : ∀ x, x ∈ b → x < 10) (dc : ∀ x, x ∈ c → x < 10)
    (dd : ∀ x, x ∈ d → x < 10) (dm : ∀ x, x ∈ m → x < 10)
    (va : decimal_value a < 2 ^ 32) (vb : decimal_value b < 2 ^ 32)
    (vc : decimal_value c < 2 ^ 32) (vd : decimal_value d < 2 ^ 32)
    (vm : decimal_value m < 2 ^ 32) :
    parse_range_str T (range_string a b c d m)
      = parse_range T 5 (decimal_value a) (decimal_value b) (decimal_value c)
          (decimal_value d) (decimal_value m) ∧
    (parse_range_str T (range_string a b c d m) = none ↔
      (255 < decimal_value a ∨ 255 < decimal_value b ∨ 255 < decimal_value c ∨
        255 < decimal_value d ∨ decimal_value m = 0 ∨ 30 < decimal_value m)) ∧
    ∀ r, parse_range_str T (range_string a b c d m) = some r →
      r.startip = ipv4 (decimal_value a) (decimal_value b) (decimal_value c) (decimal_value d)
        - ipv4 (decimal_value a) (decimal_value b) (decimal_value c) (decimal_value d)
            % 2 ^ (32 - decimal_value m) ∧
      r.routerip = r.startip + 1 ∧ r.mask = decimal_value m := by
  have e : parse_range_str T (range_string a b c d m)
      = parse_range T 5 (decimal_value a) (decimal_value b) (decimal_value c)
          (decimal_value d) (decimal_value m) := by
    unfold parse_range_str
    rw [sscanf_range_fields T a b c d m ha hb hc hd hm da db dc dd dm]
    simp only [strtoul_value_small T hT _ va, strtoul_value_small T hT _ vb,
      strtoul_value_small T hT _ vc, strtoul_value_small T hT _ vd,
      strtoul_value_small T hT _ vm]
  obtain ⟨h1, h2⟩ := parse_range_accepts T (decimal_value a) (decimal_value b) (decimal_value c)
    (decimal_value d) (decimal_value m)
  refine ⟨e, by rw [e]; exact h1, ?_⟩
  intro r hr
  rw [e] at hr
  obtain ⟨x1, _, x3, x4⟩ := h2 r hr
  exact ⟨x1, x3, x4⟩

/-- On a target whose `long` has 32 bits a field that does not fit is stored as
`2^32 - 1`, so `parse_range` on the string `a.b.c.d/m` fails exactly when some
octet exceeds 255 or `m` is 0 or exceeds 30, whatever the size of the fields. -/
theorem parse_range_str_long32 (T : Target) (h4 : T.sizeof_long = 4) (a b c d m : List Nat)
    (ha : a ≠ []) (hb : b ≠ []) (hc : c ≠ []) (hd : d ≠ []) (hm : m ≠ [])
    (da : ∀ x, x ∈ a → x < 10) (db : ∀ x, x ∈ b → x < 10) (dc : ∀ x, x ∈ c → x < 10)
    (dd : ∀ x, x ∈ d → x < 10) (dm : ∀ x, x ∈ m → x < 10) :
    parse_range_str T (range_string a b c d m) = none ↔
      (255 < decimal_value a ∨ 255 < decimal_value b ∨ 255 < decimal_value c ∨
        255 < decimal_value d ∨ decimal_value m = 0 ∨ 30 < decimal_value m) := by
  unfold parse_range_str
  rw [sscanf_range_fields T a b c d m ha hb hc hd hm da db dc dd dm]
  simp only [strtoul_value_long32 T h4]
  rw [(parse_range_accepts T _ _ _ _ _).1]
  omega

set_option maxRecDepth 100000 in
/-- C7 at a failing input: the string `4294967296.0.0.1/24` has the form
`a.b.c.d/m` with unsigned decimal fields, and its first octet, 4294967296,
is greater than 255. On x86-64 `sscanf` stores the octet in an `unsigned int`
as 0, and `parse_range` accepts the string as the range 0.0.0.0/24 with router
0.0.0.1. (With a 4-byte `long` the octet is stored as `2^32 - 1` and the string
is refused.) -/
theorem parse_range_wraps_octet :
    ("4294967296.0.0.1/24").toList
      = range_string [4, 2, 9, 4, 9, 6, 7, 2, 9, 6] [0] [0] [1] [2, 4] ∧
    decimal_value [4, 2, 9, 4, 9, 6, 7, 2, 9, 6] = 4294967296 ∧
    sscanf_range linux_x86_64 ("4294967296.0.0.1/24").toList = (5, 0, 0, 0, 1, 24) ∧
    (parse_range_str linux_x86_64 ("4294967296.0.0.1/24").toList).map
        (fun r => (r.startip, r.routerip, r.mask))
      = some (ipv4 0 0 0 0, ipv4 0 0 0 1, 24) ∧
    parse_range_str linux_i386 ("4294967296.0.0.1/24").toList = none := by
  refine ⟨by decide, by decide, by decide, by decide, by decide⟩

end Dhcpv4
